import Mathlib

/-!
# Run-length-encoded sequence container (`til::basic_rle`, `src/inc/til/rle.h`)

A shallow embedding of the container and of the operations on it.

* The size type `S` is an unsigned machine integer.  It is modelled by `Nat`
  with an explicit bit width `w`: every addition and subtraction the source
  performs on `S` values wraps modulo `2 ^ w` (`addS`, `subS`).
* The run store (`std::vector<rle_pair<T, S>>`) is a `List`; an iterator into
  it is the index of the run it points to, the past-the-end iterator being the
  length of the list.
* Exceptions and accesses outside the run store are results in `Except Err`.
* The iterator over the logical sequence (`rle_iterator`) is the pair of a run
  index and a 1-based position inside that run; its `difference_type` comes
  from the run store's iterator and is taken as the integers.
* The parameters of `replace_values` are references (`const value_type&`): a
  `const_reference` refers to an object outside the run store or to the value
  of a run, and is read in the run store as it is at the moment of the read.
-/

namespace til

/-- Failure kinds: the two exceptions of the source (`std::out_of_range`, a
failed `Expects`), and an access through an iterator that does not point to an
element of the run store (undefined behaviour in the source). -/
inductive Err where
  | out_of_range
  | invalid
  | bad_access
deriving DecidableEq, Repr

/-- Addition on the `w`-bit unsigned size type. -/
def addS (w a b : Nat) : Nat := (a + b) % 2 ^ w

/-- Subtraction on the `w`-bit unsigned size type (wraps around below zero). -/
def subS (w a b : Nat) : Nat := (a + (2 ^ w - b % 2 ^ w)) % 2 ^ w

/-- The run record `rle_pair<T, S>`: a value and the number of times it is repeated. -/
structure rle_pair (T : Type) where
  value : T
  length : Nat
deriving DecidableEq, Repr

/-- The container `basic_rle<T, S, Container>`: the run store and the cached total length. -/
structure basic_rle (T : Type) where
  _runs : List (rle_pair T)
  _total_length : Nat
deriving DecidableEq, Repr

/-- State of `rle_scanner`: the run iterator `it` and the accumulated `total`
(the `end` iterator is the length of the run store; `run_pos` is reset by every
call of `scan`). -/
structure rle_scanner where
  it : Nat
  total : Nat
deriving DecidableEq, Repr

section defs

variable {T : Type} [DecidableEq T]

/-- The loop of `rle_scanner::scan` over the runs from `it` to `end`:
returns the final `it`, the final `total` and `run_pos`. -/
def rle_scanner.scanLoop (w index : Nat) : List (rle_pair T) → Nat → Nat → Nat × Nat × Nat
  | [], it, total => (it, total, 0)
  | r :: rest, it, total =>
    let new_total := addS w total r.length
    if new_total > index then
      (it, total, subS w index total)
    else
      rle_scanner.scanLoop w index rest (it + 1) new_total

/-- Member function `rle_scanner::scan(index)`: the scanner after the call and
the returned pair `(it, run_pos)`. -/
def rle_scanner.scan (w : Nat) (runs : List (rle_pair T)) (s : rle_scanner) (index : Nat) :
    rle_scanner × Nat × Nat :=
  let r := rle_scanner.scanLoop w index (runs.drop s.it) s.it s.total
  (⟨r.1, r.2.1⟩, r.1, r.2.2)

/-- Dereference of a run iterator. -/
def getRun (runs : List (rle_pair T)) (it : Nat) : Except Err (rle_pair T) :=
  match runs[it]? with
  | some r => .ok r
  | none => .error .bad_access

/-- Assignment to `it->length`. -/
def setLength (runs : List (rle_pair T)) (it : Nat) (f : Nat → Nat) :
    Except Err (List (rle_pair T)) :=
  match runs[it]? with
  | some r => .ok (runs.set it { r with length := f r.length })
  | none => .error .bad_access

/-- Member function `_runs.erase(first, last)`. -/
def eraseRange (runs : List (rle_pair T)) (first last : Nat) : Except Err (List (rle_pair T)) :=
  if first ≤ last ∧ last ≤ runs.length then .ok (runs.take first ++ runs.drop last)
  else .error .bad_access

/-- Algorithm `std::copy(src.begin(), src.end(), dst)` into the run store: the
store after the copy and the iterator past the last element written. -/
def copyInto (src : List (rle_pair T)) (runs : List (rle_pair T)) (dst : Nat) :
    Except Err (List (rle_pair T) × Nat) :=
  if dst + src.length ≤ runs.length then
    .ok (runs.take dst ++ src ++ runs.drop (dst + src.length), dst + src.length)
  else .error .bad_access

/-- Member function `_runs.insert(pos, ...)` of the elements `xs` before `pos`. -/
def insertAt (runs : List (rle_pair T)) (pos : Nat) (xs : List (rle_pair T)) :
    Except Err (List (rle_pair T)) :=
  if pos ≤ runs.length then .ok (runs.take pos ++ xs ++ runs.drop pos)
  else .error .bad_access

/-- Member function `basic_rle::size()`. -/
def basic_rle.size (c : basic_rle T) : Nat := c._total_length

/-- Member function `basic_rle::runs()`. -/
def basic_rle.runs (c : basic_rle T) : List (rle_pair T) := c._runs

/-- Member function `basic_rle::at(position)`. -/
def basic_rle.at (w : Nat) (c : basic_rle T) (position : Nat) : Except Err T :=
  let sc : rle_scanner := ⟨0, 0⟩
  let it := (sc.scan w c._runs position).2.1
  if it = c._runs.length then .error .out_of_range
  else (getRun c._runs it).map (fun r => r.value)

/-- Member function `basic_rle::slice(start_index, end_index)`. -/
def basic_rle.slice (w : Nat) (c : basic_rle T) (start_index end_index : Nat) :
    Except Err (basic_rle T) :=
  let end_index := if end_index > c._total_length then c._total_length else end_index
  if start_index ≥ end_index then .ok ⟨[], 0⟩
  else
    let sc0 : rle_scanner := ⟨0, 0⟩
    let r1 := sc0.scan w c._runs start_index
    let begin_run := r1.2.1
    let start_run_pos := r1.2.2
    let r2 := r1.1.scan w c._runs (subS w end_index 1)
    let end_run := r2.2.1
    let end_run_pos := r2.2.2
    -- container slice{ begin_run, end_run + 1 };
    if begin_run ≤ end_run + 1 ∧ end_run + 1 ≤ c._runs.length then
      let slice := (c._runs.drop begin_run).take (end_run + 1 - begin_run)
      do
        -- slice.back().length = end_run_pos + 1;
        let slice ← setLength slice (slice.length - 1) (fun _ => addS w end_run_pos 1)
        -- slice.front().length -= start_run_pos;
        let slice ← setLength slice 0 (fun l => subS w l start_run_pos)
        pure ⟨slice, subS w end_index start_index⟩
    else .error .bad_access

/-- Member function `basic_rle::_check_indices(start_index, end_index)`: the
clamped `end_index` (passed by reference in the source), or the exception. -/
def basic_rle._check_indices (c : basic_rle T) (start_index end_index : Nat) : Except Err Nat :=
  let end_index := if end_index > c._total_length then c._total_length else end_index
  if start_index > end_index then .error .out_of_range else .ok end_index

/-- The iterator `begin_pos ? begin : begin - 1` of `_replace`. -/
def previousIt (begin begin_pos : Nat) : Except Err Nat :=
  if begin_pos ≠ 0 then .ok begin
  else if begin = 0 then .error .bad_access
  else .ok (begin - 1)

/-- Splitting of the runs at `begin` / `end` in `_replace` (the two statements
`if (begin_pos) { begin->length = begin_pos; ++begin; }` and
`if (end_pos) { end->length -= end_pos; }`, which both branches of `_replace`
contain): the run store and `begin` afterwards. -/
def basic_rle._replace_split (w : Nat) (runs : List (rle_pair T))
    (begin begin_pos end_ end_pos : Nat) : Except Err (List (rle_pair T) × Nat) := do
  let (runs, begin) ←
    (if begin_pos ≠ 0 then do
      let runs ← setLength runs begin (fun _ => begin_pos)
      pure (runs, begin + 1)
    else pure (runs, begin) : Except Err _)
  let runs ←
    (if end_pos ≠ 0 then setLength runs end_ (fun l => subS w l end_pos)
    else pure runs : Except Err _)
  pure (runs, begin)

/-- Joining across the removed range in the branch `if (new_runs.empty())` of
`_replace` (the statement `if (start_index != 0 && end_index != _total_length)`):
the run store, `begin`, `begin_pos` and `end_pos` afterwards. -/
def basic_rle._replace_empty_join (w : Nat) (c : basic_rle T) (start_index end_index : Nat)
    (begin begin_pos end_ end_pos : Nat) : Except Err (List (rle_pair T) × Nat × Nat × Nat) :=
  let runs := c._runs
  if start_index ≠ 0 ∧ end_index ≠ c._total_length then do
    let previous ← previousIt begin begin_pos
    let pr ← getRun runs previous
    let er ← getRun runs end_
    if pr.value = er.value then
      -- end->length -= end_pos - (begin_pos ? begin_pos : previous->length);
      let runs ← setLength runs end_
        (fun l => subS w l (subS w end_pos (if begin_pos ≠ 0 then begin_pos else pr.length)))
      pure (runs, previous, 0, 0)
    else pure (runs, begin, begin_pos, end_pos)
  else pure (runs, begin, begin_pos, end_pos)

/-- The branch `if (new_runs.empty())` of `basic_rle::_replace` (pure removal);
`begin`, `begin_pos`, `end_`, `end_pos` are the results of the two scans. -/
def basic_rle._replace_empty (w : Nat) (c : basic_rle T) (start_index end_index : Nat)
    (begin begin_pos end_ end_pos : Nat) : Except Err (basic_rle T) := do
  let removed := subS w end_index start_index
  let (runs, begin, begin_pos, end_pos) ←
    c._replace_empty_join w start_index end_index begin begin_pos end_ end_pos
  let (runs, begin) ← basic_rle._replace_split w runs begin begin_pos end_ end_pos
  let runs ← eraseRange runs begin end_
  pure ⟨runs, subS w c._total_length removed⟩

/-- Joining with the preceding run in `_replace` (the statement
`if (start_index != 0)`): `begin`, `begin_pos` and `begin_additional_length`
afterwards. -/
def basic_rle._replace_join_front (runs : List (rle_pair T)) (start_index : Nat)
    (front : rle_pair T) (begin begin_pos : Nat) : Except Err (Nat × Nat × Nat) :=
  if start_index ≠ 0 then do
    let previous ← previousIt begin begin_pos
    let pr ← getRun runs previous
    if pr.value = front.value then
      pure (previous, 0, if begin_pos ≠ 0 then begin_pos else pr.length)
    else pure (begin, begin_pos, 0)
  else pure (begin, begin_pos, 0)

/-- Joining with the succeeding run in `_replace` (the statement
`if (end_index != _total_length)`): `end`, `end_pos` and
`end_additional_length` afterwards. -/
def basic_rle._replace_join_back (w : Nat) (c : basic_rle T) (end_index : Nat)
    (back : rle_pair T) (end_ end_pos : Nat) : Except Err (Nat × Nat × Nat) :=
  if end_index ≠ c._total_length then do
    let er ← getRun c._runs end_
    if er.value = back.value then
      pure (end_ + 1, 0, subS w er.length end_pos)
    else pure (end_, end_pos, 0)
  else pure (end_, end_pos, 0)

/-- The `mid_insertion_trailer` of `_replace` (the statement
`if (begin == end && begin_pos != 0)`): the trailer and `end_pos` afterwards. -/
def basic_rle._replace_trailer (w : Nat) (runs : List (rle_pair T))
    (begin begin_pos end_ end_pos : Nat) : Except Err (Option (rle_pair T) × Nat) :=
  if begin = end_ ∧ begin_pos ≠ 0 then do
    let br ← getRun runs begin
    pure (some ⟨br.value, subS w br.length end_pos⟩, 0)
  else pure (none, end_pos)

/-- Writing `new_runs` and the trailer into the run store in `_replace` (from
`available_space` to the end of the `if (available_space >= required_space)`
statement): the run store, `begin_index` and `required_space` afterwards. -/
def basic_rle._replace_store [Inhabited T] (runs : List (rle_pair T)) (begin end_ : Nat)
    (new_runs : List (rle_pair T)) (mid_insertion_trailer : Option (rle_pair T)) :
    Except Err (List (rle_pair T) × Nat × Nat) := do
  let available_space := if begin < end_ then end_ - begin else 0
  let required_space := new_runs.length + (if mid_insertion_trailer.isSome then 1 else 0)
  let begin_index := begin
  let direct_copy := min available_space new_runs.length
  let (runs, begin) ← copyInto (new_runs.take direct_copy) runs begin
  let new_runs_rest := new_runs.drop direct_copy
  let runs ←
    (if available_space ≥ required_space then eraseRange runs begin end_
    else
      match mid_insertion_trailer with
      | some trailer => do
        let runs ← insertAt runs begin
          (List.replicate (required_space - available_space) ⟨default, 0⟩)
        let (runs, begin) ← copyInto new_runs_rest runs begin_index
        let _ ← getRun runs begin
        pure (runs.set begin trailer)
      | none => insertAt runs begin new_runs_rest : Except Err _)
  pure (runs, begin_index, required_space)

/-- Extending the joined runs in `_replace` (the statements
`if (begin_additional_length)` and `if (end_additional_length)`). -/
def basic_rle._replace_extend (w : Nat) (runs : List (rle_pair T))
    (begin_index required_space begin_additional_length end_additional_length : Nat) :
    Except Err (List (rle_pair T)) := do
  let runs ←
    (if begin_additional_length ≠ 0 then
      setLength runs begin_index (fun l => addS w l begin_additional_length)
    else pure runs : Except Err _)
  if end_additional_length ≠ 0 then
    setLength runs (begin_index + required_space - 1) (fun l => addS w l end_additional_length)
  else pure runs

/-- The part of `basic_rle::_replace` after the pure-removal branch
(`new_runs` is not empty; `front` and `back` are `new_runs.front()` and
`new_runs.back()`). -/
def basic_rle._replace_nonempty [Inhabited T] (w : Nat) (c : basic_rle T)
    (start_index end_index : Nat) (new_runs : List (rle_pair T))
    (begin begin_pos end_ end_pos : Nat) : Except Err (basic_rle T) := do
  let front ← (match new_runs.head? with
    | some r => pure r
    | none => throw Err.bad_access : Except Err _)
  let back ← (match new_runs.getLast? with
    | some r => pure r
    | none => throw Err.bad_access : Except Err _)
  let (begin, begin_pos, begin_additional_length) ←
    basic_rle._replace_join_front c._runs start_index front begin begin_pos
  let (end_, end_pos, end_additional_length) ←
    c._replace_join_back w end_index back end_ end_pos
  let (mid_insertion_trailer, end_pos) ←
    basic_rle._replace_trailer w c._runs begin begin_pos end_ end_pos
  let (runs, begin) ← basic_rle._replace_split w c._runs begin begin_pos end_ end_pos
  let (runs, begin_index, required_space) ←
    basic_rle._replace_store runs begin end_ new_runs mid_insertion_trailer
  let runs ← basic_rle._replace_extend w runs begin_index required_space
    begin_additional_length end_additional_length
  let total := subS w c._total_length (subS w end_index start_index)
  let total := new_runs.foldl (fun acc r => addS w acc r.length) total
  pure ⟨runs, total⟩

/-- Member function `basic_rle::_replace(start_index, end_index, new_runs)`. -/
def basic_rle._replace [Inhabited T] (w : Nat) (c : basic_rle T) (start_index end_index : Nat)
    (new_runs : List (rle_pair T)) : Except Err (basic_rle T) :=
  let sc0 : rle_scanner := ⟨0, 0⟩
  let r1 := sc0.scan w c._runs start_index
  let r2 := r1.1.scan w c._runs end_index
  if new_runs.isEmpty then
    c._replace_empty w start_index end_index r1.2.1 r1.2.2 r2.2.1 r2.2.2
  else
    c._replace_nonempty w start_index end_index new_runs r1.2.1 r1.2.2 r2.2.1 r2.2.2

/-- Overload `basic_rle::replace(start_index, end_index, new_runs)` taking a span
of runs.  A mutating member function returns its outcome together with the
container after the call: `_check_indices` writes no member, so when it throws
the container is the one before the call.  (When the outcome is `bad_access`
the source leaves the container unspecified; the second component is then
arbitrary.) -/
def basic_rle.replace [Inhabited T] (w : Nat) (c : basic_rle T) (start_index end_index : Nat)
    (new_runs : List (rle_pair T)) : Except Err Unit × basic_rle T :=
  match c._check_indices start_index end_index with
  | .error e => (.error e, c)
  | .ok end_index =>
    match c._replace w start_index end_index new_runs with
    | .ok c' => (.ok (), c')
    | .error e => (.error e, c)

/-- Overload `basic_rle::replace(start_index, end_index, new_run)` taking one run. -/
def basic_rle.replace_run [Inhabited T] (w : Nat) (c : basic_rle T) (start_index end_index : Nat)
    (new_run : rle_pair T) : Except Err Unit × basic_rle T :=
  c.replace w start_index end_index [new_run]

/-- Overload `basic_rle::replace(start_index, end_index, value)` setting the
range to one value. -/
def basic_rle.replace_value [Inhabited T] (w : Nat) (c : basic_rle T) (start_index end_index : Nat)
    (value : T) : Except Err Unit × basic_rle T :=
  match c._check_indices start_index end_index with
  | .error e => (.error e, c)
  | .ok end_index =>
    let new_run : rle_pair T := ⟨value, subS w end_index start_index⟩
    match c._replace w start_index end_index [new_run] with
    | .ok c' => (.ok (), c')
    | .error e => (.error e, c)

/-- Equality `basic_rle::operator==`. -/
def basic_rle.beq (a b : basic_rle T) : Bool :=
  decide (a._total_length = b._total_length) && decide (a._runs = b._runs)

/-- The inner loop `while (++it != end)` of `_compact`, entered when the runs at
`ref` and `it` have been joined: `n` is the number of runs from `it` to `end`;
returns the run store and `ref` after the loop. -/
def basic_rle._compact_inner (w : Nat) :
    Nat → List (rle_pair T) → Nat → Nat → Except Err (List (rle_pair T) × Nat)
  | 0, runs, ref, _ => pure (runs, ref)
  | n + 1, runs, ref, it => do
    let r ← getRun runs ref
    let x ← getRun runs it
    if r.value = x.value then
      -- ref->length += it->length;
      let runs ← setLength runs ref (fun l => addS w l x.length)
      basic_rle._compact_inner w n runs ref (it + 1)
    else
      -- *++ref = std::move(*it);
      let _ ← getRun runs (ref + 1)
      basic_rle._compact_inner w n (runs.set (ref + 1) x) (ref + 1) (it + 1)

/-- The loop `for (auto ref = it; ++it != end; ref = it)` of `_compact`: `n` is
the number of runs from `it = ref + 1` to `end`; returns the run store. -/
def basic_rle._compact_outer (w : Nat) :
    Nat → List (rle_pair T) → Nat → Except Err (List (rle_pair T))
  | 0, runs, _ => pure runs
  | n + 1, runs, ref => do
    let it := ref + 1
    let r ← getRun runs ref
    let x ← getRun runs it
    if r.value = x.value then
      -- ref->length += it->length;
      let runs' ← setLength runs ref (fun l => addS w l x.length)
      let (runs', ref') ← basic_rle._compact_inner w n runs' ref (it + 1)
      -- _runs.erase(++ref, end);
      eraseRange runs' (ref' + 1) runs.length
    else basic_rle._compact_outer w n runs (ref + 1)

/-- Member function `basic_rle::_compact()`. -/
def basic_rle._compact (w : Nat) (c : basic_rle T) : Except Err (basic_rle T) :=
  if c._runs.isEmpty then pure c
  else do
    let runs ← basic_rle._compact_outer w (c._runs.length - 1) c._runs 0
    pure ⟨runs, c._total_length⟩

/-- An argument or result of type `const value_type&` (`const_reference`): it
refers to an object outside the run store, which no statement of the container
writes, or to the member `value` of the run with index `k` of the run store. -/
inductive const_reference (T : Type) where
  | object (v : T)
  | run_value (k : Nat)
deriving DecidableEq, Repr

/-- Reading the object a `const_reference` refers to, in the current run store. -/
def const_reference.read (runs : List (rle_pair T)) : const_reference T → Except Err T
  | .object v => .ok v
  | .run_value k => (getRun runs k).map (fun r => r.value)

/-- The reference that `basic_rle::at(position)` returns (`return it->value;`):
the member `value` of the run found by the scanner. -/
def basic_rle.at_reference (w : Nat) (c : basic_rle T) (position : Nat) :
    Except Err (const_reference T) :=
  let sc : rle_scanner := ⟨0, 0⟩
  let it := (sc.scan w c._runs position).2.1
  if it = c._runs.length then .error .out_of_range
  else .ok (.run_value it)

/-- The loop `for (auto& run : _runs)` of `replace_values`, from the run with
index `i` on: `n` is the number of runs from `i` to the end of the store.
`old_value` and `new_value` are references and are read where the source uses
them, in the run store as the loop has left it so far. -/
def basic_rle.replace_values_loop (old_value new_value : const_reference T) :
    Nat → Nat → List (rle_pair T) → Except Err (List (rle_pair T))
  | 0, _, runs => pure runs
  | n + 1, i, runs => do
    let run ← getRun runs i
    let old ← old_value.read runs
    if run.value = old then
      -- run.value = new_value;
      let new ← new_value.read runs
      basic_rle.replace_values_loop old_value new_value n (i + 1)
        (runs.set i { run with value := new })
    else basic_rle.replace_values_loop old_value new_value n (i + 1) runs

/-- Member function `basic_rle::replace_values(old_value, new_value)`: the outcome
and the container after the call.  Both parameters are `const value_type&`. -/
def basic_rle.replace_values (w : Nat) (c : basic_rle T)
    (old_value new_value : const_reference T) : Except Err Unit × basic_rle T :=
  let r : Except Err (basic_rle T) := do
    let runs ← basic_rle.replace_values_loop old_value new_value c._runs.length 0 c._runs
    basic_rle._compact w ⟨runs, c._total_length⟩
  match r with
  | .ok c' => (.ok (), c')
  | .error e => (.error e, c)

/-- Modelled from the spec: the contract macro `Expects` is declared outside the
repository; a violated `Expects` is the failure `invalid`. -/
def Expects (cond : Bool) : Except Err Unit :=
  if cond then pure () else throw Err.invalid

/-- Member function `basic_rle::resize_trailing_extent(new_size)`: the outcome and
the container after the call (the container is the original one when the call
fails, as no member has been written by then). -/
def basic_rle.resize_trailing_extent (w : Nat) (c : basic_rle T) (new_size : Nat) :
    Except Err Unit × basic_rle T :=
  let r : Except Err (List (rle_pair T)) :=
    if new_size = 0 then pure []
    else if new_size < c._total_length then do
      let sc : rle_scanner := ⟨0, 0⟩
      let s := sc.scan w c._runs (subS w new_size 1)
      let run := s.2.1
      let pos := s.2.2
      -- run->length = pos + 1;
      let runs ← setLength c._runs run (fun _ => addS w pos 1)
      -- _runs.erase(++run, _runs.cend());
      eraseRange runs (run + 1) runs.length
    else if new_size > c._total_length then do
      Expects (!c._runs.isEmpty)
      -- run.length += new_size - _total_length;
      setLength c._runs (c._runs.length - 1)
        (fun l => addS w l (subS w new_size c._total_length))
    else pure c._runs
  match r with
  | .ok runs => (.ok (), ⟨runs, new_size⟩)
  | .error e => (.error e, c)

/-- Modelled from the spec: the difference type of the iterator
(`ParentIt::difference_type`) is declared by the run store's iterator, outside
the repository.  The spec's advance and difference work on plain integers: the
type is taken as the integers, and a value computed in the size type converts
to it unchanged. -/
abbrev difference_type : Type := Int

/-- The iterator `rle_iterator<T, S, ParentIt>` over the logical sequence: the
run iterator `_it` (an index into the run store) and the 1-based position
`_usage` inside that run. -/
structure rle_iterator where
  _it : Nat
  _usage : Nat
deriving DecidableEq, Repr

/-- Dereference `rle_iterator::operator*` (the value `_it->value`). -/
def rle_iterator.deref (runs : List (rle_pair T)) (i : rle_iterator) : Except Err T :=
  (getRun runs i._it).map (fun r => r.value)

/-- The loop `while (move > 0)` of the positive direction of
`rle_iterator::operator+=`, over the runs from `_it` to the end of the store. -/
def rle_iterator.advance (w : Nat) :
    List (rle_pair T) → Nat → Nat → Nat → Except Err rle_iterator
  | _, it, usage, 0 => pure ⟨it, usage⟩
  | [], _, _, _ + 1 => throw Err.bad_access
  | r :: rest, it, usage, move + 1 =>
    let space := subS w r.length usage
    if space ≥ move + 1 then pure ⟨it, addS w usage (move + 1)⟩
    else rle_iterator.advance w rest (it + 1) 1 (move + 1 - (space + 1))

/-- The loop `while (move > 0)` of the negative direction of
`rle_iterator::operator+=`, over the runs before `_it` in reverse order. -/
def rle_iterator.retreat (w : Nat) :
    List (rle_pair T) → Nat → Nat → Nat → Except Err rle_iterator
  | _, it, usage, 0 => pure ⟨it, usage⟩
  | [], it, usage, move + 1 =>
    let space := subS w usage 1
    if space ≥ move + 1 then pure ⟨it, subS w usage (move + 1)⟩
    else throw Err.bad_access
  | r :: before, it, usage, move + 1 =>
    let space := subS w usage 1
    if space ≥ move + 1 then pure ⟨it, subS w usage (move + 1)⟩
    else rle_iterator.retreat w before (it - 1) r.length (move + 1 - usage)

/-- Member function `rle_iterator::operator+=(move)`. -/
def rle_iterator.addAssign (w : Nat) (runs : List (rle_pair T)) (i : rle_iterator)
    (move : difference_type) : Except Err rle_iterator :=
  if move ≥ 0 then rle_iterator.advance w (runs.drop i._it) i._it i._usage move.toNat
  else rle_iterator.retreat w (runs.take i._it).reverse i._it i._usage (-move).toNat

/-- Member function `rle_iterator::operator-=(offset)`. -/
def rle_iterator.subAssign (w : Nat) (runs : List (rle_pair T)) (i : rle_iterator)
    (offset : difference_type) : Except Err rle_iterator :=
  i.addAssign w runs (-offset)

/-- Member function `rle_iterator::operator+(offset)`. -/
def rle_iterator.add (w : Nat) (runs : List (rle_pair T)) (i : rle_iterator)
    (offset : difference_type) : Except Err rle_iterator :=
  i.addAssign w runs offset

/-- Member function `rle_iterator::operator-(offset)`. -/
def rle_iterator.sub (w : Nat) (runs : List (rle_pair T)) (i : rle_iterator)
    (offset : difference_type) : Except Err rle_iterator :=
  i.subAssign w runs offset

/-- The loop `while (_it > tmp._it)` of `rle_iterator::operator-(right)`, over
the runs from `tmp._it` to the end of the store: `tmp` and `accumulation`
afterwards. -/
def rle_iterator.diffUp (w : Nat) (it : Nat) :
    List (rle_pair T) → Nat → Nat → difference_type →
      Except Err (rle_iterator × difference_type)
  | [], tmp_it, tmp_usage, accumulation =>
    if it > tmp_it then throw Err.bad_access else pure (⟨tmp_it, tmp_usage⟩, accumulation)
  | r :: rest, tmp_it, tmp_usage, accumulation =>
    if it > tmp_it then
      -- accumulation += tmp._it->length - tmp._usage + 1;
      rle_iterator.diffUp w it rest (tmp_it + 1) 1
        (accumulation + (addS w (subS w r.length tmp_usage) 1 : Nat))
    else pure (⟨tmp_it, tmp_usage⟩, accumulation)

/-- The loop `while (_it < tmp._it)` of `rle_iterator::operator-(right)`, over
the runs before `tmp._it` in reverse order: `tmp` and `accumulation`
afterwards. -/
def rle_iterator.diffDown (it usage : Nat) :
    List (rle_pair T) → Nat → Nat → difference_type →
      Except Err (rle_iterator × difference_type)
  | [], tmp_it, tmp_usage, accumulation =>
    if it < tmp_it then throw Err.bad_access else pure (⟨tmp_it, tmp_usage⟩, accumulation)
  | r :: before, tmp_it, tmp_usage, accumulation =>
    if it < tmp_it then
      -- accumulation -= _usage;
      rle_iterator.diffDown it usage before (tmp_it - 1) r.length
        (accumulation - (usage : Nat))
    else pure (⟨tmp_it, tmp_usage⟩, accumulation)

/-- Member function `rle_iterator::operator-(right)`: the distance between two
iterators. -/
def rle_iterator.diff (w : Nat) (runs : List (rle_pair T)) (i right : rle_iterator) :
    Except Err difference_type := do
  let (tmp, accumulation) ←
    rle_iterator.diffUp w i._it (runs.drop right._it) right._it right._usage 0
  let (tmp, accumulation) ←
    rle_iterator.diffDown i._it i._usage (runs.take tmp._it).reverse tmp._it tmp._usage
      accumulation
  -- accumulation += _usage - tmp._usage;
  pure (accumulation + (subS w i._usage tmp._usage : Nat))

/-- Member function `basic_rle::begin()`. -/
def basic_rle.begin (_c : basic_rle T) : rle_iterator := ⟨0, 1⟩

/-- Member function `basic_rle::end()`. -/
def basic_rle.end_ (c : basic_rle T) : rle_iterator := ⟨c._runs.length, 1⟩

/-- Member function `rle_iterator::operator++()`. -/
def rle_iterator.increment (w : Nat) (runs : List (rle_pair T)) (i : rle_iterator) :
    Except Err rle_iterator :=
  i.addAssign w runs 1

/-- Member function `rle_iterator::operator--()`. -/
def rle_iterator.decrement (w : Nat) (runs : List (rle_pair T)) (i : rle_iterator) :
    Except Err rle_iterator :=
  i.subAssign w runs 1

/-- Equality `rle_iterator::operator==`. -/
def rle_iterator.beq (i right : rle_iterator) : Bool :=
  decide (i._it = right._it) && decide (i._usage = right._usage)

/-- Constructor `basic_rle(const size_type length, const value_type& value)`. -/
def basic_rle.construct (length : Nat) (value : T) : basic_rle T :=
  ⟨if length ≠ 0 then [⟨value, length⟩] else [], length⟩

end defs

end til

namespace til

section spec

variable {T : Type} [DecidableEq T]

/-- Sum of the run lengths of a run list (as a natural number, without wrap-around). -/
def sumLen (runs : List (rle_pair T)) : Nat := (runs.map (fun r => r.length)).sum

/-- The logical sequence of a run list: each run's value repeated `length`
times, concatenated. -/
def expand : List (rle_pair T) → List T
  | [] => []
  | r :: rest => List.replicate r.length r.value ++ expand rest

/-- No run of the list has length zero. -/
def NoZeroRun (runs : List (rle_pair T)) : Prop := ∀ r ∈ runs, 0 < r.length

/-- No two adjacent runs of the list have equal values. -/
def NoAdjacentEqual : List (rle_pair T) → Prop
  | [] => True
  | [_] => True
  | a :: b :: rest => a.value ≠ b.value ∧ NoAdjacentEqual (b :: rest)

/-- The cached size is the sum of the run lengths, and that sum is a value of
the `w`-bit size type. -/
def SizeConsistent (w : Nat) (c : basic_rle T) : Prop :=
  c._total_length = sumLen c._runs ∧ sumLen c._runs < 2 ^ w

/-- Canonical form of a container: no zero-length run, no two adjacent runs
with equal value, and `size()` equal to the sum of the run lengths. -/
def Canonical (w : Nat) (c : basic_rle T) : Prop :=
  NoZeroRun c._runs ∧ NoAdjacentEqual c._runs ∧ SizeConsistent w c

instance (runs : List (rle_pair T)) : Decidable (NoZeroRun runs) :=
  inferInstanceAs (Decidable (∀ r ∈ runs, 0 < r.length))

/-- Decision procedure for `NoAdjacentEqual`. -/
def decNoAdjacentEqual : (runs : List (rle_pair T)) → Decidable (NoAdjacentEqual runs)
  | [] => isTrue trivial
  | [_] => isTrue trivial
  | a :: b :: rest =>
    match decNoAdjacentEqual (b :: rest) with
    | isTrue h =>
      if hv : a.value = b.value then isFalse (fun hn => hn.1 hv) else isTrue ⟨hv, h⟩
    | isFalse h => isFalse (fun hn => h hn.2)

instance (runs : List (rle_pair T)) : Decidable (NoAdjacentEqual runs) :=
  decNoAdjacentEqual runs

instance (w : Nat) (c : basic_rle T) : Decidable (SizeConsistent w c) :=
  inferInstanceAs (Decidable (c._total_length = sumLen c._runs ∧ sumLen c._runs < 2 ^ w))

instance (w : Nat) (c : basic_rle T) : Decidable (Canonical w c) :=
  inferInstanceAs
    (Decidable (NoZeroRun c._runs ∧ NoAdjacentEqual c._runs ∧ SizeConsistent w c))

end spec

section runspec

variable {T : Type} [DecidableEq T]

/-- The runs of the first `n` elements of the logical sequence of a run list. -/
def takeRuns : Nat → List (rle_pair T) → List (rle_pair T)
  | _, [] => []
  | n, r :: rest =>
    if n = 0 then []
    else if n < r.length then [⟨r.value, n⟩]
    else r :: takeRuns (n - r.length) rest

/-- The runs of the logical sequence of a run list without its first `n` elements. -/
def dropRuns : Nat → List (rle_pair T) → List (rle_pair T)
  | _, [] => []
  | n, r :: rest =>
    if n < r.length then ⟨r.value, r.length - n⟩ :: rest
    else dropRuns (n - r.length) rest

/-- Concatenation of two run lists in which the last run of the first and the
first run of the second are joined into one run when their values are equal. -/
def glue (a b : List (rle_pair T)) : List (rle_pair T) :=
  match a.getLast?, b with
  | some x, y :: rest =>
    if x.value = y.value then a.dropLast ++ ⟨y.value, x.length + y.length⟩ :: rest
    else a ++ b
  | _, _ => a ++ b

/-- Adds `n` to the length of the first run of a list. -/
def addFront (n : Nat) : List (rle_pair T) → List (rle_pair T)
  | [] => []
  | x :: xs => ⟨x.value, x.length + n⟩ :: xs

/-- Adds `n` to the length of the last run of a list. -/
def addBack (n : Nat) : List (rle_pair T) → List (rle_pair T)
  | [] => []
  | [x] => [⟨x.value, x.length + n⟩]
  | x :: y :: xs => x :: addBack n (y :: xs)

/-- The value of the last run of a list, if any. -/
def lastValue? (X : List (rle_pair T)) : Option T := X.getLast?.map (fun r => r.value)

/-- The value of the first run of a list, if any. -/
def headValue? (X : List (rle_pair T)) : Option T := X.head?.map (fun r => r.value)

/-- What the treatment of the back end of the replaced range amounts to, for a
run store `runs` whose runs from `en` on are `Qs`: `join_back` yields
`(e', q', eal)`, the splitting at `end` turns `Qs` into `Me ++ B` where `Me` are
the slots still to be overwritten, and gluing a list that ends with the value
of `back` onto the runs `R` after the range is adding `eal` and appending `B`. -/
def BackData (w : Nat) (runs Qs R : List (rle_pair T)) (total e en q : Nat) (back : rle_pair T)
    (Me B : List (rle_pair T)) (e' q' eal : Nat) : Prop :=
  basic_rle._replace_join_back w ⟨runs, total⟩ e back en q = .ok (e', q', eal) ∧
  e' = en + Me.length ∧
  (∀ Z : List (rle_pair T), en = Z.length →
    (if q' ≠ 0 then setLength (Z ++ Qs) e' (fun l => subS w l q')
      else (pure (Z ++ Qs) : Except Err _)) = .ok (Z ++ (Me ++ B))) ∧
  (∀ X, lastValue? X = some back.value → glue X R = addBack eal X ++ B) ∧
  eal + sumLen B = sumLen R ∧ (Qs = [] → q = 0)

/-- The values of the runs of a run list. -/
def vals (runs : List (rle_pair T)) : List T := runs.map (fun r => r.value)

/-- A computation that can only fail with `bad_access`. -/
def OnlyBad {α : Type} (x : Except Err α) : Prop := ∀ e, x = .error e → e = .bad_access

/-- The run list `ref :: rest` with every maximal group of adjacent runs of
equal value joined into one run, `ref` being the run under construction. -/
def mergeInto (ref : rle_pair T) : List (rle_pair T) → List (rle_pair T)
  | [] => [ref]
  | x :: rest =>
    if ref.value = x.value then mergeInto ⟨ref.value, ref.length + x.length⟩ rest
    else ref :: mergeInto x rest

/-- A run list with every maximal group of adjacent runs of equal value joined
into one run. -/
def mergeRuns : List (rle_pair T) → List (rle_pair T)
  | [] => []
  | x :: rest => mergeInto x rest

/-- The run list in which every run of value `old_value` has value `new_value`. -/
def mapValues (old_value new_value : T) (runs : List (rle_pair T)) : List (rle_pair T) :=
  runs.map (fun r => ⟨if r.value = old_value then new_value else r.value, r.length⟩)

/-- The cursor of position `i` of the logical sequence of a run list whose
first run has index `it`: the run that holds element `i` with the 1-based
position of the element inside it, or the position after the last run with
usage 1 when there is no element `i`. -/
def cursorAt : List (rle_pair T) → Nat → Nat → rle_iterator
  | [], it, _ => ⟨it, 1⟩
  | r :: rest, it, i => if i < r.length then ⟨it, i + 1⟩ else cursorAt rest (it + 1) (i - r.length)

/-- The iterator after `n` applications of `operator++`. -/
def rle_iterator.stepN (w : Nat) (runs : List (rle_pair T)) :
    Nat → rle_iterator → Except Err rle_iterator
  | 0, i => pure i
  | n + 1, i => do
    let j ← rle_iterator.stepN w runs n i
    j.increment w runs

/-- Two run lists with the same number of runs and the same values, run by run. -/
def SameValues (a b : List (rle_pair T)) : Prop := vals a = vals b

/-- Two computations fail with the same error, or both return and their
results are related by `R`. -/
def SameOutcome {α β : Type} (R : α → β → Prop) (x : Except Err α) (y : Except Err β) : Prop :=
  match x, y with
  | .ok a, .ok b => R a b
  | .error e, .error e' => e = e'
  | _, _ => False

/-- The run list with every length set to zero. -/
def zeroLengths (runs : List (rle_pair T)) : List (rle_pair T) :=
  runs.map (fun r => ⟨r.value, 0⟩)

end runspec

section lemmas

variable {T : Type}

theorem addS_eq {w a b : Nat} (h : a + b < 2 ^ w) : addS w a b = a + b := by
  unfold addS; exact Nat.mod_eq_of_lt h

theorem subS_eq {w a b : Nat} (hb : b ≤ a) (ha : a < 2 ^ w) : subS w a b = a - b := by
  unfold subS
  have hb' : b % 2 ^ w = b := Nat.mod_eq_of_lt (by omega)
  rw [hb']
  have : a + (2 ^ w - b) = (a - b) + 2 ^ w := by omega
  rw [this, Nat.add_mod_right]
  exact Nat.mod_eq_of_lt (by omega)

theorem subS_zero {w a : Nat} (ha : a < 2 ^ w) : subS w a 0 = a := by
  simpa using subS_eq (Nat.zero_le a) ha

/-- The wrapped difference of a wrapped difference: `l - (q - x)` on the size
type is `l - q + x`, whether or not `q - x` wraps. -/
theorem subS_subS {w l q x : Nat} (hq : q ≤ l) (hx : x < 2 ^ w) (hfit : l - q + x < 2 ^ w)
    (hl : l < 2 ^ w) : subS w l (subS w q x) = l - q + x := by
  by_cases hxq : x ≤ q
  · rw [subS_eq hxq (by omega), subS_eq (by omega) hl]; omega
  · have hxq' : q < x := by omega
    have h1 : subS w q x = 2 ^ w - (x - q) := by
      unfold subS
      rw [Nat.mod_eq_of_lt hx]
      exact Nat.mod_eq_of_lt (by omega) |>.trans (by omega)
    rw [h1]
    unfold subS
    have h2 : (2 ^ w - (x - q)) % 2 ^ w = 2 ^ w - (x - q) := Nat.mod_eq_of_lt (by omega)
    rw [h2]
    have h3 : l + (2 ^ w - (2 ^ w - (x - q))) = l - q + x := by omega
    rw [h3]
    exact Nat.mod_eq_of_lt hfit

@[simp] theorem sumLen_nil : sumLen ([] : List (rle_pair T)) = 0 := rfl

@[simp] theorem sumLen_cons (r : rle_pair T) (rs : List (rle_pair T)) :
    sumLen (r :: rs) = r.length + sumLen rs := by
  simp [sumLen]

@[simp] theorem sumLen_append (a b : List (rle_pair T)) :
    sumLen (a ++ b) = sumLen a + sumLen b := by
  simp [sumLen]

@[simp] theorem expand_nil : expand ([] : List (rle_pair T)) = [] := rfl

@[simp] theorem expand_cons (r : rle_pair T) (rs : List (rle_pair T)) :
    expand (r :: rs) = List.replicate r.length r.value ++ expand rs := rfl

@[simp] theorem expand_append (a b : List (rle_pair T)) :
    expand (a ++ b) = expand a ++ expand b := by
  induction a with
  | nil => rfl
  | cons r rs ih => simp [ih]

@[simp] theorem length_expand (a : List (rle_pair T)) : (expand a).length = sumLen a := by
  induction a with
  | nil => rfl
  | cons r rs ih => simp [ih]

/-- What the scanning loop computes: it stops at the first run whose
cumulative end strictly exceeds `index`, or at the end of the run store. -/
theorem scanLoop_spec (w index : Nat) (rs : List (rle_pair T)) (it total : Nat)
    (hfit : total + sumLen rs < 2 ^ w) (hle : total ≤ index) :
    ∃ pre post p, rs = pre ++ post ∧
      rle_scanner.scanLoop w index rs it total = (it + pre.length, total + sumLen pre, p) ∧
      total + sumLen pre ≤ index ∧
      ((post = [] ∧ p = 0) ∨
        (∃ r post', post = r :: post' ∧ index < total + sumLen pre + r.length ∧
          p = index - (total + sumLen pre))) := by
  induction rs generalizing it total with
  | nil => exact ⟨[], [], 0, rfl, by simp [rle_scanner.scanLoop], by simpa using hle, Or.inl ⟨rfl, rfl⟩⟩
  | cons r rest ih =>
    simp only [sumLen_cons] at hfit
    have hadd : addS w total r.length = total + r.length := addS_eq (by omega)
    by_cases hgt : total + r.length > index
    · refine ⟨[], r :: rest, index - total, rfl, ?_, by simpa using hle, Or.inr ⟨r, rest, rfl, ?_, ?_⟩⟩
      · have hsub : subS w index total = index - total := subS_eq hle (by omega)
        simp [rle_scanner.scanLoop, hadd, hgt, hsub]
      · simpa using hgt
      · simp
    · obtain ⟨pre, post, p, hsplit, hscan, hle', hcase⟩ :=
        ih (it + 1) (total + r.length) (by omega) (by omega)
      refine ⟨r :: pre, post, p, by simp [hsplit], ?_, ?_, ?_⟩
      · simp only [rle_scanner.scanLoop, hadd, hgt, if_false, hscan]
        simp only [List.length_cons, sumLen_cons]
        congr 1
        · omega
        · congr 1; omega
      · simp only [sumLen_cons]; omega
      · simp only [sumLen_cons]
        rcases hcase with h | ⟨r', post', h1, h2, h3⟩
        · exact Or.inl h
        · exact Or.inr ⟨r', post', h1, by omega, by omega⟩

end lemmas

end til

namespace til
section phase
variable {T : Type}

theorem take_app (A X : List (rle_pair T)) (n : Nat) (h : n = A.length) :
    (A ++ X).take n = A := by
  subst h; simp

theorem drop_app (A X : List (rle_pair T)) (n : Nat) (h : n = A.length) :
    (A ++ X).drop n = X := by
  subst h; simp

theorem getRun_app (A X : List (rle_pair T)) (x : rle_pair T) (n : Nat) (h : n = A.length) :
    getRun (A ++ x :: X) n = .ok x := by
  subst h
  induction A with
  | nil => simp [getRun]
  | cons a A ih => simpa [getRun] using ih

theorem setLength_app (A X : List (rle_pair T)) (x : rle_pair T) (n : Nat) (f : Nat → Nat)
    (h : n = A.length) :
    setLength (A ++ x :: X) n f = .ok (A ++ ⟨x.value, f x.length⟩ :: X) := by
  subst h
  have hget : (A ++ x :: X)[A.length]? = some x := by
    induction A with
    | nil => simp
    | cons a A ih => simpa using ih
  have hset : ∀ y, (A ++ x :: X).set A.length y = A ++ y :: X := by
    intro y
    induction A with
    | nil => simp
    | cons a A ih => simp
  simp [setLength, hget, hset]

theorem eraseRange_app (A M B : List (rle_pair T)) (b e : Nat) (hb : b = A.length)
    (he : e = A.length + M.length) :
    eraseRange (A ++ (M ++ B)) b e = .ok (A ++ B) := by
  subst hb he
  unfold eraseRange
  rw [if_pos (by simp)]
  rw [take_app _ _ _ rfl, ← List.append_assoc, drop_app _ _ _ (by simp)]

theorem copyInto_app (A M B src : List (rle_pair T)) (b : Nat) (hb : b = A.length)
    (hm : M.length = src.length) :
    copyInto src (A ++ (M ++ B)) b = .ok (A ++ (src ++ B), A.length + src.length) := by
  subst hb
  unfold copyInto
  rw [if_pos (by simp; omega)]
  rw [take_app _ _ _ rfl, ← List.append_assoc A M B, drop_app _ _ _ (by simp [hm])]
  simp

theorem insertAt_app (A B xs : List (rle_pair T)) (b : Nat) (hb : b = A.length) :
    insertAt (A ++ B) b xs = .ok (A ++ (xs ++ B)) := by
  subst hb
  unfold insertAt
  rw [if_pos (by simp), take_app _ _ _ rfl, drop_app _ _ _ rfl]
  simp

/-- The store phase without trailer: the slots between `begin` and `end` are
replaced by the new runs. -/
theorem store_none [Inhabited T] (A M B new_runs : List (rle_pair T)) (b e : Nat)
    (hb : b = A.length) (he : e = A.length + M.length) :
    basic_rle._replace_store (A ++ (M ++ B)) b e new_runs none
      = .ok (A ++ (new_runs ++ B), A.length, new_runs.length) := by
  subst hb he
  unfold basic_rle._replace_store
  have hav : (if A.length < A.length + M.length then A.length + M.length - A.length else 0)
      = M.length := by split_ifs <;> omega
  simp only [hav, Option.isSome_none, Bool.false_eq_true, if_false, Nat.add_zero]
  by_cases hle : new_runs.length ≤ M.length
  · have hmin : min M.length new_runs.length = new_runs.length := by omega
    simp only [hmin, List.take_length, bind, Except.bind, pure, Except.pure]
    have hM : M = M.take new_runs.length ++ M.drop new_runs.length := by simp
    have h1 : copyInto new_runs (A ++ (M ++ B)) A.length
        = .ok (A ++ (new_runs ++ (M.drop new_runs.length ++ B)), A.length + new_runs.length) := by
      conv_lhs => rw [hM, List.append_assoc]
      exact copyInto_app _ _ _ _ _ rfl (by simp; omega)
    rw [h1]
    simp only [ge_iff_le, hle, if_true]
    rw [← List.append_assoc A new_runs, eraseRange_app (A ++ new_runs) _ B _ _ (by simp)
      (by simp; omega)]
    simp
  · have hmin : min M.length new_runs.length = M.length := by omega
    simp only [hmin, bind, Except.bind, pure, Except.pure]
    rw [copyInto_app A M B _ _ rfl (by simp; omega)]
    simp only [ge_iff_le, hle, if_false]
    rw [← List.append_assoc A, insertAt_app (A ++ _) B _ _ (by simp)]
    simp only [List.append_assoc, Except.ok.injEq, Prod.mk.injEq, and_true,
      List.append_cancel_left_eq]
    rw [← List.append_assoc, List.take_append_drop]

/-- The store phase with a trailer (no slot is available): the new runs and
the trailer are inserted at `begin`. -/
theorem store_some [Inhabited T] (A B new_runs : List (rle_pair T)) (t : rle_pair T) (b e : Nat)
    (hb : b = A.length) (he : e ≤ b) :
    basic_rle._replace_store (A ++ B) b e new_runs (some t)
      = .ok (A ++ (new_runs ++ t :: B), A.length, new_runs.length + 1) := by
  subst hb
  unfold basic_rle._replace_store
  have hav : (if A.length < e then e - A.length else 0) = 0 := by split_ifs <;> omega
  simp only [hav, Option.isSome_some, if_true, Nat.zero_min, List.take_zero, List.drop_zero,
    bind, Except.bind, pure, Except.pure]
  have h1 : copyInto ([] : List (rle_pair T)) (A ++ B) A.length = .ok (A ++ B, A.length) := by
    have := copyInto_app A [] B [] A.length rfl rfl
    simpa using this
  rw [h1]
  simp only [ge_iff_le, Nat.le_zero_eq, Nat.add_one_ne_zero, if_false, Nat.sub_zero]
  rw [insertAt_app A B _ _ rfl]
  dsimp only
  have h2 : List.replicate (new_runs.length + 1) (⟨default, 0⟩ : rle_pair T)
      = List.replicate new_runs.length ⟨default, 0⟩ ++ [⟨default, 0⟩] := by
    rw [List.replicate_succ']
  rw [h2, List.append_assoc,
    copyInto_app A (List.replicate new_runs.length ⟨default, 0⟩) _ new_runs _ rfl (by simp)]
  simp only [List.singleton_append]
  rw [← List.append_assoc A new_runs, getRun_app (A ++ new_runs) _ _ _ (by simp)]
  simp

end phase
end til

namespace til
section phase2
variable {T : Type}

@[simp] theorem addFront_zero (X : List (rle_pair T)) : addFront 0 X = X := by
  cases X <;> simp [addFront]

@[simp] theorem addBack_zero (X : List (rle_pair T)) : addBack 0 X = X := by
  induction X with
  | nil => rfl
  | cons x xs ih =>
    cases xs with
    | nil => simp [addBack]
    | cons y ys => simp only [addBack, ih]

theorem addBack_concat (n : Nat) (X : List (rle_pair T)) (x : rle_pair T) :
    addBack n (X ++ [x]) = X ++ [⟨x.value, x.length + n⟩] := by
  induction X with
  | nil => simp [addBack]
  | cons a X ih =>
    cases X with
    | nil => simp [addBack]
    | cons b X => simpa [addBack] using ih

theorem addBack_append (n : Nat) (A X : List (rle_pair T)) (hX : X ≠ []) :
    addBack n (A ++ X) = A ++ addBack n X := by
  induction A with
  | nil => rfl
  | cons a A ih =>
    cases hAX : A ++ X with
    | nil => simp at hAX; exact absurd hAX.2 hX
    | cons b Y =>
      rw [List.cons_append, hAX]
      simp only [addBack]
      rw [← hAX, ih]
      simp

theorem addFront_ne_nil (n : Nat) (X : List (rle_pair T)) (hX : X ≠ []) : addFront n X ≠ [] := by
  cases X with
  | nil => exact absurd rfl hX
  | cons x xs => simp [addFront]

theorem sumLen_addFront (n : Nat) (X : List (rle_pair T)) (hX : X ≠ []) :
    sumLen (addFront n X) = sumLen X + n := by
  cases X with
  | nil => exact absurd rfl hX
  | cons x xs => simp [addFront]; omega

theorem sumLen_addBack (n : Nat) (X : List (rle_pair T)) (hX : X ≠ []) :
    sumLen (addBack n X) = sumLen X + n := by
  obtain ⟨Y, y, rfl⟩ : ∃ Y y, X = Y ++ [y] :=
    ⟨X.dropLast, X.getLast hX, (List.dropLast_append_getLast hX).symm⟩
  rw [addBack_concat]; simp; omega

theorem length_le_sumLen_of_mem {r : rle_pair T} {X : List (rle_pair T)} (h : r ∈ X) :
    r.length ≤ sumLen X := by
  induction X with
  | nil => simp at h
  | cons x xs ih =>
    rcases List.mem_cons.mp h with rfl | h'
    · simp
    · have := ih h'; simp; omega

/-- The extend phase on a store of the form `A ++ new ++ B`: the additional
lengths go to the first and to the last of the new runs. -/
theorem extend_spec (w : Nat) (A B new_runs : List (rle_pair T)) (bi bal eal : Nat)
    (hbi : bi = A.length) (hne : new_runs ≠ []) (hfit : sumLen new_runs + bal + eal < 2 ^ w) :
    basic_rle._replace_extend w (A ++ (new_runs ++ B)) bi new_runs.length bal eal
      = .ok (A ++ (addBack eal (addFront bal new_runs) ++ B)) := by
  subst hbi
  unfold basic_rle._replace_extend
  have h1 : (if bal ≠ 0 then
        setLength (A ++ (new_runs ++ B)) A.length (fun l => addS w l bal)
      else (pure (A ++ (new_runs ++ B)) : Except Err _))
      = .ok (A ++ (addFront bal new_runs ++ B)) := by
    split_ifs with hb
    · cases new_runs with
      | nil => exact absurd rfl hne
      | cons x xs =>
        rw [List.cons_append, setLength_app _ _ _ _ _ rfl]
        have : addS w x.length bal = x.length + bal := addS_eq (by simp at hfit; omega)
        simp [addFront, this]
    · simp only [ne_eq, Decidable.not_not] at hb
      subst hb; simp; rfl
  rw [h1]
  simp only [bind, Except.bind]
  split_ifs with he
  · obtain ⟨Y, y, hY⟩ : ∃ Y y, addFront bal new_runs = Y ++ [y] :=
      ⟨_, _, (List.dropLast_append_getLast (addFront_ne_nil bal _ hne)).symm⟩
    have hlen : new_runs.length = Y.length + 1 := by
      have := congrArg List.length hY
      cases new_runs with
      | nil => exact absurd rfl hne
      | cons x xs => simpa [addFront] using this
    have hy : y.length + eal < 2 ^ w := by
      have h1 : y.length ≤ sumLen (addFront bal new_runs) :=
        length_le_sumLen_of_mem (by rw [hY]; simp)
      rw [sumLen_addFront _ _ hne] at h1
      omega
    rw [hY, addBack_concat, List.append_assoc, List.singleton_append, ← List.append_assoc A Y,
      setLength_app (A ++ Y) _ _ _ _ (by simp; omega), addS_eq hy]
    simp
  · simp only [ne_eq, Decidable.not_not] at he
    subst he; simp; rfl

theorem extend_zero (w : Nat) (runs : List (rle_pair T)) (bi req : Nat) :
    basic_rle._replace_extend w runs bi req 0 0 = .ok runs := by
  simp [basic_rle._replace_extend, bind, Except.bind, pure, Except.pure]

theorem foldl_addS (w : Nat) (new_runs : List (rle_pair T)) (acc : Nat)
    (h : acc + sumLen new_runs < 2 ^ w) :
    new_runs.foldl (fun acc r => addS w acc r.length) acc = acc + sumLen new_runs := by
  induction new_runs generalizing acc with
  | nil => simp
  | cons x xs ih =>
    simp only [sumLen_cons] at h
    simp only [List.foldl_cons, sumLen_cons]
    rw [addS_eq (by omega), ih _ (by omega)]
    omega

end phase2
end til

namespace til
section gluelemmas
variable {T : Type} [DecidableEq T]

@[simp] theorem glue_nil_left (b : List (rle_pair T)) : glue [] b = b := by
  simp [glue]

@[simp] theorem glue_nil_right (a : List (rle_pair T)) : glue a [] = a := by
  unfold glue
  cases h : a.getLast? <;> simp

theorem glue_concat_cons (A B : List (rle_pair T)) (x y : rle_pair T) :
    glue (A ++ [x]) (y :: B)
      = if x.value = y.value then A ++ ⟨y.value, x.length + y.length⟩ :: B
        else A ++ x :: y :: B := by
  unfold glue
  simp

omit [DecidableEq T] in
theorem exists_concat_of_lastValue {X : List (rle_pair T)} {v : T} (h : lastValue? X = some v) :
    ∃ Y x, X = Y ++ [x] ∧ x.value = v := by
  unfold lastValue? at h
  cases hX : X.getLast? with
  | none => simp [hX] at h
  | some x =>
    have hne : X ≠ [] := by
      intro h0; subst h0; simp at hX
    refine ⟨X.dropLast, x, ?_, by simpa [hX] using h⟩
    have := List.dropLast_append_getLast hne
    rw [List.getLast?_eq_getLast _ hne] at hX
    simp only [Option.some.injEq] at hX
    rw [hX] at this
    exact this.symm

omit [DecidableEq T] in
theorem exists_cons_of_headValue {X : List (rle_pair T)} {v : T} (h : headValue? X = some v) :
    ∃ x Y, X = x :: Y ∧ x.value = v := by
  cases X with
  | nil => simp [headValue?] at h
  | cons x Y => exact ⟨x, Y, rfl, by simpa [headValue?] using h⟩

/-- Gluing a run onto a list whose first run has the same value. -/
theorem glue_front_eq (A X : List (rle_pair T)) (x : rle_pair T)
    (h : headValue? X = some x.value) : glue (A ++ [x]) X = A ++ addFront x.length X := by
  obtain ⟨y, Y, rfl, hy⟩ := exists_cons_of_headValue h
  rw [glue_concat_cons, if_pos hy.symm]
  simp [addFront, Nat.add_comm]

theorem glue_front_ne (A X : List (rle_pair T)) (x : rle_pair T)
    (h : headValue? X ≠ some x.value) : glue (A ++ [x]) X = A ++ x :: X := by
  cases X with
  | nil => simp
  | cons y Y =>
    rw [glue_concat_cons, if_neg]
    intro hxy; exact h (by simp [headValue?, hxy])

/-- Gluing a list whose last run has the value of the run that follows. -/
theorem glue_back_eq (X B : List (rle_pair T)) (y : rle_pair T)
    (h : lastValue? X = some y.value) : glue X (y :: B) = addBack y.length X ++ B := by
  obtain ⟨Y, x, rfl, hx⟩ := exists_concat_of_lastValue h
  rw [glue_concat_cons, if_pos hx, addBack_concat]
  simp [hx]

theorem glue_back_ne (X B : List (rle_pair T)) (y : rle_pair T)
    (h : lastValue? X ≠ some y.value) : glue X (y :: B) = X ++ y :: B := by
  unfold glue
  cases hX : X.getLast? with
  | none => simp
  | some x =>
    have : ¬ x.value = y.value := by
      intro hxy; exact h (by simp [lastValue?, hX, hxy])
    simp [this]

omit [DecidableEq T] in
theorem lastValue?_append (A X : List (rle_pair T)) (hX : X ≠ []) :
    lastValue? (A ++ X) = lastValue? X := by
  unfold lastValue?
  rw [List.getLast?_append_of_ne_nil _ hX]

omit [DecidableEq T] in
theorem lastValue?_addFront (n : Nat) (X : List (rle_pair T)) :
    lastValue? (addFront n X) = lastValue? X := by
  cases X with
  | nil => rfl
  | cons x xs =>
    cases xs with
    | nil => simp [addFront, lastValue?]
    | cons y ys => simp [addFront, lastValue?, List.getLast?_cons_cons]

omit [DecidableEq T] in
theorem lastValue?_cons (x : rle_pair T) (X : List (rle_pair T)) (hX : X ≠ []) :
    lastValue? (x :: X) = lastValue? X := by
  have := lastValue?_append [x] X hX
  simpa using this

theorem sumLen_glue (a b : List (rle_pair T)) : sumLen (glue a b) = sumLen a + sumLen b := by
  cases b with
  | nil => simp
  | cons y B =>
    cases ha : a.getLast? with
    | none =>
      have : a = [] := by simpa using ha
      subst this; simp
    | some x =>
      have hne : a ≠ [] := by intro h0; subst h0; simp at ha
      obtain ⟨Y, hY⟩ : ∃ Y, a = Y ++ [x] := by
        refine ⟨a.dropLast, ?_⟩
        have := List.dropLast_append_getLast hne
        rw [List.getLast?_eq_getLast _ hne] at ha
        simp only [Option.some.injEq] at ha
        rw [ha] at this
        exact this.symm
      subst hY
      rw [glue_concat_cons]
      split_ifs <;> simp <;> omega

theorem expand_glue (a b : List (rle_pair T)) : expand (glue a b) = expand a ++ expand b := by
  cases b with
  | nil => simp
  | cons y B =>
    cases ha : a.getLast? with
    | none =>
      have : a = [] := by simpa using ha
      subst this; simp
    | some x =>
      have hne : a ≠ [] := by intro h0; subst h0; simp at ha
      obtain ⟨Y, hY⟩ : ∃ Y, a = Y ++ [x] := by
        refine ⟨a.dropLast, ?_⟩
        have := List.dropLast_append_getLast hne
        rw [List.getLast?_eq_getLast _ hne] at ha
        simp only [Option.some.injEq] at ha
        rw [ha] at this
        exact this.symm
      subst hY
      rw [glue_concat_cons]
      split_ifs with h
      · simp only [expand_append, expand_cons, expand_nil, List.append_nil, List.append_assoc]
        rw [List.replicate_add, h, List.append_assoc]
      · simp

end gluelemmas
end til

namespace til
section runlemmas
variable {T : Type} [DecidableEq T]

omit [DecidableEq T] in
theorem NoZeroRun.cons {r : rle_pair T} {rs : List (rle_pair T)} (h : NoZeroRun (r :: rs)) :
    0 < r.length ∧ NoZeroRun rs :=
  ⟨h r (by simp), fun x hx => h x (by simp [hx])⟩

omit [DecidableEq T] in
theorem NoZeroRun.append_left {a b : List (rle_pair T)} (h : NoZeroRun (a ++ b)) : NoZeroRun a :=
  fun x hx => h x (by simp [hx])

omit [DecidableEq T] in
theorem NoZeroRun.append_right {a b : List (rle_pair T)} (h : NoZeroRun (a ++ b)) :
    NoZeroRun b :=
  fun x hx => h x (by simp [hx])

omit [DecidableEq T] in
theorem takeRuns_zero (X : List (rle_pair T)) : takeRuns 0 X = [] := by
  cases X <;> simp [takeRuns]

omit [DecidableEq T] in
/-- The runs of the first `sumLen P + p` elements of `P ++ r :: X`. -/
theorem takeRuns_app (P X : List (rle_pair T)) (r : rle_pair T) (p : Nat) (hP : NoZeroRun P)
    (hp : p < r.length) :
    takeRuns (sumLen P + p) (P ++ r :: X) = P ++ (if p = 0 then [] else [⟨r.value, p⟩]) := by
  induction P with
  | nil =>
    by_cases h0 : p = 0
    · simp [h0, takeRuns]
    · simp [h0, takeRuns, hp]
  | cons a P ih =>
    obtain ⟨ha, hP'⟩ := hP.cons
    have h1 : ¬ (a.length + sumLen P + p = 0) := by omega
    have h2 : ¬ (a.length + sumLen P + p < a.length) := by omega
    have h3 : a.length + sumLen P + p - a.length = sumLen P + p := by omega
    simp only [List.cons_append, sumLen_cons, takeRuns, h1, h2, if_false, h3, List.append_eq,
      ih hP']

omit [DecidableEq T] in
theorem takeRuns_all (P : List (rle_pair T)) (hP : NoZeroRun P) :
    takeRuns (sumLen P) P = P := by
  induction P with
  | nil => rfl
  | cons a P ih =>
    obtain ⟨ha, hP'⟩ := hP.cons
    have h1 : ¬ (a.length + sumLen P = 0) := by omega
    have h2 : ¬ (a.length + sumLen P < a.length) := by omega
    simp only [sumLen_cons, takeRuns, h1, h2, if_false, Nat.add_sub_cancel_left, ih hP']

omit [DecidableEq T] in
/-- The runs left of `E ++ r :: X` without its first `sumLen E + q` elements. -/
theorem dropRuns_app (E X : List (rle_pair T)) (r : rle_pair T) (q : Nat) (hq : q < r.length) :
    dropRuns (sumLen E + q) (E ++ r :: X) = ⟨r.value, r.length - q⟩ :: X := by
  induction E with
  | nil => simp [dropRuns, hq]
  | cons a E ih =>
    have h2 : ¬ (a.length + sumLen E + q < a.length) := by omega
    have h3 : a.length + sumLen E + q - a.length = sumLen E + q := by omega
    simp only [List.cons_append, sumLen_cons, dropRuns, h2, if_false, h3, List.append_eq, ih]

omit [DecidableEq T] in
theorem dropRuns_all (E : List (rle_pair T)) : dropRuns (sumLen E) E = [] := by
  induction E with
  | nil => rfl
  | cons a E ih =>
    have h2 : ¬ (a.length + sumLen E < a.length) := by omega
    simp only [sumLen_cons, dropRuns, h2, if_false, Nat.add_sub_cancel_left, ih]

theorem join_front_zero (runs : List (rle_pair T)) (front : rle_pair T) (b p : Nat) :
    basic_rle._replace_join_front runs 0 front b p = .ok (b, p, 0) := by
  simp [basic_rle._replace_join_front, pure, Except.pure]

theorem join_front_in (P X : List (rle_pair T)) (rb front : rle_pair T) (start b p : Nat)
    (hb : b = P.length) (hs : start ≠ 0) (hp : p ≠ 0) :
    basic_rle._replace_join_front (P ++ rb :: X) start front b p
      = .ok (if rb.value = front.value then (P.length, 0, p) else (P.length, p, 0)) := by
  subst hb
  simp only [basic_rle._replace_join_front, hs, ne_eq, not_false_eq_true, if_true, previousIt, hp,
    bind, Except.bind, getRun_app _ _ _ _ rfl, pure, Except.pure]
  split_ifs <;> rfl

theorem join_front_prev (P X : List (rle_pair T)) (pr front : rle_pair T) (start b : Nat)
    (hb : b = P.length + 1) (hs : start ≠ 0) :
    basic_rle._replace_join_front (P ++ pr :: X) start front b 0
      = .ok (if pr.value = front.value then (P.length, 0, pr.length)
          else (P.length + 1, 0, 0)) := by
  subst hb
  simp only [basic_rle._replace_join_front, hs, ne_eq, not_false_eq_true, if_true, previousIt,
    not_true_eq_false, if_false, Nat.add_one_ne_zero, Nat.add_sub_cancel,
    bind, Except.bind, getRun_app _ _ _ _ rfl, pure, Except.pure]
  split_ifs <;> rfl

theorem join_back_end (w : Nat) (c : basic_rle T) (back : rle_pair T) (e en q : Nat)
    (he : e = c._total_length) :
    c._replace_join_back w e back en q = .ok (en, q, 0) := by
  simp [basic_rle._replace_join_back, he, pure, Except.pure]

theorem join_back_in (w : Nat) (E X : List (rle_pair T)) (re back : rle_pair T)
    (total e en q : Nat) (hen : en = E.length) (he : e ≠ total) (hq : q ≤ re.length)
    (hre : re.length < 2 ^ w) :
    basic_rle._replace_join_back w ⟨E ++ re :: X, total⟩ e back en q
      = .ok (if re.value = back.value then (E.length + 1, 0, re.length - q)
          else (E.length, q, 0)) := by
  subst hen
  simp only [basic_rle._replace_join_back, he, ne_eq, not_false_eq_true, if_true,
    bind, Except.bind, getRun_app _ _ _ _ rfl, pure, Except.pure, subS_eq hq hre]
  split_ifs <;> rfl

omit [DecidableEq T] in
/-- The end part of the splitting: the run at `end` loses its first `q` elements. -/
theorem split_end (w : Nat) (E X : List (rle_pair T)) (re : rle_pair T) (en q : Nat)
    (hen : en = E.length) (hq : q ≤ re.length) (hre : re.length < 2 ^ w) :
    (if q ≠ 0 then setLength (E ++ re :: X) en (fun l => subS w l q)
      else (pure (E ++ re :: X) : Except Err _))
      = .ok (E ++ ⟨re.value, re.length - q⟩ :: X) := by
  split_ifs with h
  · rw [setLength_app _ _ _ _ _ hen, subS_eq hq hre]
  · simp only [ne_eq, Decidable.not_not] at h
    subst h; rfl

end runlemmas
end til

namespace til
section compose
variable {T : Type} [DecidableEq T]

omit [DecidableEq T] in
theorem total_update (w : Nat) (new_runs : List (rle_pair T)) (total start e : Nat)
    (hse : start ≤ e) (he : e ≤ total) (ht : total < 2 ^ w)
    (hfit : total - (e - start) + sumLen new_runs < 2 ^ w) :
    new_runs.foldl (fun acc r => addS w acc r.length) (subS w total (subS w e start))
      = total - (e - start) + sumLen new_runs := by
  rw [subS_eq hse (by omega), subS_eq (by omega) ht, foldl_addS _ _ _ hfit]

/-- Composition of the phases of the non-empty branch of `_replace` when there
is no trailer. -/
theorem nonempty_of_phases [Inhabited T] (w : Nat) (c : basic_rle T) (start e : Nat)
    (new_runs : List (rle_pair T)) (front back : rle_pair T)
    (b p en q b' p' bal e' q' eal : Nat) (A M B : List (rle_pair T))
    (hfront : new_runs.head? = some front) (hback : new_runs.getLast? = some back)
    (hjf : basic_rle._replace_join_front c._runs start front b p = .ok (b', p', bal))
    (hjb : c._replace_join_back w e back en q = .ok (e', q', eal))
    (htr : basic_rle._replace_trailer w c._runs b' p' e' q' = .ok (none, q'))
    (hsp : basic_rle._replace_split w c._runs b' p' e' q' = .ok (A ++ (M ++ B), A.length))
    (he' : e' = A.length + M.length)
    (hse : start ≤ e) (he : e ≤ c._total_length) (ht : c._total_length < 2 ^ w)
    (hfit : c._total_length - (e - start) + sumLen new_runs < 2 ^ w)
    (hadd : sumLen new_runs + bal + eal < 2 ^ w) :
    c._replace_nonempty w start e new_runs b p en q
      = .ok ⟨A ++ (addBack eal (addFront bal new_runs) ++ B),
          c._total_length - (e - start) + sumLen new_runs⟩ := by
  have hne : new_runs ≠ [] := by
    intro h; subst h; simp at hfront
  unfold basic_rle._replace_nonempty
  simp only [hfront, hback, bind, Except.bind, pure, Except.pure, hjf, hjb, htr, hsp]
  rw [store_none A M B new_runs _ _ rfl he']
  simp only []
  rw [extend_spec w A B new_runs _ bal eal rfl hne hadd]
  simp only []
  rw [total_update w new_runs _ _ _ hse he ht hfit]

/-- Composition of the phases of the non-empty branch of `_replace` when there
is a trailer. -/
theorem nonempty_of_phases_trailer [Inhabited T] (w : Nat) (c : basic_rle T) (start e : Nat)
    (new_runs : List (rle_pair T)) (front back t : rle_pair T)
    (b p en q b' p' e' q' : Nat) (A B : List (rle_pair T))
    (hfront : new_runs.head? = some front) (hback : new_runs.getLast? = some back)
    (hjf : basic_rle._replace_join_front c._runs start front b p = .ok (b', p', 0))
    (hjb : c._replace_join_back w e back en q = .ok (e', q', 0))
    (htr : basic_rle._replace_trailer w c._runs b' p' e' q' = .ok (some t, 0))
    (hsp : basic_rle._replace_split w c._runs b' p' e' 0 = .ok (A ++ B, A.length))
    (he' : e' ≤ A.length)
    (hse : start ≤ e) (he : e ≤ c._total_length) (ht : c._total_length < 2 ^ w)
    (hfit : c._total_length - (e - start) + sumLen new_runs < 2 ^ w) :
    c._replace_nonempty w start e new_runs b p en q
      = .ok ⟨A ++ (new_runs ++ t :: B),
          c._total_length - (e - start) + sumLen new_runs⟩ := by
  unfold basic_rle._replace_nonempty
  simp only [hfront, hback, bind, Except.bind, pure, Except.pure, hjf, hjb, htr, hsp]
  rw [store_some A B new_runs t _ _ rfl he']
  simp only []
  rw [extend_zero]
  simp only []
  rw [total_update w new_runs _ _ _ hse he ht hfit]

end compose
end til

namespace til
section assemble
variable {T : Type} [DecidableEq T]

/-- From the relation at the front and the relation at the back to the result
of the two gluings. -/
theorem glue_assemble (L R A B new_runs : List (rle_pair T)) (bal eal : Nat) (v : T)
    (hne : new_runs ≠ []) (hlast : lastValue? new_runs = some v)
    (hF : glue L new_runs = A ++ addFront bal new_runs)
    (hB : ∀ X, lastValue? X = some v → glue X R = addBack eal X ++ B) :
    A ++ (addBack eal (addFront bal new_runs) ++ B) = glue (glue L new_runs) R := by
  have h1 : lastValue? (A ++ addFront bal new_runs) = some v := by
    rw [lastValue?_append _ _ (addFront_ne_nil _ _ hne), lastValue?_addFront, hlast]
  rw [hF, hB _ h1, addBack_append _ _ _ (addFront_ne_nil _ _ hne), List.append_assoc]

theorem front_rel_nil (new_runs : List (rle_pair T)) :
    glue [] new_runs = [] ++ addFront 0 new_runs := by simp

theorem front_rel_ne (P new_runs : List (rle_pair T)) (x : rle_pair T) (v : T)
    (hx : x.value = v) (h : headValue? new_runs ≠ some v) :
    glue (P ++ [x]) new_runs = (P ++ [x]) ++ addFront 0 new_runs := by
  subst hx
  rw [glue_front_ne _ _ _ h]; simp

theorem front_rel_eq (P new_runs : List (rle_pair T)) (x : rle_pair T) (v : T) (n : Nat)
    (hx : x.value = v) (hn : x.length = n) (h : headValue? new_runs = some v) :
    glue (P ++ [x]) new_runs = P ++ addFront n new_runs := by
  subst hx hn
  rw [glue_front_eq _ _ _ h]

theorem back_rel_nil (v : T) :
    ∀ X : List (rle_pair T), lastValue? X = some v → glue X [] = addBack 0 X ++ [] := by
  intro X _; simp

theorem back_rel_ne (Q : List (rle_pair T)) (y : rle_pair T) (v : T) (hy : y.value ≠ v) :
    ∀ X : List (rle_pair T), lastValue? X = some v → glue X (y :: Q) = addBack 0 X ++ y :: Q := by
  intro X hX
  rw [glue_back_ne, addBack_zero]
  rw [hX]; simp; exact fun h => hy h.symm

theorem back_rel_eq (Q : List (rle_pair T)) (y : rle_pair T) (v : T) (n : Nat)
    (hy : y.value = v) (hn : y.length = n) :
    ∀ X : List (rle_pair T), lastValue? X = some v → glue X (y :: Q) = addBack n X ++ Q := by
  intro X hX
  subst hy hn
  rw [glue_back_eq _ _ _ hX]

omit [DecidableEq T] in
theorem split_none (w : Nat) (runs : List (rle_pair T)) (b e : Nat) :
    basic_rle._replace_split w runs b 0 e 0 = .ok (runs, b) := by
  simp [basic_rle._replace_split, bind, Except.bind, pure, Except.pure]

omit [DecidableEq T] in
theorem split_back (w : Nat) (E X : List (rle_pair T)) (re : rle_pair T) (b en q : Nat)
    (hen : en = E.length) (hq : q ≤ re.length) (hre : re.length < 2 ^ w) :
    basic_rle._replace_split w (E ++ re :: X) b 0 en q
      = .ok (E ++ ⟨re.value, re.length - q⟩ :: X, b) := by
  simp only [basic_rle._replace_split, ne_eq, not_true_eq_false, if_false, bind, Except.bind,
    pure, Except.pure]
  have h := split_end w E X re en q hen hq hre
  simp only [ne_eq, pure, Except.pure] at h
  rw [h]

omit [DecidableEq T] in
theorem split_front (w : Nat) (P X : List (rle_pair T)) (rb : rle_pair T) (b p e : Nat)
    (hb : b = P.length) (hp : p ≠ 0) :
    basic_rle._replace_split w (P ++ rb :: X) b p e 0
      = .ok (P ++ ⟨rb.value, p⟩ :: X, P.length + 1) := by
  subst hb
  simp only [basic_rle._replace_split, ne_eq, hp, not_false_eq_true, if_true,
    not_true_eq_false, if_false, bind, Except.bind, pure, Except.pure,
    setLength_app _ _ _ _ _ rfl]

omit [DecidableEq T] in
theorem split_both (w : Nat) (P M X : List (rle_pair T)) (rb re : rle_pair T) (b p en q : Nat)
    (hb : b = P.length) (hp : p ≠ 0) (hen : en = P.length + M.length + 1)
    (hq : q ≤ re.length) (hre : re.length < 2 ^ w) :
    basic_rle._replace_split w (P ++ rb :: (M ++ re :: X)) b p en q
      = .ok (P ++ ⟨rb.value, p⟩ :: (M ++ ⟨re.value, re.length - q⟩ :: X), P.length + 1) := by
  subst hb
  simp only [basic_rle._replace_split, ne_eq, hp, not_false_eq_true, if_true,
    bind, Except.bind, pure, Except.pure, setLength_app _ _ _ _ _ rfl]
  have h := split_end w (P ++ ⟨rb.value, p⟩ :: M) X re en q (by simp [hen]; omega) hq hre
  simp only [List.append_assoc, List.cons_append, ne_eq, pure, Except.pure] at h
  rw [h]

omit [DecidableEq T] in
theorem trailer_none_of_ne (w : Nat) (runs : List (rle_pair T)) (b p e q : Nat)
    (h : b ≠ e ∨ p = 0) :
    basic_rle._replace_trailer w runs b p e q = .ok (none, q) := by
  unfold basic_rle._replace_trailer
  rw [if_neg]
  · rfl
  · rintro ⟨h1, h2⟩
    rcases h with h | h
    · exact h h1
    · exact h2 h

omit [DecidableEq T] in
theorem sumLen_eq_zero {P : List (rle_pair T)} (hP : NoZeroRun P) (h : sumLen P = 0) :
    P = [] := by
  cases P with
  | nil => rfl
  | cons a P =>
    have := (hP.cons).1
    simp at h; omega

omit [DecidableEq T] in
theorem exists_concat_of_sumLen_ne {P : List (rle_pair T)} (h : sumLen P ≠ 0) :
    ∃ P' pr, P = P' ++ [pr] := by
  have hne : P ≠ [] := by intro h0; subst h0; simp at h
  exact ⟨P.dropLast, P.getLast hne, (List.dropLast_append_getLast hne).symm⟩

end assemble
end til

namespace til
section back
variable {T : Type} [DecidableEq T]

theorem backData_end (w : Nat) (runs : List (rle_pair T)) (total e en : Nat) (back : rle_pair T)
    (he : e = total) :
    BackData w runs [] [] total e en 0 back [] [] en 0 0 := by
  refine ⟨join_back_end w _ back e en 0 he, by simp, ?_, back_rel_nil _, by simp, fun _ => rfl⟩
  intro Z _
  simp [pure, Except.pure]

theorem backData_in (w : Nat) (E Q : List (rle_pair T)) (re back : rle_pair T)
    (total e en q : Nat) (hen : en = E.length) (he : e ≠ total) (hq : q < re.length)
    (hre : re.length < 2 ^ w) :
    ∃ Me B e' q' eal, BackData w (E ++ re :: Q) (re :: Q) (⟨re.value, re.length - q⟩ :: Q)
      total e en q back Me B e' q' eal := by
  by_cases hv : re.value = back.value
  · refine ⟨[re], Q, en + 1, 0, re.length - q, ?_, rfl, ?_, ?_, ?_, ?_⟩
    · rw [join_back_in w E Q re back total e en q hen he (by omega) hre, if_pos hv, hen]
    · intro Z _; simp [pure, Except.pure]
    · exact back_rel_eq Q _ _ _ hv rfl
    · simp
    · intro h; simp at h
  · refine ⟨[], ⟨re.value, re.length - q⟩ :: Q, en, q, 0, ?_, rfl, ?_, ?_, ?_, ?_⟩
    · rw [join_back_in w E Q re back total e en q hen he (by omega) hre, if_neg hv, hen]
    · intro Z hZ
      rw [split_end w Z Q re en q hZ (by omega) hre]; simp
    · exact back_rel_ne Q _ _ hv
    · simp
    · intro h; simp at h

omit [DecidableEq T] in
theorem split_gen0 (w : Nat) (runs runs' : List (rle_pair T)) (b en q : Nat)
    (h : (if q ≠ 0 then setLength runs en (fun l => subS w l q)
      else (pure runs : Except Err _)) = .ok runs') :
    basic_rle._replace_split w runs b 0 en q = .ok (runs', b) := by
  simp only [ne_eq, pure, Except.pure] at h
  simp only [basic_rle._replace_split, ne_eq, not_true_eq_false, if_false, bind, Except.bind,
    pure, Except.pure, h]

omit [DecidableEq T] in
theorem split_genp (w : Nat) (P X runs' : List (rle_pair T)) (rb : rle_pair T) (b p en q : Nat)
    (hb : b = P.length) (hp : p ≠ 0)
    (h : (if q ≠ 0 then setLength (P ++ ⟨rb.value, p⟩ :: X) en (fun l => subS w l q)
      else (pure (P ++ ⟨rb.value, p⟩ :: X) : Except Err _)) = .ok runs') :
    basic_rle._replace_split w (P ++ rb :: X) b p en q = .ok (runs', P.length + 1) := by
  subst hb
  simp only [ne_eq, pure, Except.pure] at h
  simp only [basic_rle._replace_split, ne_eq, hp, not_false_eq_true, if_true,
    bind, Except.bind, pure, Except.pure, setLength_app _ _ _ _ _ rfl, h]

end back
end til

namespace til
section leaves
variable {T : Type} [DecidableEq T]

omit [DecidableEq T] in
theorem lastValue?_of_getLast? {X : List (rle_pair T)} {x : rle_pair T}
    (h : X.getLast? = some x) : lastValue? X = some x.value := by
  simp [lastValue?, h]

omit [DecidableEq T] in
theorem headValue?_of_head? {X : List (rle_pair T)} {x : rle_pair T}
    (h : X.head? = some x) : headValue? X = some x.value := by
  simp [headValue?, h]

/-- The non-empty branch when the range starts at a run boundary. -/
theorem nonempty_p0 [Inhabited T] (w : Nat) (P Mid Qs R Me B new_runs : List (rle_pair T))
    (front back : rle_pair T) (total start e b en q e' q' eal : Nat)
    (hfront : new_runs.head? = some front) (hback : new_runs.getLast? = some back)
    (hnzP : NoZeroRun P) (hstart : start = sumLen P) (hb : b = P.length)
    (hen : en = P.length + Mid.length)
    (hbd : BackData w (P ++ (Mid ++ Qs)) Qs R total e en q back Me B e' q' eal)
    (hse : start ≤ e) (he : e ≤ total) (ht : total < 2 ^ w) (hR : sumLen R = total - e)
    (hfit : total - (e - start) + sumLen new_runs < 2 ^ w) :
    basic_rle._replace_nonempty w ⟨P ++ (Mid ++ Qs), total⟩ start e new_runs b 0 en q
      = .ok ⟨glue (glue P new_runs) R, total - (e - start) + sumLen new_runs⟩ := by
  obtain ⟨hjb, he', hend, hB, heal, _⟩ := hbd
  have hlast := lastValue?_of_getLast? hback
  have hhead := headValue?_of_head? hfront
  have hne : new_runs ≠ [] := by intro h; subst h; simp at hfront
  have hsplit := hend (P ++ Mid) (by simp [hen])
  by_cases hs : start = 0
  · have hP : P = [] := sumLen_eq_zero hnzP (by omega)
    subst hP
    have h := nonempty_of_phases w ⟨[] ++ (Mid ++ Qs), total⟩ start e new_runs front back
      b 0 en q b 0 0 e' q' eal [] (Mid ++ Me) B hfront hback
      (by rw [hs]; exact join_front_zero _ _ _ _) hjb
      (trailer_none_of_ne _ _ _ _ _ _ (Or.inr rfl))
      (by have := split_gen0 w _ _ b e' q' hsplit; simpa [hb] using this)
      (by simp [he', hen]) hse he ht hfit (by omega)
    rw [h, glue_assemble [] R [] B new_runs 0 eal back.value hne hlast (front_rel_nil _) hB]
  · obtain ⟨P', pr, hP⟩ := exists_concat_of_sumLen_ne (P := P) (by omega)
    subst hP
    have hb' : b = P'.length + 1 := by simp [hb]
    have hruns : (P' ++ [pr]) ++ (Mid ++ Qs) = P' ++ pr :: (Mid ++ Qs) := by simp
    have hjf := join_front_prev P' (Mid ++ Qs) pr front start b hb' hs
    rw [← hruns] at hjf
    simp only [sumLen_append, sumLen_cons, sumLen_nil] at hstart
    by_cases hv : pr.value = front.value
    · rw [if_pos hv] at hjf
      have h := nonempty_of_phases w ⟨(P' ++ [pr]) ++ (Mid ++ Qs), total⟩ start e new_runs
        front back b 0 en q P'.length 0 pr.length e' q' eal P' (pr :: (Mid ++ Me)) B hfront hback
        hjf hjb (trailer_none_of_ne _ _ _ _ _ _ (Or.inr rfl))
        (by have := split_gen0 w _ _ P'.length e' q' hsplit; simpa using this)
        (by simp [he', hen]; omega) hse he ht hfit (by omega)
      rw [h, glue_assemble (P' ++ [pr]) R P' B new_runs pr.length eal back.value hne hlast
        (front_rel_eq P' new_runs pr front.value pr.length hv rfl hhead) hB]
    · rw [if_neg hv] at hjf
      have h := nonempty_of_phases w ⟨(P' ++ [pr]) ++ (Mid ++ Qs), total⟩ start e new_runs
        front back b 0 en q (P'.length + 1) 0 0 e' q' eal (P' ++ [pr]) (Mid ++ Me) B hfront hback
        (by simpa using hjf) hjb (trailer_none_of_ne _ _ _ _ _ _ (Or.inr rfl))
        (by have := split_gen0 w _ _ (P'.length + 1) e' q' hsplit; simpa using this)
        (by simp [he', hen]; omega) hse he ht hfit (by omega)
      rw [h, glue_assemble (P' ++ [pr]) R (P' ++ [pr]) B new_runs 0 eal back.value hne hlast
        (front_rel_ne P' new_runs pr pr.value rfl (by rw [hhead]; simpa using Ne.symm hv)) hB]

end leaves
end til

namespace til
section leaves2
variable {T : Type} [DecidableEq T]

/-- The non-empty branch when the range starts inside a run and ends in a later
run or at the end of the store. -/
theorem nonempty_pos_distinct [Inhabited T] (w : Nat)
    (P M' Qs R Me B new_runs : List (rle_pair T)) (rb front back : rle_pair T)
    (total start e b en p q e' q' eal : Nat)
    (hfront : new_runs.head? = some front) (hback : new_runs.getLast? = some back)
    (hstart : start = sumLen P + p) (hp : p ≠ 0) (hb : b = P.length)
    (hen : en = P.length + M'.length + 1)
    (hbd : BackData w (P ++ rb :: (M' ++ Qs)) Qs R total e en q back Me B e' q' eal)
    (hse : start ≤ e) (he : e ≤ total) (ht : total < 2 ^ w) (hR : sumLen R = total - e)
    (hfit : total - (e - start) + sumLen new_runs < 2 ^ w) :
    basic_rle._replace_nonempty w ⟨P ++ rb :: (M' ++ Qs), total⟩ start e new_runs b p en q
      = .ok ⟨glue (glue (P ++ [⟨rb.value, p⟩]) new_runs) R,
          total - (e - start) + sumLen new_runs⟩ := by
  obtain ⟨hjb, he', hend, hB, heal, _⟩ := hbd
  have hlast := lastValue?_of_getLast? hback
  have hhead := headValue?_of_head? hfront
  have hne : new_runs ≠ [] := by intro h; subst h; simp at hfront
  have hs : start ≠ 0 := by omega
  have hjf := join_front_in P (M' ++ Qs) rb front start b p hb hs hp
  by_cases hv : rb.value = front.value
  · rw [if_pos hv] at hjf
    have hsplit := hend (P ++ rb :: M') (by simp [hen]; omega)
    have h := nonempty_of_phases w ⟨P ++ rb :: (M' ++ Qs), total⟩ start e new_runs
      front back b p en q P.length 0 p e' q' eal P (rb :: (M' ++ Me)) B hfront hback
      hjf hjb (trailer_none_of_ne _ _ _ _ _ _ (Or.inr rfl))
      (by have := split_gen0 w _ _ P.length e' q' hsplit; simpa using this)
      (by simp [he', hen]; omega) hse he ht hfit (by omega)
    rw [h, glue_assemble (P ++ [⟨rb.value, p⟩]) R P B new_runs p eal back.value hne hlast
      (front_rel_eq P new_runs (⟨rb.value, p⟩ : rle_pair T) front.value p hv rfl hhead) hB]
  · rw [if_neg hv] at hjf
    have hsplit := hend (P ++ ⟨rb.value, p⟩ :: M') (by simp [hen]; omega)
    have h := nonempty_of_phases w ⟨P ++ rb :: (M' ++ Qs), total⟩ start e new_runs
      front back b p en q P.length p 0 e' q' eal (P ++ [⟨rb.value, p⟩]) (M' ++ Me) B
      hfront hback hjf hjb (trailer_none_of_ne _ _ _ _ _ _ (Or.inl (by omega)))
      (by
        have := split_genp w P (M' ++ Qs) _ rb P.length p e' q' rfl hp
          (by simpa using hsplit)
        simpa using this)
      (by simp [he', hen]; omega) hse he ht hfit (by omega)
    rw [h, glue_assemble (P ++ [(⟨rb.value, p⟩ : rle_pair T)]) R
      (P ++ [(⟨rb.value, p⟩ : rle_pair T)]) B new_runs 0 eal
      back.value hne hlast
      (front_rel_ne P new_runs (⟨rb.value, p⟩ : rle_pair T) rb.value rfl
        (by rw [hhead]; simpa using Ne.symm hv)) hB]

end leaves2
end til

namespace til
section leaves3
variable {T : Type} [DecidableEq T]

omit [DecidableEq T] in
theorem trailer_some (w : Nat) (P X : List (rle_pair T)) (rb : rle_pair T) (b p e q : Nat)
    (hb : b = P.length) (he : e = P.length) (hp : p ≠ 0) (hq : q ≤ rb.length)
    (hrb : rb.length < 2 ^ w) :
    basic_rle._replace_trailer w (P ++ rb :: X) b p e q
      = .ok (some ⟨rb.value, rb.length - q⟩, 0) := by
  subst hb he
  simp only [basic_rle._replace_trailer, hp, ne_eq, not_false_eq_true, and_self, if_true,
    bind, Except.bind, getRun_app _ _ _ _ rfl, pure, Except.pure, subS_eq hq hrb]

/-- The non-empty branch when the range starts and ends inside one run. -/
theorem nonempty_pos_same [Inhabited T] (w : Nat) (P B' new_runs : List (rle_pair T))
    (rb front back : rle_pair T) (total start e b en p q : Nat)
    (hfront : new_runs.head? = some front) (hback : new_runs.getLast? = some back)
    (hstart : start = sumLen P + p) (hend : e = sumLen P + q) (hp : p ≠ 0) (hpq : p ≤ q)
    (hq : q < rb.length) (hb : b = P.length) (hen : en = P.length)
    (htot : total = sumLen (P ++ rb :: B')) (ht : total < 2 ^ w)
    (hfit : total - (e - start) + sumLen new_runs < 2 ^ w) :
    basic_rle._replace_nonempty w ⟨P ++ rb :: B', total⟩ start e new_runs b p en q
      = .ok ⟨glue (glue (P ++ [⟨rb.value, p⟩]) new_runs) (⟨rb.value, rb.length - q⟩ :: B'),
          total - (e - start) + sumLen new_runs⟩ := by
  have hlast := lastValue?_of_getLast? hback
  have hhead := headValue?_of_head? hfront
  have hne : new_runs ≠ [] := by intro h; subst h; simp at hfront
  simp only [sumLen_append, sumLen_cons] at htot
  have hs : start ≠ 0 := by omega
  have hse : start ≤ e := by omega
  have he : e ≤ total := by omega
  have hne_tot : e ≠ total := by omega
  have hrb : rb.length < 2 ^ w := by omega
  have hjf := join_front_in P B' rb front start b p hb hs hp
  by_cases hv : rb.value = front.value
  · rw [if_pos hv] at hjf
    obtain ⟨Me, B, e', q', eal, hjb, he', hsp, hB, heal, _⟩ :=
      backData_in w P B' rb back total e en q hen hne_tot hq hrb
    have hsplit := hsp P hen
    have h := nonempty_of_phases w ⟨P ++ rb :: B', total⟩ start e new_runs
      front back b p en q P.length 0 p e' q' eal P Me B hfront hback
      hjf hjb (trailer_none_of_ne _ _ _ _ _ _ (Or.inr rfl))
      (by have := split_gen0 w _ _ P.length e' q' hsplit; simpa using this)
      (by simp [he', hen]) hse he ht hfit (by simp at heal; omega)
    rw [h, glue_assemble (P ++ [(⟨rb.value, p⟩ : rle_pair T)]) _ P B new_runs p eal back.value
      hne hlast (front_rel_eq P new_runs (⟨rb.value, p⟩ : rle_pair T) front.value p hv rfl hhead)
      hB]
  · rw [if_neg hv] at hjf
    have hjb := join_back_in w P B' rb back total e en q hen hne_tot (by omega) hrb
    have hFr := front_rel_ne P new_runs (⟨rb.value, p⟩ : rle_pair T) rb.value rfl
        (by rw [hhead]; simpa using Ne.symm hv)
    by_cases hvb : rb.value = back.value
    · rw [if_pos hvb] at hjb
      have h := nonempty_of_phases w ⟨P ++ rb :: B', total⟩ start e new_runs
        front back b p en q P.length p 0 (P.length + 1) 0 (rb.length - q)
        (P ++ [⟨rb.value, p⟩]) [] B' hfront hback hjf hjb
        (trailer_none_of_ne _ _ _ _ _ _ (Or.inl (by omega)))
        (by have := split_front w P B' rb P.length p (P.length + 1) rfl hp; simpa using this)
        (by simp) hse he ht hfit (by omega)
      rw [h, glue_assemble (P ++ [(⟨rb.value, p⟩ : rle_pair T)]) _
        (P ++ [(⟨rb.value, p⟩ : rle_pair T)]) B' new_runs 0 (rb.length - q) back.value hne hlast
        hFr (back_rel_eq B' (⟨rb.value, rb.length - q⟩ : rle_pair T) _ _ hvb rfl)]
    · rw [if_neg hvb] at hjb
      have h := nonempty_of_phases_trailer w ⟨P ++ rb :: B', total⟩ start e new_runs
        front back ⟨rb.value, rb.length - q⟩ b p en q P.length p P.length q
        (P ++ [⟨rb.value, p⟩]) B' hfront hback hjf hjb
        (trailer_some w P B' rb _ p _ q rfl rfl hp (by omega) hrb)
        (by have := split_front w P B' rb P.length p P.length rfl hp; simpa using this)
        (by simp) hse he ht hfit
      rw [h, hFr, addFront_zero, glue_back_ne]
      · simp
      · rw [lastValue?_append _ _ hne, hlast]
        simpa using Ne.symm hvb

end leaves3
end til

namespace til
section removal
variable {T : Type} [DecidableEq T]

/-- Composition of the phases of the pure-removal branch of `_replace`. -/
theorem empty_of_phases (w : Nat) (c : basic_rle T) (start e b p en q b' p' q' : Nat)
    (runs1 A M B : List (rle_pair T))
    (hj : c._replace_empty_join w start e b p en q = .ok (runs1, b', p', q'))
    (hsp : basic_rle._replace_split w runs1 b' p' en q' = .ok (A ++ (M ++ B), A.length))
    (hen : en = A.length + M.length)
    (hse : start ≤ e) (he : e ≤ c._total_length) (ht : c._total_length < 2 ^ w) :
    c._replace_empty w start e b p en q = .ok ⟨A ++ B, c._total_length - (e - start)⟩ := by
  unfold basic_rle._replace_empty
  simp only [hj, bind, Except.bind, hsp, pure, Except.pure]
  rw [eraseRange_app A M B _ _ rfl hen]
  simp only []
  rw [subS_eq hse (by omega), subS_eq (by omega) ht]

theorem empty_join_skip (w : Nat) (c : basic_rle T) (start e b p en q : Nat)
    (h : start = 0 ∨ e = c._total_length) :
    c._replace_empty_join w start e b p en q = .ok (c._runs, b, p, q) := by
  unfold basic_rle._replace_empty_join
  rw [if_neg]
  · rfl
  · rintro ⟨h1, h2⟩
    rcases h with h | h
    · exact h1 h
    · exact h2 h

/-- The join of the pure-removal branch when the run before the range and the
run at `end` are given. -/
theorem empty_join_in (w : Nat) (c : basic_rle T) (start e b p en q pv : Nat)
    (prun re : rle_pair T) (runs1 : List (rle_pair T))
    (hs : start ≠ 0) (he : e ≠ c._total_length)
    (hpv : previousIt b p = .ok pv) (hpr : getRun c._runs pv = .ok prun)
    (hre : getRun c._runs en = .ok re)
    (hset : prun.value = re.value → setLength c._runs en
      (fun l => subS w l (subS w q (if p ≠ 0 then p else prun.length))) = .ok runs1) :
    c._replace_empty_join w start e b p en q
      = .ok (if prun.value = re.value then (runs1, pv, 0, 0) else (c._runs, b, p, q)) := by
  unfold basic_rle._replace_empty_join
  rw [if_pos ⟨hs, he⟩]
  simp only [hpv, hpr, hre, bind, Except.bind, pure, Except.pure]
  by_cases hv : prun.value = re.value
  · rw [if_pos hv, if_pos hv, hset hv]
  · rw [if_neg hv, if_neg hv]

end removal
end til

namespace til
section removal2
variable {T : Type} [DecidableEq T]

omit [DecidableEq T] in
theorem previousIt_pos (b p : Nat) (hp : p ≠ 0) : previousIt b p = .ok b := by
  simp [previousIt, hp]

omit [DecidableEq T] in
theorem previousIt_zero (b : Nat) : previousIt (b + 1) 0 = .ok b := by
  simp [previousIt]

/-- The pure-removal branch when the range starts at a run boundary. -/
theorem empty_p0 (w : Nat) (P Mid Qs R : List (rle_pair T)) (total start e b en q : Nat)
    (hnzP : NoZeroRun P) (hstart : start = sumLen P) (hb : b = P.length)
    (hen : en = P.length + Mid.length)
    (hQ : (Qs = [] ∧ q = 0 ∧ e = total ∧ R = []) ∨
      (∃ re Q', Qs = re :: Q' ∧ q < re.length ∧ e ≠ total ∧
        R = ⟨re.value, re.length - q⟩ :: Q'))
    (hse : start ≤ e) (he : e ≤ total) (htot : total = sumLen (P ++ (Mid ++ Qs)))
    (ht : total < 2 ^ w) :
    basic_rle._replace_empty w ⟨P ++ (Mid ++ Qs), total⟩ start e b 0 en q
      = .ok ⟨glue P R, total - (e - start)⟩ := by
  rcases hQ with ⟨rfl, rfl, hetot, rfl⟩ | ⟨re, Q', rfl, hq, hetot, rfl⟩
  · have h := empty_of_phases w ⟨P ++ (Mid ++ []), total⟩ start e b 0 en 0 b 0 0 _ P Mid []
      (empty_join_skip w _ _ _ _ _ _ _ (Or.inr hetot))
      (by rw [split_none, hb]) hen hse he ht
    rw [h]; simp
  · simp only [sumLen_append, sumLen_cons] at htot
    have hre : re.length < 2 ^ w := by omega
    by_cases hs : start = 0
    · have hP : P = [] := sumLen_eq_zero hnzP (by omega)
      subst hP
      have h := empty_of_phases w ⟨[] ++ (Mid ++ re :: Q'), total⟩ start e b 0 en q b 0 q _
        [] Mid (⟨re.value, re.length - q⟩ :: Q')
        (empty_join_skip w _ _ _ _ _ _ _ (Or.inl hs))
        (by
          have := split_back w Mid Q' re b en q (by simpa using hen) (by omega) hre
          simpa [hb] using this)
        hen hse he ht
      rw [h]; simp
    · obtain ⟨P', pr, hP⟩ := exists_concat_of_sumLen_ne (P := P) (by omega)
      subst hP
      simp only [sumLen_append, sumLen_cons, sumLen_nil, List.length_append, List.length_cons,
        List.length_nil] at hstart htot hb hen
      have hruns : (P' ++ [pr]) ++ (Mid ++ re :: Q') = P' ++ pr :: (Mid ++ re :: Q') := by simp
      have hruns2 : (P' ++ [pr]) ++ (Mid ++ re :: Q') = (P' ++ pr :: Mid) ++ re :: Q' := by simp
      have hj := empty_join_in w ⟨(P' ++ [pr]) ++ (Mid ++ re :: Q'), total⟩ start e b 0 en q
        P'.length pr re
        ((P' ++ pr :: Mid) ++ ⟨re.value, re.length - q + pr.length⟩ :: Q') hs hetot
        (by rw [hb]; exact previousIt_zero _)
        (by show getRun ((P' ++ [pr]) ++ (Mid ++ re :: Q')) _ = _
            rw [hruns]; exact getRun_app _ _ _ _ rfl)
        (by show getRun ((P' ++ [pr]) ++ (Mid ++ re :: Q')) _ = _
            rw [hruns2]; exact getRun_app _ _ _ _ (by simp [hen]; omega))
        (by
          intro _
          show setLength ((P' ++ [pr]) ++ (Mid ++ re :: Q')) _ _ = _
          rw [hruns2, setLength_app _ _ _ _ _ (by simp [hen]; omega)]
          simp only [ne_eq, not_true_eq_false, if_false]
          rw [subS_subS (by omega) (by omega) (by omega) hre])
      by_cases hv : pr.value = re.value
      · rw [if_pos hv] at hj
        have h := empty_of_phases w ⟨(P' ++ [pr]) ++ (Mid ++ re :: Q'), total⟩ start e b 0 en q
          P'.length 0 0 _ P' (pr :: Mid) (⟨re.value, re.length - q + pr.length⟩ :: Q') hj
          (by rw [split_none]; simp) (by simp [hen]; omega) hse he ht
        rw [h, glue_concat_cons, if_pos hv, Nat.add_comm]
      · rw [if_neg hv] at hj
        have h := empty_of_phases w ⟨(P' ++ [pr]) ++ (Mid ++ re :: Q'), total⟩ start e b 0 en q
          b 0 q _ (P' ++ [pr]) Mid (⟨re.value, re.length - q⟩ :: Q') hj
          (by
            have := split_back w (P' ++ pr :: Mid) Q' re b en q (by simp [hen]; omega)
              (by omega) hre
            simpa [hb] using this)
          (by simp [hen]) hse he ht
        rw [h, glue_concat_cons, if_neg hv]
        simp

end removal2
end til

namespace til
section removal3
variable {T : Type} [DecidableEq T]

/-- The pure-removal branch when the range starts inside a run and ends in a
later run or at the end of the store. -/
theorem empty_pos_distinct (w : Nat) (P M' Qs R : List (rle_pair T)) (rb : rle_pair T)
    (total start e b en p q : Nat)
    (hstart : start = sumLen P + p) (hp : p ≠ 0) (hprb : p < rb.length) (hb : b = P.length)
    (hen : en = P.length + M'.length + 1)
    (hQ : (Qs = [] ∧ q = 0 ∧ e = total ∧ R = []) ∨
      (∃ re Q', Qs = re :: Q' ∧ q < re.length ∧ e ≠ total ∧
        R = ⟨re.value, re.length - q⟩ :: Q'))
    (hse : start ≤ e) (he : e ≤ total) (htot : total = sumLen (P ++ rb :: (M' ++ Qs)))
    (ht : total < 2 ^ w) :
    basic_rle._replace_empty w ⟨P ++ rb :: (M' ++ Qs), total⟩ start e b p en q
      = .ok ⟨glue (P ++ [⟨rb.value, p⟩]) R, total - (e - start)⟩ := by
  have hs : start ≠ 0 := by omega
  rcases hQ with ⟨rfl, rfl, hetot, rfl⟩ | ⟨re, Q', rfl, hq, hetot, rfl⟩
  · have h := empty_of_phases w ⟨P ++ rb :: (M' ++ []), total⟩ start e b p en 0 b p 0 _
      (P ++ [⟨rb.value, p⟩]) M' []
      (empty_join_skip w _ _ _ _ _ _ _ (Or.inr hetot))
      (by
        have := split_front w P (M' ++ []) rb b p en hb hp
        simpa using this)
      (by simp [hen]; omega) hse he ht
    rw [h]; simp
  · simp only [sumLen_append, sumLen_cons] at htot
    have hre : re.length < 2 ^ w := by omega
    have hruns2 : P ++ rb :: (M' ++ re :: Q') = (P ++ rb :: M') ++ re :: Q' := by simp
    have hj := empty_join_in w ⟨P ++ rb :: (M' ++ re :: Q'), total⟩ start e b p en q
      P.length rb re
      ((P ++ rb :: M') ++ ⟨re.value, re.length - q + p⟩ :: Q') hs hetot
      (by rw [hb]; exact previousIt_pos _ _ hp)
      (getRun_app _ _ _ _ rfl)
      (by show getRun (P ++ rb :: (M' ++ re :: Q')) _ = _
          rw [hruns2]; exact getRun_app _ _ _ _ (by simp [hen]; omega))
      (by
        intro _
        show setLength (P ++ rb :: (M' ++ re :: Q')) _ _ = _
        rw [hruns2, setLength_app _ _ _ _ _ (by simp [hen]; omega)]
        simp only [ne_eq, hp, not_false_eq_true, if_true]
        rw [subS_subS (by omega) (by omega) (by omega) hre])
    by_cases hv : rb.value = re.value
    · rw [if_pos hv] at hj
      have h := empty_of_phases w ⟨P ++ rb :: (M' ++ re :: Q'), total⟩ start e b p en q
        P.length 0 0 _ P (rb :: M') (⟨re.value, re.length - q + p⟩ :: Q') hj
        (by rw [split_none]; simp) (by simp [hen]; omega) hse he ht
      rw [h, glue_concat_cons, if_pos hv, Nat.add_comm]
    · rw [if_neg hv] at hj
      have h := empty_of_phases w ⟨P ++ rb :: (M' ++ re :: Q'), total⟩ start e b p en q
        b p q _ (P ++ [⟨rb.value, p⟩]) M' (⟨re.value, re.length - q⟩ :: Q') hj
        (by
          have := split_both w P M' Q' rb re b p en q hb hp hen (by omega) hre
          simpa using this)
        (by simp [hen]; omega) hse he ht
      rw [h, glue_concat_cons, if_neg hv]
      simp

/-- The pure-removal branch when the range starts and ends inside one run. -/
theorem empty_pos_same (w : Nat) (P B' : List (rle_pair T)) (rb : rle_pair T)
    (total start e b en p q : Nat)
    (hstart : start = sumLen P + p) (hend : e = sumLen P + q) (hp : p ≠ 0) (hpq : p ≤ q)
    (hq : q < rb.length) (hb : b = P.length) (hen : en = P.length)
    (htot : total = sumLen (P ++ rb :: B')) (ht : total < 2 ^ w) :
    basic_rle._replace_empty w ⟨P ++ rb :: B', total⟩ start e b p en q
      = .ok ⟨glue (P ++ [⟨rb.value, p⟩]) (⟨rb.value, rb.length - q⟩ :: B'),
          total - (e - start)⟩ := by
  simp only [sumLen_append, sumLen_cons] at htot
  have hs : start ≠ 0 := by omega
  have hrb : rb.length < 2 ^ w := by omega
  have hj := empty_join_in w ⟨P ++ rb :: B', total⟩ start e b p en q
    P.length rb rb (P ++ ⟨rb.value, rb.length - q + p⟩ :: B') hs (by show e ≠ total; omega)
    (by rw [hb]; exact previousIt_pos _ _ hp)
    (getRun_app _ _ _ _ rfl) (getRun_app _ _ _ _ hen)
    (by
      intro _
      show setLength (P ++ rb :: B') _ _ = _
      rw [setLength_app _ _ _ _ _ hen]
      simp only [ne_eq, hp, not_false_eq_true, if_true]
      rw [subS_subS (by omega) (by omega) (by omega) hrb])
  rw [if_pos rfl] at hj
  have h := empty_of_phases w ⟨P ++ rb :: B', total⟩ start e b p en q
    P.length 0 0 _ P [] (⟨rb.value, rb.length - q + p⟩ :: B') hj
    (by rw [split_none]; simp) (by simp [hen]) (by omega) (by show e ≤ total; omega) ht
  rw [h, glue_concat_cons, if_pos rfl, Nat.add_comm]

end removal3
end til

namespace til
section top
variable {T : Type} [DecidableEq T]

omit [DecidableEq T] in
/-- The two consecutive scans of `_replace` and of `slice`: the run store splits
into the runs before the first position, the runs up to the second position and
the rest. -/
theorem scan_twice (w : Nat) (runs : List (rle_pair T)) (i j : Nat)
    (hfit : sumLen runs < 2 ^ w) (hij : i ≤ j) :
    ∃ P M Q p q, runs = P ++ (M ++ Q) ∧
      rle_scanner.scan w runs ⟨0, 0⟩ i = (⟨P.length, sumLen P⟩, P.length, p) ∧
      rle_scanner.scan w runs ⟨P.length, sumLen P⟩ j
        = (⟨P.length + M.length, sumLen P + sumLen M⟩, P.length + M.length, q) ∧
      sumLen P ≤ i ∧
      ((M ++ Q = [] ∧ p = 0) ∨
        (∃ rb B', M ++ Q = rb :: B' ∧ i < sumLen P + rb.length ∧ p = i - sumLen P)) ∧
      sumLen P + sumLen M ≤ j ∧
      ((Q = [] ∧ q = 0) ∨
        (∃ re Q', Q = re :: Q' ∧ j < sumLen P + sumLen M + re.length ∧
          q = j - (sumLen P + sumLen M))) := by
  obtain ⟨P, B, p, hsplit, hscan, hle, hcase⟩ :=
    scanLoop_spec w i runs 0 0 (by simpa using hfit) (Nat.zero_le _)
  subst hsplit
  simp only [sumLen_append] at hfit
  obtain ⟨M, Q, q, hsplit2, hscan2, hle2, hcase2⟩ :=
    scanLoop_spec w j B P.length (sumLen P) (by omega) (by omega)
  subst hsplit2
  refine ⟨P, M, Q, p, q, rfl, ?_, ?_, by simpa using hle, by simpa using hcase, hle2, hcase2⟩
  · simp only [rle_scanner.scan, List.drop_zero, hscan]
    simp
  · simp only [rle_scanner.scan, List.drop_left, hscan2]

omit [DecidableEq T] in
theorem sumLen_takeRuns (n : Nat) (runs : List (rle_pair T)) (h : n ≤ sumLen runs) :
    sumLen (takeRuns n runs) = n := by
  induction runs generalizing n with
  | nil => simp at h; subst h; rfl
  | cons r rs ih =>
    simp only [sumLen_cons] at h
    unfold takeRuns
    split_ifs with h0 h1
    · simp [h0]
    · simp
    · simp only [sumLen_cons]
      rw [ih _ (by omega)]; omega

omit [DecidableEq T] in
theorem sumLen_dropRuns (n : Nat) (runs : List (rle_pair T)) :
    sumLen (dropRuns n runs) = sumLen runs - n := by
  induction runs generalizing n with
  | nil => simp [dropRuns]
  | cons r rs ih =>
    unfold dropRuns
    split_ifs with h1
    · simp; omega
    · rw [ih]; simp; omega

end top
end til

namespace til
section top2
variable {T : Type} [DecidableEq T]

theorem backData_of (w : Nat) (runs E Q R : List (rle_pair T)) (total e en q : Nat)
    (back : rle_pair T) (hruns : runs = E ++ Q) (hen : en = E.length)
    (hQ : (Q = [] ∧ q = 0 ∧ e = total ∧ R = []) ∨
      (∃ re Q', Q = re :: Q' ∧ q < re.length ∧ e ≠ total ∧
        R = ⟨re.value, re.length - q⟩ :: Q'))
    (hlt : sumLen Q < 2 ^ w) :
    ∃ Me B e' q' eal, BackData w runs Q R total e en q back Me B e' q' eal := by
  subst hruns
  rcases hQ with ⟨rfl, rfl, hetot, rfl⟩ | ⟨re, Q', rfl, hq, hetot, rfl⟩
  · exact ⟨[], [], en, 0, 0, backData_end w _ total e en back hetot⟩
  · simp only [sumLen_cons] at hlt
    exact backData_in w E Q' re back total e en q hen hetot hq (by omega)

/-- Run-level characterisation of `_replace`: on a container without
zero-length runs whose size is the sum of its run lengths, replacing the range
`[start, e)` yields the runs before `start`, the new runs and the runs from `e`
on, glued together. -/
theorem _replace_ok [Inhabited T] (w : Nat) (c : basic_rle T) (hnz : NoZeroRun c._runs)
    (hsz : SizeConsistent w c) (start e : Nat) (hse : start ≤ e) (he : e ≤ c._total_length)
    (new_runs : List (rle_pair T))
    (hfit : c._total_length - (e - start) + sumLen new_runs < 2 ^ w) :
    c._replace w start e new_runs
      = .ok ⟨glue (glue (takeRuns start c._runs) new_runs) (dropRuns e c._runs),
          c._total_length - (e - start) + sumLen new_runs⟩ := by
  obtain ⟨runs, total⟩ := c
  obtain ⟨htot, hlt⟩ := hsz
  simp only at htot hlt hnz he hfit ⊢
  obtain ⟨P, M, Q, p, q, hruns, hs1, hs2, hle1, hc1, hle2, hc2⟩ :=
    scan_twice w runs start e hlt hse
  subst hruns
  have hnzP := hnz.append_left
  have ht : total < 2 ^ w := by omega
  unfold basic_rle._replace
  simp only [hs1, hs2]
  have htot' := htot
  simp only [sumLen_append] at htot' hlt
  have hback : ∃ R, dropRuns e (P ++ (M ++ Q)) = R ∧ sumLen R = total - e ∧
      ((Q = [] ∧ q = 0 ∧ e = total ∧ R = []) ∨
        (∃ re Q', Q = re :: Q' ∧ q < re.length ∧ e ≠ total ∧
          R = ⟨re.value, re.length - q⟩ :: Q')) := by
    refine ⟨_, rfl, by rw [sumLen_dropRuns, htot], ?_⟩
    rcases hc2 with ⟨rfl, rfl⟩ | ⟨re, Q', rfl, hlt2, rfl⟩
    · have hetot : e = total := by simp at htot'; omega
      refine Or.inl ⟨rfl, rfl, hetot, ?_⟩
      have h := dropRuns_all (P ++ (M ++ []))
      rw [← htot, ← hetot] at h
      exact h
    · refine Or.inr ⟨re, Q', rfl, by omega, by simp at htot'; omega, ?_⟩
      have h := dropRuns_app (P ++ M) Q' re (e - (sumLen P + sumLen M)) (by omega)
      simp only [sumLen_append, List.append_assoc] at h
      have : sumLen P + sumLen M + (e - (sumLen P + sumLen M)) = e := by omega
      rw [this] at h; exact h
  obtain ⟨R, hdrop, hRsum, hQ⟩ := hback
  rw [hdrop]
  have hQlt : sumLen Q < 2 ^ w := by omega
  -- the runs before `start`
  have hfrontcase : (p = 0 ∧ start = sumLen P ∧ takeRuns start (P ++ (M ++ Q)) = P) ∨
      (p ≠ 0 ∧ ∃ rb B', M ++ Q = rb :: B' ∧ p < rb.length ∧ start = sumLen P + p ∧
        takeRuns start (P ++ (M ++ Q)) = P ++ [⟨rb.value, p⟩]) := by
    rcases hc1 with ⟨hnil, rfl⟩ | ⟨rb, B', hB, hlt1, rfl⟩
    · have hs : start = sumLen P := by
        have := congrArg sumLen hnil
        simp at this; omega
      refine Or.inl ⟨rfl, hs, ?_⟩
      rw [hnil, hs, List.append_nil, takeRuns_all _ hnzP]
    · by_cases hp : start - sumLen P = 0
      · have hs : start = sumLen P := by omega
        refine Or.inl ⟨hp, hs, ?_⟩
        have h := takeRuns_app P B' rb 0 hnzP (by omega)
        rw [hB, hs]
        simpa using h
      · refine Or.inr ⟨hp, rb, B', hB, by omega, by omega, ?_⟩
        have h := takeRuns_app P B' rb (start - sumLen P) hnzP (by omega)
        rw [if_neg hp] at h
        have hs : sumLen P + (start - sumLen P) = start := by omega
        rw [hs] at h
        rw [hB]; exact h
  by_cases hnew : new_runs = []
  · subst hnew
    simp only [List.isEmpty_nil, if_true, glue_nil_right, sumLen_nil, Nat.add_zero]
    rcases hfrontcase with ⟨rfl, hs, htake⟩ | ⟨hp, rb, B', hB, hprb, hs, htake⟩
    · rw [htake]
      exact empty_p0 w P M Q R total start e _ _ q hnzP hs rfl rfl hQ hse he htot ht
    · rw [htake]
      cases M with
      | nil =>
        simp only [List.nil_append] at hB
        subst hB
        have hq' : e = sumLen P + q ∧ p ≤ q ∧ q < rb.length := by
          rcases hc2 with ⟨h0, _⟩ | ⟨re', Q'', hre', hlt2, hq'⟩
          · simp at h0
          · simp only [List.cons.injEq] at hre'
            obtain ⟨rfl, rfl⟩ := hre'
            simp only [sumLen_nil, Nat.add_zero] at hlt2 hq' hle2
            omega
        have hR : R = ⟨rb.value, rb.length - q⟩ :: B' := by
          rcases hQ with ⟨h0, _⟩ | ⟨re, Q', hre, _, _, hR⟩
          · simp at h0
          · simp only [List.cons.injEq] at hre
            obtain ⟨rfl, rfl⟩ := hre
            exact hR
        subst hR
        simp only [List.nil_append, List.length_nil, Nat.add_zero]
        exact empty_pos_same w P B' rb total start e _ _ p q hs
          hq'.1 hp hq'.2.1 hq'.2.2 rfl rfl (by simpa using htot) ht
      | cons m M' =>
        simp only [List.cons_append, List.cons.injEq] at hB
        obtain ⟨rfl, rfl⟩ := hB
        simp only [List.cons_append, List.length_cons]
        exact empty_pos_distinct w P M' Q R m total start e _ _ p q hs hp hprb rfl
          (by omega) hQ hse he (by simpa using htot) ht
  · have hisEmpty : new_runs.isEmpty = false := by
      cases new_runs with
      | nil => exact absurd rfl hnew
      | cons x xs => rfl
    simp only [hisEmpty, Bool.false_eq_true, if_false]
    obtain ⟨front, hfront⟩ : ∃ f, new_runs.head? = some f := by
      cases new_runs with
      | nil => exact absurd rfl hnew
      | cons x xs => exact ⟨x, rfl⟩
    obtain ⟨back, hbk⟩ : ∃ f, new_runs.getLast? = some f :=
      ⟨_, List.getLast?_eq_getLast _ hnew⟩
    rcases hfrontcase with ⟨rfl, hs, htake⟩ | ⟨hp, rb, B', hB, hprb, hs, htake⟩
    · rw [htake]
      obtain ⟨Me, B, e', q', eal, hbd⟩ := backData_of w (P ++ (M ++ Q)) (P ++ M) Q R total e
        (P.length + M.length) q back (by simp) (by simp) hQ hQlt
      exact nonempty_p0 w P M Q R Me B new_runs front back total start e _ _ q e' q' eal
        hfront hbk hnzP hs rfl rfl hbd hse he ht hRsum hfit
    · rw [htake]
      cases M with
      | nil =>
        simp only [List.nil_append] at hB
        subst hB
        have hq' : e = sumLen P + q ∧ p ≤ q ∧ q < rb.length := by
          rcases hc2 with ⟨h0, _⟩ | ⟨re', Q'', hre', hlt2, hq'⟩
          · simp at h0
          · simp only [List.cons.injEq] at hre'
            obtain ⟨rfl, rfl⟩ := hre'
            simp only [sumLen_nil, Nat.add_zero] at hlt2 hq' hle2
            omega
        have hR : R = ⟨rb.value, rb.length - q⟩ :: B' := by
          rcases hQ with ⟨h0, _⟩ | ⟨re, Q', hre, _, _, hR⟩
          · simp at h0
          · simp only [List.cons.injEq] at hre
            obtain ⟨rfl, rfl⟩ := hre
            exact hR
        subst hR
        simp only [List.nil_append, List.length_nil, Nat.add_zero]
        exact nonempty_pos_same w P B' new_runs rb front back total start e _ _ p q
          hfront hbk hs hq'.1 hp hq'.2.1 hq'.2.2 rfl rfl
          (by simpa using htot) ht hfit
      | cons m M' =>
        simp only [List.cons_append, List.cons.injEq] at hB
        obtain ⟨rfl, rfl⟩ := hB
        obtain ⟨Me, B, e', q', eal, hbd⟩ := backData_of w (P ++ m :: (M' ++ Q))
          (P ++ m :: M') Q R total e (P.length + M'.length + 1) q back (by simp)
          (by simp; omega) hQ hQlt
        simp only [List.cons_append, List.length_cons]
        exact nonempty_pos_distinct w P M' Q R Me B new_runs m front back total start e _ _ p q
          e' q' eal hfront hbk hs hp rfl (by omega) hbd hse he ht hRsum hfit

end top2
end til

namespace til
section seq
variable {T : Type}

theorem expand_takeRuns (n : Nat) (runs : List (rle_pair T)) :
    expand (takeRuns n runs) = (expand runs).take n := by
  induction runs generalizing n with
  | nil => simp [takeRuns]
  | cons r rs ih =>
    unfold takeRuns
    split_ifs with h0 h1
    · simp [h0]
    · simp only [expand_cons, expand_nil, List.append_nil]
      rw [List.take_append_of_le_length (by simp; omega), List.take_replicate]
      congr 1; omega
    · simp only [expand_cons, ih]
      rw [List.take_append_eq_append_take, List.take_replicate, List.length_replicate,
        Nat.min_eq_right (by omega)]

theorem expand_dropRuns (n : Nat) (runs : List (rle_pair T)) :
    expand (dropRuns n runs) = (expand runs).drop n := by
  induction runs generalizing n with
  | nil => simp [dropRuns]
  | cons r rs ih =>
    unfold dropRuns
    split_ifs with h1
    · simp only [expand_cons]
      rw [List.drop_append_of_le_length (by simp; omega), List.drop_replicate]
    · simp only [expand_cons, ih]
      have hz : r.length - n = 0 := by omega
      rw [List.drop_append_eq_append_drop, List.drop_replicate, List.length_replicate, hz]
      simp

/-- What `at` computes on a run store whose run lengths sum up to a value of
the size type: the element of the logical sequence at `position`, or
`out_of_range` beyond the end. -/
theorem at_eq (w : Nat) (c : basic_rle T) (position : Nat) (hlt : sumLen c._runs < 2 ^ w) :
    c.at w position
      = match (expand c._runs)[position]? with
        | some v => .ok v
        | none => .error .out_of_range := by
  obtain ⟨runs, total⟩ := c
  simp only at hlt ⊢
  obtain ⟨pre, post, p, hsplit, hscan, hle, hcase⟩ :=
    scanLoop_spec w position runs 0 0 (by simpa using hlt) (Nat.zero_le _)
  subst hsplit
  simp only [basic_rle.at, rle_scanner.scan, List.drop_zero, hscan, Nat.zero_add]
  rcases hcase with ⟨rfl, _⟩ | ⟨r, post', rfl, hlt2, _⟩
  · simp only [List.append_nil, if_true]
    rw [List.getElem?_eq_none (by simpa using hle)]
  · rw [if_neg (by simp)]
    rw [getRun_app _ _ _ _ rfl]
    simp only [Nat.zero_add] at hle hlt2
    have : (expand (pre ++ r :: post'))[position]? = some r.value := by
      simp only [expand_append, expand_cons]
      rw [List.getElem?_append_right (by simpa using hle)]
      rw [List.getElem?_append_left (by simp; omega)]
      simp only [length_expand]
      rw [List.getElem?_replicate]
      simp; omega
    rw [this]
    rfl

end seq
end til

namespace til
section canon
variable {T : Type} [DecidableEq T]

omit [DecidableEq T] in
theorem noAdjacentEqual_iff_chain (runs : List (rle_pair T)) :
    NoAdjacentEqual runs ↔ List.Chain' (fun a b : rle_pair T => a.value ≠ b.value) runs := by
  induction runs with
  | nil => simp [NoAdjacentEqual]
  | cons a rest ih =>
    cases rest with
    | nil => simp [NoAdjacentEqual]
    | cons b rest => simp only [NoAdjacentEqual, List.chain'_cons, ih]

omit [DecidableEq T] in
theorem noAdjacentEqual_iff (runs : List (rle_pair T)) :
    NoAdjacentEqual runs ↔ List.Chain' (fun a b : T => a ≠ b) (vals runs) := by
  rw [noAdjacentEqual_iff_chain]
  unfold vals
  rw [List.chain'_map]

omit [DecidableEq T] in
theorem vals_takeRuns_initial (n : Nat) (runs : List (rle_pair T)) :
    vals (takeRuns n runs) <+: vals runs := by
  induction runs generalizing n with
  | nil => simp [takeRuns, vals]
  | cons r rs ih =>
    unfold takeRuns
    split_ifs with h0 h1
    · simp [vals]
    · simp [vals, List.prefix_cons_inj]
    · simpa [vals, List.prefix_cons_inj] using ih (n - r.length)

omit [DecidableEq T] in
theorem vals_dropRuns_final (n : Nat) (runs : List (rle_pair T)) :
    vals (dropRuns n runs) <:+ vals runs := by
  induction runs generalizing n with
  | nil => simp [dropRuns, vals]
  | cons r rs ih =>
    unfold dropRuns
    split_ifs with h1
    · simp [vals]
    · exact (ih (n - r.length)).trans (by simp [vals])

omit [DecidableEq T] in
theorem noAdjacentEqual_takeRuns {runs : List (rle_pair T)} (h : NoAdjacentEqual runs)
    (n : Nat) : NoAdjacentEqual (takeRuns n runs) := by
  rw [noAdjacentEqual_iff] at h ⊢
  exact h.prefix (vals_takeRuns_initial n runs)

omit [DecidableEq T] in
theorem noAdjacentEqual_dropRuns {runs : List (rle_pair T)} (h : NoAdjacentEqual runs)
    (n : Nat) : NoAdjacentEqual (dropRuns n runs) := by
  rw [noAdjacentEqual_iff] at h ⊢
  exact h.suffix (vals_dropRuns_final n runs)

omit [DecidableEq T] in
theorem noZeroRun_takeRuns {runs : List (rle_pair T)} (h : NoZeroRun runs) (n : Nat) :
    NoZeroRun (takeRuns n runs) := by
  induction runs generalizing n with
  | nil => simp [takeRuns, NoZeroRun]
  | cons r rs ih =>
    obtain ⟨hr, hrs⟩ := h.cons
    unfold takeRuns
    split_ifs with h0 h1
    · simp [NoZeroRun]
    · intro x hx
      simp only [List.mem_singleton] at hx
      subst hx; simp only; omega
    · intro x hx
      rcases List.mem_cons.mp hx with rfl | hx'
      · exact hr
      · exact ih hrs _ x hx'

omit [DecidableEq T] in
theorem noZeroRun_dropRuns {runs : List (rle_pair T)} (h : NoZeroRun runs) (n : Nat) :
    NoZeroRun (dropRuns n runs) := by
  induction runs generalizing n with
  | nil => simp [dropRuns, NoZeroRun]
  | cons r rs ih =>
    obtain ⟨hr, hrs⟩ := h.cons
    unfold dropRuns
    split_ifs with h1
    · intro x hx
      rcases List.mem_cons.mp hx with rfl | hx'
      · simp only; omega
      · exact hrs x hx'
    · exact ih hrs _

omit [DecidableEq T] in
theorem exists_concat_of_getLast? {a : List (rle_pair T)} {x : rle_pair T}
    (ha : a.getLast? = some x) : ∃ Y, a = Y ++ [x] := by
  have hne : a ≠ [] := by intro h0; subst h0; simp at ha
  refine ⟨a.dropLast, ?_⟩
  have := List.dropLast_append_getLast hne
  rw [List.getLast?_eq_getLast _ hne] at ha
  simp only [Option.some.injEq] at ha
  rw [ha] at this
  exact this.symm

theorem noZeroRun_glue {a b : List (rle_pair T)} (ha : NoZeroRun a) (hb : NoZeroRun b) :
    NoZeroRun (glue a b) := by
  have happ : NoZeroRun (a ++ b) := by
    intro x hx
    rcases List.mem_append.mp hx with h | h
    · exact ha x h
    · exact hb x h
  cases b with
  | nil => simpa using ha
  | cons y B =>
    cases hl : a.getLast? with
    | none =>
      have : a = [] := by simpa using hl
      subst this; simpa using hb
    | some x =>
      obtain ⟨Y, rfl⟩ := exists_concat_of_getLast? hl
      rw [glue_concat_cons]
      split_ifs with hv
      · intro z hz
        rcases List.mem_append.mp hz with h | h
        · exact ha z (by simp [h])
        · rcases List.mem_cons.mp h with rfl | h'
          · have := hb y (by simp)
            simp only; omega
          · exact hb z (by simp [h'])
      · simpa using happ

theorem noAdjacentEqual_glue {a b : List (rle_pair T)} (ha : NoAdjacentEqual a)
    (hb : NoAdjacentEqual b) : NoAdjacentEqual (glue a b) := by
  cases b with
  | nil => simpa using ha
  | cons y B =>
    cases hl : a.getLast? with
    | none =>
      have : a = [] := by simpa using hl
      subst this; simpa using hb
    | some x =>
      obtain ⟨Y, rfl⟩ := exists_concat_of_getLast? hl
      rw [glue_concat_cons]
      rw [noAdjacentEqual_iff] at ha hb ⊢
      split_ifs with hv
      · simp only [vals, List.map_append, List.map_cons, List.map_nil] at ha hb ⊢
        rw [← hv]
        rw [List.chain'_append] at ha ⊢
        refine ⟨ha.1, ?_, ?_⟩
        · rw [hv]; exact hb
        · intro u hu v hv'
          simp only [List.head?_cons, Option.mem_def, Option.some.injEq] at hv'
          subst hv'
          exact ha.2.2 u hu x.value (by simp)
      · simp only [vals, List.map_append, List.map_cons, List.map_nil] at ha hb ⊢
        have : List.map (fun r => r.value) Y ++ x.value :: y.value :: List.map (fun r => r.value) B
            = (List.map (fun r => r.value) Y ++ [x.value])
              ++ y.value :: List.map (fun r => r.value) B := by simp
        rw [this]
        refine List.Chain'.append ha hb ?_
        intro u hu v hv'
        simp only [List.getLast?_append, List.getLast?_singleton, Option.or,
          Option.mem_def, Option.some.injEq, List.head?_cons] at hu hv'
        subst hu hv'
        exact hv

end canon
end til

namespace til
section claims1
variable {T : Type} [DecidableEq T]

omit [DecidableEq T] in
theorem check_indices_ok (c : basic_rle T) (start end_ : Nat)
    (h : start ≤ min end_ c._total_length) :
    c._check_indices start end_ = .ok (min end_ c._total_length) := by
  unfold basic_rle._check_indices
  have hmin : (if end_ > c._total_length then c._total_length else end_)
      = min end_ c._total_length := by
    split_ifs <;> omega
  simp only [hmin]
  rw [if_neg (by omega)]

omit [DecidableEq T] in
theorem check_indices_err (c : basic_rle T) (start end_ : Nat)
    (h : min end_ c._total_length < start) :
    c._check_indices start end_ = .error .out_of_range := by
  unfold basic_rle._check_indices
  have hmin : (if end_ > c._total_length then c._total_length else end_)
      = min end_ c._total_length := by
    split_ifs <;> omega
  simp only [hmin]
  rw [if_pos (by omega)]

/-- Run-level characterisation of the public `replace` on a range that passes
the index check. -/
theorem replace_eq [Inhabited T] (w : Nat) (c : basic_rle T) (hnz : NoZeroRun c._runs)
    (hsz : SizeConsistent w c) (start end_ : Nat) (new_runs : List (rle_pair T))
    (hstart : start ≤ min end_ c.size)
    (hfit : c.size - (min end_ c.size - start) + sumLen new_runs < 2 ^ w) :
    c.replace w start end_ new_runs
      = (.ok (), ⟨glue (glue (takeRuns start c._runs) new_runs)
            (dropRuns (min end_ c.size) c._runs),
          c.size - (min end_ c.size - start) + sumLen new_runs⟩) := by
  unfold basic_rle.size at *
  unfold basic_rle.replace
  rw [check_indices_ok c start end_ hstart]
  simp only []
  rw [_replace_ok w c hnz hsz start _ hstart (Nat.min_le_right _ _) new_runs hfit]

theorem sumLen_replace_runs (runs new_runs : List (rle_pair T)) (start e : Nat)
    (hse : start ≤ e) (he : e ≤ sumLen runs) :
    sumLen (glue (glue (takeRuns start runs) new_runs) (dropRuns e runs))
      = sumLen runs - (e - start) + sumLen new_runs := by
  rw [sumLen_glue, sumLen_glue, sumLen_takeRuns _ _ (by omega), sumLen_dropRuns]
  omega

end claims1
end til

namespace til
section claimsA
variable {T : Type} [DecidableEq T]

/-- C1 (amended): for every canonical container `c`, every `start` and `end_`
with `start ≤ min end_ c.size` and every list `new_runs`, provided the resulting
length `c.size - (min end_ c.size - start) + sumLen new_runs` is representable
in the `w`-bit size type, `c.replace start end_ new_runs` returns and the logical
sequence of `c` afterwards is the first `start` elements of the old logical
sequence, followed by the logical sequence of `new_runs`, followed by the old
elements from index `min end_ c.size` on. -/
theorem replace_logical_sequence [Inhabited T] (w : Nat) (c : basic_rle T)
    (hc : Canonical w c) (start end_ : Nat) (new_runs : List (rle_pair T))
    (hstart : start ≤ min end_ c.size)
    (hfit : c.size - (min end_ c.size - start) + sumLen new_runs < 2 ^ w) :
    (c.replace w start end_ new_runs).1 = .ok () ∧
    expand (c.replace w start end_ new_runs).2._runs
      = (expand c._runs).take start ++ expand new_runs
        ++ (expand c._runs).drop (min end_ c.size) := by
  rw [replace_eq w c hc.1 hc.2.2 start end_ new_runs hstart hfit]
  refine ⟨rfl, ?_⟩
  simp only [expand_glue, expand_takeRuns, expand_dropRuns]

theorem replace_logical_sequence_witness :
    Canonical 8 (⟨[⟨'A', 3⟩, ⟨'B', 2⟩, ⟨'A', 3⟩], 8⟩ : basic_rle Char) ∧
    ((⟨[⟨'A', 3⟩, ⟨'B', 2⟩, ⟨'A', 3⟩], 8⟩ : basic_rle Char).replace 8 2 6 [⟨'C', 1⟩]).1 = .ok () ∧
    expand ((⟨[⟨'A', 3⟩, ⟨'B', 2⟩, ⟨'A', 3⟩], 8⟩ : basic_rle Char).replace 8 2 6 [⟨'C', 1⟩]).2._runs
      = (expand [(⟨'A', 3⟩ : rle_pair Char), ⟨'B', 2⟩, ⟨'A', 3⟩]).take 2 ++ expand [⟨'C', 1⟩]
        ++ (expand [(⟨'A', 3⟩ : rle_pair Char), ⟨'B', 2⟩, ⟨'A', 3⟩]).drop
          (min 6 (⟨[⟨'A', 3⟩, ⟨'B', 2⟩, ⟨'A', 3⟩], 8⟩ : basic_rle Char).size) :=
  ⟨by decide,
    replace_logical_sequence 8 ⟨[⟨'A', 3⟩, ⟨'B', 2⟩, ⟨'A', 3⟩], 8⟩ (by decide) 2 6 [⟨'C', 1⟩]
      (by decide) (by decide)⟩

/-- C1 as stated fails when the length arithmetic wraps: with an 8-bit size
type, appending the run `('A', 56)` to the canonical container `[('A', 200)]`
leaves the run store `[('A', 0)]`, whose logical sequence is empty. -/
theorem replace_logical_sequence_overflow :
    Canonical 8 (⟨[⟨'A', 200⟩], 200⟩ : basic_rle Char) ∧
    200 ≤ min 200 (⟨[⟨'A', 200⟩], 200⟩ : basic_rle Char).size ∧
    ((⟨[⟨'A', 200⟩], 200⟩ : basic_rle Char).replace 8 200 200 [⟨'A', 56⟩]).1 = .ok () ∧
    expand ((⟨[⟨'A', 200⟩], 200⟩ : basic_rle Char).replace 8 200 200 [⟨'A', 56⟩]).2._runs
      ≠ (expand [(⟨'A', 200⟩ : rle_pair Char)]).take 200 ++ expand [⟨'A', 56⟩]
        ++ (expand [(⟨'A', 200⟩ : rle_pair Char)]).drop
          (min 200 (⟨[⟨'A', 200⟩], 200⟩ : basic_rle Char).size) := by
  refine ⟨by decide, by decide, by rfl, ?_⟩
  have h : ((⟨[⟨'A', 200⟩], 200⟩ : basic_rle Char).replace 8 200 200 [⟨'A', 56⟩]).2._runs
      = [⟨'A', 0⟩] := by decide
  rw [h]
  intro heq
  have := congrArg List.length heq
  simp only [basic_rle.size, expand_cons, expand_nil, List.length_append, List.length_take,
    List.length_drop, List.length_replicate, List.length_nil, List.append_nil] at this
  omega

end claimsA
end til

namespace til
section claimsB
variable {T : Type} [DecidableEq T]

/-- C2 (amended): for every canonical container `c`, every
`start ≤ min end_ c.size` and every `new_runs` that is empty or canonical,
provided the resulting length is representable in the `w`-bit size type,
`c.replace start end_ new_runs` returns and leaves `c` canonical: no
zero-length run, no two adjacent runs with equal value (and `size()` the sum of
the run lengths). -/
theorem replace_canonical [Inhabited T] (w : Nat) (c : basic_rle T)
    (hc : Canonical w c) (start end_ : Nat) (new_runs : List (rle_pair T))
    (hnew : new_runs = [] ∨ (NoZeroRun new_runs ∧ NoAdjacentEqual new_runs))
    (hstart : start ≤ min end_ c.size)
    (hfit : c.size - (min end_ c.size - start) + sumLen new_runs < 2 ^ w) :
    (c.replace w start end_ new_runs).1 = .ok () ∧
    Canonical w (c.replace w start end_ new_runs).2 := by
  have hnew' : NoZeroRun new_runs ∧ NoAdjacentEqual new_runs := by
    rcases hnew with rfl | h
    · exact ⟨fun r hr => by simp at hr, trivial⟩
    · exact h
  rw [replace_eq w c hc.1 hc.2.2 start end_ new_runs hstart hfit]
  refine ⟨rfl, ?_, ?_, ?_, ?_⟩
  · exact noZeroRun_glue (noZeroRun_glue (noZeroRun_takeRuns hc.1 _) hnew'.1)
      (noZeroRun_dropRuns hc.1 _)
  · exact noAdjacentEqual_glue (noAdjacentEqual_glue (noAdjacentEqual_takeRuns hc.2.1 _) hnew'.2)
      (noAdjacentEqual_dropRuns hc.2.1 _)
  · show c.size - (min end_ c.size - start) + sumLen new_runs = _
    have h2 := hc.2.2.1
    unfold basic_rle.size at *
    rw [sumLen_replace_runs _ _ _ _ hstart (by rw [← h2]; exact Nat.min_le_right _ _), h2]
  · show sumLen (glue _ _) < 2 ^ w
    have h2 := hc.2.2.1
    unfold basic_rle.size at *
    rw [sumLen_replace_runs _ _ _ _ hstart (by rw [← h2]; exact Nat.min_le_right _ _), ← h2]
    exact hfit

theorem replace_canonical_witness :
    Canonical 8 (⟨[⟨'A', 3⟩, ⟨'B', 2⟩, ⟨'A', 3⟩], 8⟩ : basic_rle Char) ∧
    ((⟨[⟨'A', 3⟩, ⟨'B', 2⟩, ⟨'A', 3⟩], 8⟩ : basic_rle Char).replace 8 3 5
      [⟨'A', 1⟩, ⟨'C', 2⟩, ⟨'A', 1⟩]).1 = .ok () ∧
    Canonical 8 ((⟨[⟨'A', 3⟩, ⟨'B', 2⟩, ⟨'A', 3⟩], 8⟩ : basic_rle Char).replace 8 3 5
      [⟨'A', 1⟩, ⟨'C', 2⟩, ⟨'A', 1⟩]).2 :=
  ⟨by decide,
    replace_canonical 8 ⟨[⟨'A', 3⟩, ⟨'B', 2⟩, ⟨'A', 3⟩], 8⟩ (by decide) 3 5
      [⟨'A', 1⟩, ⟨'C', 2⟩, ⟨'A', 1⟩] (Or.inr (by decide)) (by decide) (by decide)⟩

/-- C2 as stated fails when the length arithmetic wraps: with an 8-bit size
type, appending the canonical run list `[('A', 56)]` to the canonical container
`[('A', 200)]` leaves the zero-length run `('A', 0)`. -/
theorem replace_canonical_overflow :
    Canonical 8 (⟨[⟨'A', 200⟩], 200⟩ : basic_rle Char) ∧
    (NoZeroRun [(⟨'A', 56⟩ : rle_pair Char)] ∧ NoAdjacentEqual [(⟨'A', 56⟩ : rle_pair Char)]) ∧
    200 ≤ min 200 (⟨[⟨'A', 200⟩], 200⟩ : basic_rle Char).size ∧
    ((⟨[⟨'A', 200⟩], 200⟩ : basic_rle Char).replace 8 200 200 [⟨'A', 56⟩]).2._runs
      = [⟨'A', 0⟩] ∧
    ¬ NoZeroRun
      ((⟨[⟨'A', 200⟩], 200⟩ : basic_rle Char).replace 8 200 200 [⟨'A', 56⟩]).2._runs := by
  decide

/-- C3 (amended): for every container `c` without zero-length run whose
`size()` is the sum of its run lengths, every `start ≤ min end_ c.size` and
every `new_runs`, provided the resulting length is representable in the `w`-bit
size type, after `c.replace start end_ new_runs` the size is the sum of the
lengths of the resulting runs and equals
`old size - (min end_ (old size) - start) + sumLen new_runs`. -/
theorem replace_size [Inhabited T] (w : Nat) (c : basic_rle T)
    (hnz : NoZeroRun c._runs) (hsz : SizeConsistent w c) (start end_ : Nat)
    (new_runs : List (rle_pair T)) (hstart : start ≤ min end_ c.size)
    (hfit : c.size - (min end_ c.size - start) + sumLen new_runs < 2 ^ w) :
    (c.replace w start end_ new_runs).1 = .ok () ∧
    (c.replace w start end_ new_runs).2.size = sumLen (c.replace w start end_ new_runs).2._runs ∧
    (c.replace w start end_ new_runs).2.size
      = c.size - (min end_ c.size - start) + sumLen new_runs := by
  rw [replace_eq w c hnz hsz start end_ new_runs hstart hfit]
  refine ⟨rfl, ?_, rfl⟩
  have h2 := hsz.1
  unfold basic_rle.size at *
  show c._total_length - (min end_ c._total_length - start) + sumLen new_runs = sumLen (glue _ _)
  rw [sumLen_replace_runs _ _ _ _ hstart (by rw [← h2]; exact Nat.min_le_right _ _), h2]

theorem replace_size_witness :
    NoZeroRun [(⟨'A', 3⟩ : rle_pair Char), ⟨'A', 2⟩, ⟨'B', 3⟩] ∧
    SizeConsistent 8 (⟨[⟨'A', 3⟩, ⟨'A', 2⟩, ⟨'B', 3⟩], 8⟩ : basic_rle Char) ∧
    ((⟨[⟨'A', 3⟩, ⟨'A', 2⟩, ⟨'B', 3⟩], 8⟩ : basic_rle Char).replace 8 4 20
      [⟨'C', 7⟩, ⟨'C', 0⟩]).2.size = 8 - (min 20 8 - 4) + 7 :=
  ⟨by decide, by decide,
    (replace_size 8 ⟨[⟨'A', 3⟩, ⟨'A', 2⟩, ⟨'B', 3⟩], 8⟩ (by decide) (by decide) 4 20
      [⟨'C', 7⟩, ⟨'C', 0⟩] (by decide) (by decide)).2.2⟩

/-- C3 as stated fails when the length arithmetic wraps: with an 8-bit size
type, appending `('A', 56)` to `[('A', 200)]` leaves `size()` equal to 0, not
to `200 - 0 + 56`. -/
theorem replace_size_overflow :
    NoZeroRun [(⟨'A', 200⟩ : rle_pair Char)] ∧
    SizeConsistent 8 (⟨[⟨'A', 200⟩], 200⟩ : basic_rle Char) ∧
    200 ≤ min 200 (⟨[⟨'A', 200⟩], 200⟩ : basic_rle Char).size ∧
    ((⟨[⟨'A', 200⟩], 200⟩ : basic_rle Char).replace 8 200 200 [⟨'A', 56⟩]).2.size = 0 ∧
    ((⟨[⟨'A', 200⟩], 200⟩ : basic_rle Char).replace 8 200 200 [⟨'A', 56⟩]).2.size
      ≠ (⟨[⟨'A', 200⟩], 200⟩ : basic_rle Char).size
        - (min 200 (⟨[⟨'A', 200⟩], 200⟩ : basic_rle Char).size - 200)
        + sumLen [(⟨'A', 56⟩ : rle_pair Char)] := by
  decide

end claimsB
end til

namespace til
section onlybad
variable {T : Type} [DecidableEq T]

omit [DecidableEq T] in
theorem onlyBad_ok {α : Type} (a : α) : OnlyBad (.ok a : Except Err α) := by
  intro e h; cases h

theorem onlyBad_pure {α : Type} (a : α) : OnlyBad (pure a : Except Err α) := by
  intro e h; cases h

theorem onlyBad_bad {α : Type} : OnlyBad (.error .bad_access : Except Err α) := by
  intro e h; cases h; rfl

theorem onlyBad_throw {α : Type} : OnlyBad (throw Err.bad_access : Except Err α) := by
  intro e h; cases h; rfl

theorem onlyBad_bind {α β : Type} (x : Except Err α) (f : α → Except Err β)
    (hx : OnlyBad x) (hf : ∀ a, OnlyBad (f a)) : OnlyBad (x >>= f) := by
  intro e h
  cases x with
  | error e' =>
    simp only [bind, Except.bind] at h
    cases h
    exact hx _ rfl
  | ok a => exact hf a e h

theorem onlyBad_ite {α : Type} (p : Prop) [Decidable p] (x y : Except Err α)
    (hx : OnlyBad x) (hy : OnlyBad y) : OnlyBad (if p then x else y) := by
  split_ifs
  · exact hx
  · exact hy

omit [DecidableEq T] in
theorem onlyBad_getRun (runs : List (rle_pair T)) (i : Nat) : OnlyBad (getRun runs i) := by
  unfold getRun
  split
  · exact onlyBad_ok _
  · exact onlyBad_bad

omit [DecidableEq T] in
theorem onlyBad_setLength (runs : List (rle_pair T)) (i : Nat) (f : Nat → Nat) :
    OnlyBad (setLength runs i f) := by
  unfold setLength
  split
  · exact onlyBad_ok _
  · exact onlyBad_bad

omit [DecidableEq T] in
theorem onlyBad_eraseRange (runs : List (rle_pair T)) (i j : Nat) :
    OnlyBad (eraseRange runs i j) := by
  unfold eraseRange
  exact onlyBad_ite _ _ _ (onlyBad_ok _) onlyBad_bad

omit [DecidableEq T] in
theorem onlyBad_copyInto (src runs : List (rle_pair T)) (i : Nat) :
    OnlyBad (copyInto src runs i) := by
  unfold copyInto
  exact onlyBad_ite _ _ _ (onlyBad_ok _) onlyBad_bad

omit [DecidableEq T] in
theorem onlyBad_insertAt (runs xs : List (rle_pair T)) (i : Nat) :
    OnlyBad (insertAt runs i xs) := by
  unfold insertAt
  exact onlyBad_ite _ _ _ (onlyBad_ok _) onlyBad_bad

omit [DecidableEq T] in
theorem onlyBad_previousIt (b p : Nat) : OnlyBad (previousIt b p) := by
  unfold previousIt
  exact onlyBad_ite _ _ _ (onlyBad_ok _) (onlyBad_ite _ _ _ onlyBad_bad (onlyBad_ok _))

omit [DecidableEq T] in
theorem onlyBad_split (w : Nat) (runs : List (rle_pair T)) (b p e q : Nat) :
    OnlyBad (basic_rle._replace_split w runs b p e q) := by
  unfold basic_rle._replace_split
  refine onlyBad_bind _ _ (onlyBad_ite _ _ _ ?_ (onlyBad_pure _)) ?_
  · exact onlyBad_bind _ _ (onlyBad_setLength _ _ _) (fun _ => onlyBad_pure _)
  · rintro ⟨r, b'⟩
    refine onlyBad_bind _ _ (onlyBad_ite _ _ _ (onlyBad_setLength _ _ _) (onlyBad_pure _)) ?_
    intro _; exact onlyBad_pure _

theorem onlyBad_empty_join (w : Nat) (c : basic_rle T) (s e b p en q : Nat) :
    OnlyBad (c._replace_empty_join w s e b p en q) := by
  unfold basic_rle._replace_empty_join
  refine onlyBad_ite _ _ _ ?_ (onlyBad_pure _)
  refine onlyBad_bind _ _ (onlyBad_previousIt _ _) (fun _ => ?_)
  refine onlyBad_bind _ _ (onlyBad_getRun _ _) (fun _ => ?_)
  refine onlyBad_bind _ _ (onlyBad_getRun _ _) (fun _ => ?_)
  refine onlyBad_ite _ _ _ ?_ (onlyBad_pure _)
  exact onlyBad_bind _ _ (onlyBad_setLength _ _ _) (fun _ => onlyBad_pure _)

theorem onlyBad_empty (w : Nat) (c : basic_rle T) (s e b p en q : Nat) :
    OnlyBad (c._replace_empty w s e b p en q) := by
  unfold basic_rle._replace_empty
  refine onlyBad_bind _ _ (onlyBad_empty_join _ _ _ _ _ _ _ _) ?_
  rintro ⟨r, b', p', q'⟩
  refine onlyBad_bind _ _ (onlyBad_split _ _ _ _ _ _) ?_
  rintro ⟨r', b''⟩
  exact onlyBad_bind _ _ (onlyBad_eraseRange _ _ _) (fun _ => onlyBad_pure _)

theorem onlyBad_join_front (runs : List (rle_pair T)) (s : Nat) (front : rle_pair T)
    (b p : Nat) : OnlyBad (basic_rle._replace_join_front runs s front b p) := by
  unfold basic_rle._replace_join_front
  refine onlyBad_ite _ _ _ ?_ (onlyBad_pure _)
  refine onlyBad_bind _ _ (onlyBad_previousIt _ _) (fun _ => ?_)
  refine onlyBad_bind _ _ (onlyBad_getRun _ _) (fun _ => ?_)
  exact onlyBad_ite _ _ _ (onlyBad_pure _) (onlyBad_pure _)

theorem onlyBad_join_back (w : Nat) (c : basic_rle T) (e : Nat) (back : rle_pair T)
    (en q : Nat) : OnlyBad (c._replace_join_back w e back en q) := by
  unfold basic_rle._replace_join_back
  refine onlyBad_ite _ _ _ ?_ (onlyBad_pure _)
  refine onlyBad_bind _ _ (onlyBad_getRun _ _) (fun _ => ?_)
  exact onlyBad_ite _ _ _ (onlyBad_pure _) (onlyBad_pure _)

omit [DecidableEq T] in
theorem onlyBad_trailer (w : Nat) (runs : List (rle_pair T)) (b p e q : Nat) :
    OnlyBad (basic_rle._replace_trailer w runs b p e q) := by
  unfold basic_rle._replace_trailer
  refine onlyBad_ite _ _ _ ?_ (onlyBad_pure _)
  exact onlyBad_bind _ _ (onlyBad_getRun _ _) (fun _ => onlyBad_pure _)

omit [DecidableEq T] in
theorem onlyBad_store [Inhabited T] (runs : List (rle_pair T)) (b e : Nat)
    (new_runs : List (rle_pair T)) (t : Option (rle_pair T)) :
    OnlyBad (basic_rle._replace_store runs b e new_runs t) := by
  unfold basic_rle._replace_store
  refine onlyBad_bind _ _ (onlyBad_copyInto _ _ _) ?_
  rintro ⟨r, b'⟩
  refine onlyBad_bind _ _ ?_ (fun _ => onlyBad_pure _)
  refine onlyBad_ite _ _ _ (onlyBad_eraseRange _ _ _) ?_
  cases t with
  | none => exact onlyBad_insertAt _ _ _
  | some trailer =>
    refine onlyBad_bind _ _ (onlyBad_insertAt _ _ _) (fun _ => ?_)
    refine onlyBad_bind _ _ (onlyBad_copyInto _ _ _) ?_
    rintro ⟨r2, b2⟩
    exact onlyBad_bind _ _ (onlyBad_getRun _ _) (fun _ => onlyBad_pure _)

omit [DecidableEq T] in
theorem onlyBad_extend (w : Nat) (runs : List (rle_pair T)) (bi req bal eal : Nat) :
    OnlyBad (basic_rle._replace_extend w runs bi req bal eal) := by
  unfold basic_rle._replace_extend
  refine onlyBad_bind _ _ (onlyBad_ite _ _ _ (onlyBad_setLength _ _ _) (onlyBad_pure _)) ?_
  intro _
  exact onlyBad_ite _ _ _ (onlyBad_setLength _ _ _) (onlyBad_pure _)

theorem onlyBad_nonempty [Inhabited T] (w : Nat) (c : basic_rle T) (s e : Nat)
    (new_runs : List (rle_pair T)) (b p en q : Nat) :
    OnlyBad (c._replace_nonempty w s e new_runs b p en q) := by
  unfold basic_rle._replace_nonempty
  refine onlyBad_bind _ _ ?_ (fun front => ?_)
  · split
    · exact onlyBad_pure _
    · exact onlyBad_throw
  refine onlyBad_bind _ _ ?_ (fun back => ?_)
  · split
    · exact onlyBad_pure _
    · exact onlyBad_throw
  refine onlyBad_bind _ _ (onlyBad_join_front _ _ _ _ _) ?_
  rintro ⟨b', p', bal⟩
  refine onlyBad_bind _ _ (onlyBad_join_back _ _ _ _ _ _) ?_
  rintro ⟨e', q', eal⟩
  refine onlyBad_bind _ _ (onlyBad_trailer _ _ _ _ _ _) ?_
  rintro ⟨t, q''⟩
  refine onlyBad_bind _ _ (onlyBad_split _ _ _ _ _ _) ?_
  rintro ⟨r, b''⟩
  refine onlyBad_bind _ _ (onlyBad_store _ _ _ _ _) ?_
  rintro ⟨r2, bi, req⟩
  exact onlyBad_bind _ _ (onlyBad_extend _ _ _ _ _ _) (fun _ => onlyBad_pure _)

/-- The private `_replace` never throws `out_of_range`. -/
theorem onlyBad_replace [Inhabited T] (w : Nat) (c : basic_rle T) (s e : Nat)
    (new_runs : List (rle_pair T)) : OnlyBad (c._replace w s e new_runs) := by
  unfold basic_rle._replace
  exact onlyBad_ite _ _ _ (onlyBad_empty _ _ _ _ _ _ _ _) (onlyBad_nonempty _ _ _ _ _ _ _ _ _)

end onlybad
end til

namespace til
section claimsC
variable {T : Type} [DecidableEq T]

theorem replace_fails_iff [Inhabited T] (w : Nat) (c : basic_rle T) (start end_ : Nat)
    (new_runs : List (rle_pair T)) :
    ((c.replace w start end_ new_runs).1 = .error .out_of_range ↔ start > min end_ c.size) ∧
    ((c.replace w start end_ new_runs).1 = .error .out_of_range →
      (c.replace w start end_ new_runs).2 = c) := by
  unfold basic_rle.size
  by_cases h : start ≤ min end_ c._total_length
  · have hne : (c.replace w start end_ new_runs).1 ≠ .error .out_of_range := by
      unfold basic_rle.replace
      rw [check_indices_ok c start end_ h]
      simp only []
      cases hr : c._replace w start (min end_ c._total_length) new_runs with
      | ok c' => simp
      | error e =>
        have := onlyBad_replace w c start _ new_runs e hr
        subst this
        simp
    exact ⟨⟨fun h' => absurd h' hne, fun h' => absurd h' (by omega)⟩, fun h' => absurd h' hne⟩
  · have hr : c.replace w start end_ new_runs = (.error .out_of_range, c) := by
      unfold basic_rle.replace
      rw [check_indices_err c start end_ (by omega)]
    rw [hr]
    exact ⟨⟨fun _ => by omega, fun _ => rfl⟩, fun _ => rfl⟩

theorem replace_value_fails_iff [Inhabited T] (w : Nat) (c : basic_rle T) (start end_ : Nat)
    (value : T) :
    ((c.replace_value w start end_ value).1 = .error .out_of_range
      ↔ start > min end_ c.size) ∧
    ((c.replace_value w start end_ value).1 = .error .out_of_range →
      (c.replace_value w start end_ value).2 = c) := by
  unfold basic_rle.size
  by_cases h : start ≤ min end_ c._total_length
  · have hne : (c.replace_value w start end_ value).1 ≠ .error .out_of_range := by
      unfold basic_rle.replace_value
      rw [check_indices_ok c start end_ h]
      simp only []
      cases hr : c._replace w start (min end_ c._total_length)
          [⟨value, subS w (min end_ c._total_length) start⟩] with
      | ok c' => simp
      | error e =>
        have := onlyBad_replace w c start _ _ e hr
        subst this
        simp
    exact ⟨⟨fun h' => absurd h' hne, fun h' => absurd h' (by omega)⟩, fun h' => absurd h' hne⟩
  · have hr : c.replace_value w start end_ value = (.error .out_of_range, c) := by
      unfold basic_rle.replace_value
      rw [check_indices_err c start end_ (by omega)]
    rw [hr]
    exact ⟨⟨fun _ => by omega, fun _ => rfl⟩, fun _ => rfl⟩

/-- C4: for every container `c` and every `start`, `end_`, `new_runs`,
`c.replace start end_ new_runs` fails with `out_of_range` if and only if
`start > min end_ c.size`, and when it does the container is the one before the
call; the same holds for the single-value overload `replace_value`. -/
theorem replace_out_of_range [Inhabited T] (w : Nat) (c : basic_rle T) (start end_ : Nat)
    (new_runs : List (rle_pair T)) (value : T) :
    (((c.replace w start end_ new_runs).1 = .error .out_of_range
        ↔ start > min end_ c.size) ∧
      ((c.replace w start end_ new_runs).1 = .error .out_of_range →
        (c.replace w start end_ new_runs).2._runs = c._runs ∧
        (c.replace w start end_ new_runs).2.size = c.size)) ∧
    (((c.replace_value w start end_ value).1 = .error .out_of_range
        ↔ start > min end_ c.size) ∧
      ((c.replace_value w start end_ value).1 = .error .out_of_range →
        (c.replace_value w start end_ value).2._runs = c._runs ∧
        (c.replace_value w start end_ value).2.size = c.size)) := by
  obtain ⟨h1, h2⟩ := replace_fails_iff w c start end_ new_runs
  obtain ⟨h3, h4⟩ := replace_value_fails_iff w c start end_ value
  exact ⟨⟨h1, fun h => by rw [h2 h]; exact ⟨rfl, rfl⟩⟩,
    ⟨h3, fun h => by rw [h4 h]; exact ⟨rfl, rfl⟩⟩⟩

/-- C5 fails on the code for an empty range: the single-value overload
synthesizes a run of length `end - start = 0` and writes it into the run store.
On the canonical container `[('A', 5)]`, `replace(2, 2, 'B')` leaves the run
store `[('A', 2), ('B', 0), ('A', 3)]`; on the empty container,
`replace(0, 0, 'A')` leaves the run `('A', 0)` although `size()` is 0. -/
theorem replace_value_empty_range_zero_run :
    Canonical 8 (⟨[⟨'A', 5⟩], 5⟩ : basic_rle Char) ∧
    (⟨[⟨'A', 5⟩], 5⟩ : basic_rle Char).replace_value 8 2 2 'B'
      = (.ok (), ⟨[⟨'A', 2⟩, ⟨'B', 0⟩, ⟨'A', 3⟩], 5⟩) ∧
    ¬ Canonical 8 ((⟨[⟨'A', 5⟩], 5⟩ : basic_rle Char).replace_value 8 2 2 'B').2 ∧
    Canonical 8 (⟨[], 0⟩ : basic_rle Char) ∧
    (⟨[], 0⟩ : basic_rle Char).replace_value 8 0 0 'A' = (.ok (), ⟨[⟨'A', 0⟩], 0⟩) ∧
    ¬ Canonical 8 ((⟨[], 0⟩ : basic_rle Char).replace_value 8 0 0 'A').2 := by
  refine ⟨by decide, by rfl, by decide, by decide, by rfl, by decide⟩

end claimsC
end til

namespace til
section claimsD
variable {T : Type} [DecidableEq T]

omit [DecidableEq T] in
theorem getElem?_app (A X : List (rle_pair T)) (x : rle_pair T) :
    (A ++ x :: X)[A.length]? = some x := by
  induction A with
  | nil => simp
  | cons a A ih => simpa using ih

omit [DecidableEq T] in
theorem sumLen_take_succ (runs : List (rle_pair T)) (k : Nat) (r : rle_pair T)
    (h : runs[k]? = some r) : sumLen (runs.take (k + 1)) = sumLen (runs.take k) + r.length := by
  induction runs generalizing k with
  | nil => simp at h
  | cons a rest ih =>
    cases k with
    | zero => simp at h; subst h; simp
    | succ k =>
      simp only [List.getElem?_cons_succ] at h
      simp only [List.take_succ_cons, sumLen_cons, ih k h]
      omega

omit [DecidableEq T] in
theorem sumLen_take_mono (runs : List (rle_pair T)) (k k' : Nat) (h : k ≤ k') :
    sumLen (runs.take k) ≤ sumLen (runs.take k') := by
  induction runs generalizing k k' with
  | nil => simp
  | cons a rest ih =>
    cases k with
    | zero => simp
    | succ k =>
      cases k' with
      | zero => omega
      | succ k' =>
        simp only [List.take_succ_cons, sumLen_cons]
        have := ih k k' (by omega)
        omega

omit [DecidableEq T] in
/-- C8: for every container `c` whose `size()` is the sum of its run lengths and
that has no zero-length run, and every index `i`: `at(i)` fails with
`out_of_range` if and only if `i ≥ c.size`; otherwise it returns the `i`-th
element of the logical sequence, which is the value of the unique run `k` with
`sumLen (runs before k) ≤ i < sumLen (runs before k) + runs[k].length`. -/
theorem at_spec (w : Nat) (c : basic_rle T) (hsz : SizeConsistent w c)
    (hnz : NoZeroRun c._runs) (i : Nat) :
    (c.at w i = .error .out_of_range ↔ i ≥ c.size) ∧
    (i < c.size →
      ∃ k r, c._runs[k]? = some r ∧
        sumLen (c._runs.take k) ≤ i ∧ i < sumLen (c._runs.take k) + r.length ∧
        c.at w i = .ok r.value ∧ (expand c._runs)[i]? = some r.value ∧
        ∀ k' r', c._runs[k']? = some r' → sumLen (c._runs.take k') ≤ i →
          i < sumLen (c._runs.take k') + r'.length → k' = k) := by
  obtain ⟨runs, total⟩ := c
  obtain ⟨htot, hlt⟩ := hsz
  simp only [basic_rle.size] at htot hlt hnz ⊢
  obtain ⟨pre, post, p, hsplit, hscan, hle, hcase⟩ :=
    scanLoop_spec w i runs 0 0 (by simpa using hlt) (Nat.zero_le _)
  subst hsplit
  simp only [Nat.zero_add] at hle hscan hcase
  have hat := at_eq w ⟨pre ++ post, total⟩ i hlt
  simp only at hat
  rcases hcase with ⟨rfl, _⟩ | ⟨r, post', rfl, hlt2, _⟩
  · have hge : total ≤ i := by simp at htot; omega
    have hnone : (expand (pre ++ []))[i]? = none :=
      List.getElem?_eq_none (by simp at htot ⊢; omega)
    rw [hnone] at hat
    exact ⟨⟨fun _ => hge, fun _ => hat⟩, fun h => absurd h (by omega)⟩
  · have hlt3 : i < total := by simp at htot; omega
    have hsome : (expand (pre ++ r :: post'))[i]? = some r.value := by
      simp only [expand_append, expand_cons]
      rw [List.getElem?_append_right (by simpa using hle)]
      rw [List.getElem?_append_left (by simp; omega)]
      simp only [length_expand]
      rw [List.getElem?_replicate]
      simp; omega
    rw [hsome] at hat
    refine ⟨⟨fun h => (by rw [hat] at h; cases h), fun h => absurd h (by omega)⟩, fun _ => ?_⟩
    have hk : (pre ++ r :: post')[pre.length]? = some r := getElem?_app pre post' r
    have htk : (pre ++ r :: post').take pre.length = pre := by simp
    refine ⟨pre.length, r, hk, by rw [htk]; exact hle, by rw [htk]; exact hlt2, hat, hsome, ?_⟩
    intro k' r' hk' h1 h2
    rcases Nat.lt_trichotomy k' pre.length with hlt' | heq | hgt'
    · exfalso
      have hs := sumLen_take_succ _ k' r' hk'
      have hm := sumLen_take_mono (pre ++ r :: post') (k' + 1) pre.length (by omega)
      rw [htk] at hm
      omega
    · exact heq
    · exfalso
      have hs := sumLen_take_succ _ pre.length r hk
      have hm := sumLen_take_mono (pre ++ r :: post') (pre.length + 1) k' (by omega)
      rw [htk] at hs
      omega

end claimsD
end til

namespace til
section claimsE
variable {T : Type} [DecidableEq T]

omit [DecidableEq T] in
theorem getElem?_splice_mid (X : List T) (s e i : Nat) (v : T) (hse : s ≤ e) (he : e ≤ X.length)
    (h1 : s ≤ i) (h2 : i < e) :
    (X.take s ++ List.replicate (e - s) v ++ X.drop e)[i]? = some v := by
  rw [List.getElem?_append_left (by simp; omega)]
  rw [List.getElem?_append_right (by simp; omega)]
  rw [List.getElem?_replicate]
  simp; omega

omit [DecidableEq T] in
theorem getElem?_splice_out (X : List T) (s e i : Nat) (v : T) (hse : s ≤ e) (he : e ≤ X.length)
    (h : i < s ∨ e ≤ i) :
    (X.take s ++ List.replicate (e - s) v ++ X.drop e)[i]? = X[i]? := by
  rcases h with h | h
  · rw [List.append_assoc, List.getElem?_append_left (by simp; omega)]
    rw [List.getElem?_take_of_lt h]
  · rw [List.getElem?_append_right (by simp; omega)]
    simp only [List.length_append, List.length_take, List.length_replicate, List.getElem?_drop]
    congr 1
    omega

/-- Run-level characterisation of the single-value overload on a canonical
container. -/
theorem replace_value_eq [Inhabited T] (w : Nat) (c : basic_rle T) (hnz : NoZeroRun c._runs)
    (hsz : SizeConsistent w c) (start end_ : Nat) (v : T) (hstart : start ≤ min end_ c.size) :
    c.replace_value w start end_ v
      = (.ok (), ⟨glue (glue (takeRuns start c._runs) [⟨v, min end_ c.size - start⟩])
            (dropRuns (min end_ c.size) c._runs), c.size⟩) := by
  unfold basic_rle.size at *
  have hle : min end_ c._total_length ≤ c._total_length := Nat.min_le_right _ _
  have ht : c._total_length < 2 ^ w := by rw [hsz.1]; exact hsz.2
  unfold basic_rle.replace_value
  rw [check_indices_ok c start end_ hstart]
  simp only []
  rw [subS_eq hstart (by omega)]
  rw [_replace_ok w c hnz hsz start _ hstart hle _ (by simp; omega)]
  simp only [sumLen_cons, sumLen_nil]
  congr 3
  omega

end claimsE
end til

namespace til
section claimsF
variable {T : Type} [DecidableEq T]

/-- C6: for every canonical container `c`, every value `v` and every
`start ≤ min end_ c.size`, after the single-value overload
`c.replace_value start end_ v` the size is unchanged, `at(i) = v` for every `i`
in `[start, min end_ c.size)`, and `at(i)` has its old value for every other
`i < size()`.  The two scenarios of the specification:
`[('A',3),('B',2),('A',3)]` with `replace(2, 6, 'A')` becomes `[('A',8)]`, and
`[('A',5)]` with `replace(2, 4, 'B')` becomes `[('A',2),('B',2),('A',1)]`. -/
theorem replace_value_elements [Inhabited T] (w : Nat) (c : basic_rle T) (hc : Canonical w c)
    (start end_ : Nat) (v : T) (hstart : start ≤ min end_ c.size) :
    ((c.replace_value w start end_ v).1 = .ok () ∧
      (c.replace_value w start end_ v).2.size = c.size ∧
      (∀ i, start ≤ i → i < min end_ c.size →
        (c.replace_value w start end_ v).2.at w i = .ok v) ∧
      (∀ i, i < c.size → (i < start ∨ min end_ c.size ≤ i) →
        (c.replace_value w start end_ v).2.at w i = c.at w i)) ∧
    ((⟨[⟨'A', 3⟩, ⟨'B', 2⟩, ⟨'A', 3⟩], 8⟩ : basic_rle Char).replace_value 32 2 6 'A'
        = (.ok (), ⟨[⟨'A', 8⟩], 8⟩) ∧
      (⟨[⟨'A', 5⟩], 5⟩ : basic_rle Char).replace_value 32 2 4 'B'
        = (.ok (), ⟨[⟨'A', 2⟩, ⟨'B', 2⟩, ⟨'A', 1⟩], 5⟩)) := by
  refine ⟨?_, by rfl, by rfl⟩
  obtain ⟨hnz, _, hsz⟩ := hc
  rw [replace_value_eq w c hnz hsz start end_ v hstart]
  have h2 := hsz.1
  have h3 := hsz.2
  unfold basic_rle.size at *
  have hle : min end_ c._total_length ≤ sumLen c._runs := by
    rw [← h2]; exact Nat.min_le_right _ _
  have hsum : sumLen (glue (glue (takeRuns start c._runs)
      [⟨v, min end_ c._total_length - start⟩]) (dropRuns (min end_ c._total_length) c._runs))
      < 2 ^ w := by
    rw [sumLen_replace_runs _ _ _ _ hstart hle]
    simp only [sumLen_cons, sumLen_nil]
    omega
  have hexp : expand (glue (glue (takeRuns start c._runs)
      [⟨v, min end_ c._total_length - start⟩]) (dropRuns (min end_ c._total_length) c._runs))
      = (expand c._runs).take start ++ List.replicate (min end_ c._total_length - start) v
        ++ (expand c._runs).drop (min end_ c._total_length) := by
    simp only [expand_glue, expand_takeRuns, expand_dropRuns, expand_cons, expand_nil,
      List.append_nil]
  refine ⟨rfl, rfl, ?_, ?_⟩
  · intro i hi1 hi2
    rw [at_eq w _ i hsum]
    simp only [hexp]
    rw [getElem?_splice_mid _ _ _ _ _ hstart (by simpa using hle) hi1 hi2]
  · intro i _ hi2
    rw [at_eq w _ i hsum, at_eq w c i h3]
    simp only [hexp]
    rw [getElem?_splice_out _ _ _ _ _ hstart (by simpa using hle) hi2]

theorem replace_value_elements_witness :
    Canonical 8 (⟨[⟨'A', 3⟩, ⟨'B', 2⟩, ⟨'A', 3⟩], 8⟩ : basic_rle Char) ∧
    ((⟨[⟨'A', 3⟩, ⟨'B', 2⟩, ⟨'A', 3⟩], 8⟩ : basic_rle Char).replace_value 8 2 6 'A').2.size
      = (⟨[⟨'A', 3⟩, ⟨'B', 2⟩, ⟨'A', 3⟩], 8⟩ : basic_rle Char).size :=
  ⟨by decide,
    (replace_value_elements 8 ⟨[⟨'A', 3⟩, ⟨'B', 2⟩, ⟨'A', 3⟩], 8⟩ (by decide) 2 6 'A'
      (by decide)).1.2.1⟩

theorem at_spec_witness :
    SizeConsistent 8 (⟨[⟨'A', 3⟩, ⟨'B', 2⟩], 5⟩ : basic_rle Char) ∧
    NoZeroRun [(⟨'A', 3⟩ : rle_pair Char), ⟨'B', 2⟩] ∧
    ((⟨[⟨'A', 3⟩, ⟨'B', 2⟩], 5⟩ : basic_rle Char).at 8 7 = .error .out_of_range
      ↔ 7 ≥ (⟨[⟨'A', 3⟩, ⟨'B', 2⟩], 5⟩ : basic_rle Char).size) :=
  ⟨by decide, by decide,
    (at_spec 8 ⟨[⟨'A', 3⟩, ⟨'B', 2⟩], 5⟩ (by decide) (by decide) 7).1⟩

end claimsF
end til

namespace til
section slicelemmas
variable {T : Type} [DecidableEq T]

omit [DecidableEq T] in
/-- The runs of the first `sumLen E + k` elements of `E ++ r :: X` when the
position lies inside `r` or at its end. -/
theorem takeRuns_app_le (E X : List (rle_pair T)) (r : rle_pair T) (k : Nat) (hE : NoZeroRun E)
    (hk0 : 0 < k) (hk : k ≤ r.length) :
    takeRuns (sumLen E + k) (E ++ r :: X) = E ++ [⟨r.value, k⟩] := by
  induction E with
  | nil =>
    simp only [sumLen_nil, Nat.zero_add, List.nil_append]
    unfold takeRuns
    rw [if_neg (by omega)]
    split_ifs with hlt
    · rfl
    · have heq : k = r.length := by omega
      subst heq
      simp [takeRuns_zero]
  | cons a E ih =>
    obtain ⟨ha, hE'⟩ := hE.cons
    have h1 : ¬ (a.length + sumLen E + k = 0) := by omega
    have h2 : ¬ (a.length + sumLen E + k < a.length) := by omega
    have h3 : a.length + sumLen E + k - a.length = sumLen E + k := by omega
    simp only [List.cons_append, sumLen_cons, takeRuns, h1, h2, if_false, h3, List.append_eq,
      ih hE']

omit [DecidableEq T] in
theorem setLength_head (X : List (rle_pair T)) (x : rle_pair T) (f : Nat → Nat) :
    setLength (x :: X) 0 f = .ok (⟨x.value, f x.length⟩ :: X) := by
  simp [setLength]

omit [DecidableEq T] in
theorem dropRuns_zero (runs : List (rle_pair T)) (h : NoZeroRun runs) : dropRuns 0 runs = runs := by
  cases runs with
  | nil => rfl
  | cons r rs =>
    have := (h.cons).1
    simp [dropRuns, this]

omit [DecidableEq T] in
/-- Run-level characterisation of `slice` on a container without zero-length
run whose size is the sum of its run lengths. -/
theorem slice_ok (w : Nat) (c : basic_rle T) (hnz : NoZeroRun c._runs)
    (hsz : SizeConsistent w c) (start end_ : Nat) :
    c.slice w start end_
      = .ok ⟨takeRuns (min end_ c.size - start) (dropRuns start c._runs),
          min end_ c.size - start⟩ := by
  obtain ⟨runs, total⟩ := c
  obtain ⟨htot, hlt⟩ := hsz
  simp only [basic_rle.size] at htot hlt hnz ⊢
  have hmin : (if end_ > total then total else end_) = min end_ total := by
    split_ifs <;> omega
  unfold basic_rle.slice
  simp only [hmin]
  by_cases hge : start ≥ min end_ total
  · rw [if_pos hge]
    have : min end_ total - start = 0 := by omega
    rw [this, takeRuns_zero]
  · rw [if_neg hge]
    have he1 : subS w (min end_ total) 1 = min end_ total - 1 := subS_eq (by omega) (by omega)
    have hes : subS w (min end_ total) start = min end_ total - start :=
      subS_eq (by omega) (by omega)
    obtain ⟨P, M, Q, p, q, hruns, hs1, hs2, hle1, hc1, hle2, hc2⟩ :=
      scan_twice w runs start (min end_ total - 1) hlt (by omega)
    subst hruns
    simp only [he1, hes, hs1, hs2]
    simp only [sumLen_append] at htot hlt
    have hnzP := hnz.append_left
    have hnzM := hnz.append_right.append_left
    obtain ⟨re, Q', rfl, hlt2, rfl⟩ : ∃ re Q', Q = re :: Q' ∧
        min end_ total - 1 < sumLen P + sumLen M + re.length ∧
        q = min end_ total - 1 - (sumLen P + sumLen M) := by
      rcases hc2 with ⟨rfl, _⟩ | h
      · simp at htot; omega
      · exact h
    simp only [sumLen_cons] at htot hlt
    obtain ⟨rb, B', hB, hpl, rfl⟩ : ∃ rb B', M ++ re :: Q' = rb :: B' ∧
        start < sumLen P + rb.length ∧ p = start - sumLen P := by
      rcases hc1 with ⟨h0, _⟩ | h
      · simp at h0
      · exact h
    clear hc1 hc2
    have hcond : P.length ≤ P.length + M.length + 1 ∧
        P.length + M.length + 1 ≤ (P ++ (M ++ re :: Q')).length := by
      simp; omega
    rw [if_pos hcond]
    have hslice0 : List.take (P.length + M.length + 1 - P.length)
        (List.drop P.length (P ++ (M ++ re :: Q'))) = M ++ [re] := by
      rw [drop_app _ _ _ rfl]
      have : P.length + M.length + 1 - P.length = (M ++ [re]).length := by simp; omega
      rw [this]
      have h2 : M ++ re :: Q' = (M ++ [re]) ++ Q' := by simp
      rw [h2, take_app _ _ _ rfl]
    rw [hslice0]
    have hq1 : addS w (min end_ total - 1 - (sumLen P + sumLen M)) 1
        = min end_ total - 1 - (sumLen P + sumLen M) + 1 := addS_eq (by omega)
    simp only [bind, Except.bind, pure, Except.pure]
    rw [setLength_app M [] re _ _ (by simp), hq1]
    simp only []
    clear hs1 hs2 hslice0 hcond hq1
    have hd := dropRuns_app P B' rb (start - sumLen P) (by omega)
    have hs : sumLen P + (start - sumLen P) = start := by omega
    rw [hs, ← hB] at hd
    rw [hd]
    cases M with
    | nil =>
      simp only [List.nil_append, List.cons.injEq] at hB
      obtain ⟨rfl, rfl⟩ := hB
      simp only [List.nil_append, sumLen_nil, Nat.add_zero] at *
      rw [setLength_head]
      simp only []
      rw [subS_eq (by omega) (by omega)]
      have ht := takeRuns_app_le [] Q' ⟨re.value, re.length - (start - sumLen P)⟩
        (min end_ total - start) (fun _ h => by simp at h) (by omega) (by simp only; omega)
      simp only [sumLen_nil, Nat.zero_add, List.nil_append] at ht
      rw [ht]
      have hlen : min end_ total - 1 - sumLen P + 1 - (start - sumLen P)
          = min end_ total - start := by omega
      rw [hlen]
    | cons m M' =>
      simp only [List.cons_append, List.cons.injEq] at hB
      obtain ⟨rfl, rfl⟩ := hB
      simp only [sumLen_cons] at *
      rw [List.cons_append, setLength_head]
      simp only []
      rw [subS_eq (by omega) (by omega)]
      have hm0 := (hnzM.cons).1
      have ht := takeRuns_app_le (⟨m.value, m.length - (start - sumLen P)⟩ :: M') Q' re
        (min end_ total - 1 - (sumLen P + (m.length + sumLen M')) + 1)
        (by
          intro x hx
          rcases List.mem_cons.mp hx with rfl | hx'
          · simp only; omega
          · exact (hnzM.cons).2 x hx')
        (by omega) (by omega)
      simp only [sumLen_cons, List.cons_append] at ht
      have hn : m.length - (start - sumLen P) + sumLen M'
          + (min end_ total - 1 - (sumLen P + (m.length + sumLen M')) + 1)
          = min end_ total - start := by omega
      rw [hn] at ht
      rw [ht]

end slicelemmas
end til

namespace til
section unique
variable {T : Type} [DecidableEq T]

omit [DecidableEq T] in
theorem expand_getElem?_head (r : rle_pair T) (rs : List (rle_pair T)) (i : Nat)
    (h : i < r.length) : (expand (r :: rs))[i]? = some r.value := by
  rw [expand_cons, List.getElem?_append_left (by simpa using h), List.getElem?_replicate]
  simp [h]

omit [DecidableEq T] in
theorem expand_getElem?_boundary (r : rle_pair T) (rs : List (rle_pair T))
    (hnz : NoZeroRun (r :: rs)) (hna : NoAdjacentEqual (r :: rs)) :
    (expand (r :: rs))[r.length]? ≠ some r.value := by
  rw [expand_cons, List.getElem?_append_right (by simp)]
  simp only [List.length_replicate, Nat.sub_self]
  cases rs with
  | nil => simp
  | cons r2 rs' =>
    have h2 : 0 < r2.length := (hnz.cons).2 r2 (by simp)
    rw [expand_getElem?_head r2 rs' 0 h2]
    intro h
    simp only [Option.some.injEq] at h
    exact hna.1 h.symm

omit [DecidableEq T] in
/-- The canonical run list of a logical sequence is unique. -/
theorem canonical_unique (a b : List (rle_pair T)) (ha : NoZeroRun a) (ha' : NoAdjacentEqual a)
    (hb : NoZeroRun b) (hb' : NoAdjacentEqual b) (h : expand a = expand b) : a = b := by
  induction a generalizing b with
  | nil =>
    cases b with
    | nil => rfl
    | cons s ss =>
      have hs := (hb.cons).1
      have := congrArg List.length h
      simp at this
      omega
  | cons r rs ih =>
    have hr := (ha.cons).1
    cases b with
    | nil =>
      have := congrArg List.length h
      simp at this
      omega
    | cons s ss =>
      have hs := (hb.cons).1
      have hv : r.value = s.value := by
        have h1 := expand_getElem?_head r rs 0 hr
        have h2 := expand_getElem?_head s ss 0 hs
        rw [h] at h1
        rw [h1] at h2
        simpa using h2
      have hl : r.length = s.length := by
        rcases Nat.lt_trichotomy r.length s.length with hlt | heq | hgt
        · exfalso
          have h1 := expand_getElem?_boundary r rs ha ha'
          have h2 := expand_getElem?_head s ss r.length hlt
          rw [h, h2, hv] at h1
          exact h1 rfl
        · exact heq
        · exfalso
          have h1 := expand_getElem?_boundary s ss hb hb'
          have h2 := expand_getElem?_head r rs s.length hgt
          rw [← h, h2, hv] at h1
          exact h1 rfl
      have hrs : r = s := by
        cases r; cases s; simp only at hv hl; subst hv hl; rfl
      subst hrs
      simp only [expand_cons, List.append_cancel_left_eq] at h
      have hna_tail : ∀ {x : rle_pair T} {l : List (rle_pair T)},
          NoAdjacentEqual (x :: l) → NoAdjacentEqual l := by
        intro x l hx
        cases l with
        | nil => trivial
        | cons y l => exact hx.2
      rw [ih ss (ha.cons).2 (hna_tail ha') (hb.cons).2 (hna_tail hb') h]

end unique
end til

namespace til
section claimsG
variable {T : Type} [DecidableEq T]

omit [DecidableEq T] in
/-- C9: for every canonical container `c` and every `start`, `end_`: if
`start ≥ min end_ c.size` then `c.slice start end_` is the empty container;
otherwise it returns a container of size `min end_ c.size - start` whose `k`-th
element is `c.at (start + k)` for every `k` below that size.  Consequently, for
every `k ≤ c.size`, the logical sequence of `c.slice 0 k` followed by that of
`c.slice k c.size` is the logical sequence of `c`. -/
theorem slice_spec (w : Nat) (c : basic_rle T) (hc : Canonical w c) (start end_ : Nat) :
    (min end_ c.size ≤ start → c.slice w start end_ = .ok ⟨[], 0⟩) ∧
    (start < min end_ c.size →
      ∃ s, c.slice w start end_ = .ok s ∧ s.size = min end_ c.size - start ∧
        ∀ k, k < min end_ c.size - start →
          ∃ v, s.at w k = .ok v ∧ c.at w (start + k) = .ok v) ∧
    (∀ k, k ≤ c.size →
      ∃ s1 s2, c.slice w 0 k = .ok s1 ∧ c.slice w k c.size = .ok s2 ∧
        expand s1._runs ++ expand s2._runs = expand c._runs) := by
  obtain ⟨hnz, _, hsz⟩ := hc
  have h2 := hsz.1
  have h3 := hsz.2
  refine ⟨?_, ?_, ?_⟩
  · intro h
    rw [slice_ok w c hnz hsz]
    have : min end_ c.size - start = 0 := by omega
    rw [this, takeRuns_zero]
  · intro h
    refine ⟨_, slice_ok w c hnz hsz start end_, rfl, ?_⟩
    intro k hk
    unfold basic_rle.size at *
    have hle : min end_ c._total_length ≤ sumLen c._runs := by
      rw [← h2]; exact Nat.min_le_right _ _
    have hsum : sumLen (takeRuns (min end_ c._total_length - start) (dropRuns start c._runs))
        = min end_ c._total_length - start := by
      rw [sumLen_takeRuns _ _ (by rw [sumLen_dropRuns]; omega)]
    have hlt : start + k < (expand c._runs).length := by simp; omega
    refine ⟨(expand c._runs)[start + k], ?_, ?_⟩
    · rw [at_eq w _ k (by simp only; omega)]
      simp only [expand_takeRuns, expand_dropRuns]
      rw [List.getElem?_take_of_lt hk, List.getElem?_drop, List.getElem?_eq_getElem hlt]
    · rw [at_eq w c _ h3, List.getElem?_eq_getElem hlt]
  · intro k hk
    refine ⟨_, _, slice_ok w c hnz hsz 0 k, slice_ok w c hnz hsz k c.size, ?_⟩
    unfold basic_rle.size at *
    simp only [expand_takeRuns, expand_dropRuns, List.drop_zero, Nat.sub_zero, Nat.min_self]
    have hk' : min k c._total_length = k := by omega
    rw [hk']
    have hdrop : List.take (c._total_length - k) (List.drop k (expand c._runs))
        = List.drop k (expand c._runs) :=
      List.take_of_length_le (by simp; omega)
    rw [hdrop, List.take_append_drop]

theorem slice_spec_witness :
    Canonical 8 (⟨[⟨'A', 3⟩, ⟨'B', 2⟩, ⟨'A', 3⟩], 8⟩ : basic_rle Char) ∧
    (min 2 (⟨[⟨'A', 3⟩, ⟨'B', 2⟩, ⟨'A', 3⟩], 8⟩ : basic_rle Char).size ≤ 5 →
      (⟨[⟨'A', 3⟩, ⟨'B', 2⟩, ⟨'A', 3⟩], 8⟩ : basic_rle Char).slice 8 5 2 = .ok ⟨[], 0⟩) :=
  ⟨by decide, (slice_spec 8 ⟨[⟨'A', 3⟩, ⟨'B', 2⟩, ⟨'A', 3⟩], 8⟩ (by decide) 5 2).1⟩

/-- C10: for every canonical container `c`, including the empty one,
`c.slice 0 c.size` is equal to `c` (`operator==`: same size and identical run
list). -/
theorem slice_full (w : Nat) (c : basic_rle T) (hc : Canonical w c) :
    ∃ s, c.slice w 0 c.size = .ok s ∧ s.beq c = true ∧
      s.size = c.size ∧ s._runs = c._runs := by
  obtain ⟨hnz, _, hsz⟩ := hc
  have h2 := hsz.1
  refine ⟨_, slice_ok w c hnz hsz 0 c.size, ?_⟩
  unfold basic_rle.size at *
  have hruns : takeRuns c._total_length (dropRuns 0 c._runs) = c._runs := by
    rw [dropRuns_zero _ hnz, h2, takeRuns_all _ hnz]
  simp only [Nat.min_self, Nat.sub_zero, basic_rle.beq, hruns, decide_True, Bool.and_self,
    and_self]

theorem slice_full_witness :
    Canonical 8 (⟨[⟨'A', 3⟩, ⟨'B', 2⟩, ⟨'A', 3⟩], 8⟩ : basic_rle Char) ∧
    ∃ s, (⟨[⟨'A', 3⟩, ⟨'B', 2⟩, ⟨'A', 3⟩], 8⟩ : basic_rle Char).slice 8 0
        (⟨[⟨'A', 3⟩, ⟨'B', 2⟩, ⟨'A', 3⟩], 8⟩ : basic_rle Char).size = .ok s ∧
      s.beq ⟨[⟨'A', 3⟩, ⟨'B', 2⟩, ⟨'A', 3⟩], 8⟩ = true ∧
      s.size = (⟨[⟨'A', 3⟩, ⟨'B', 2⟩, ⟨'A', 3⟩], 8⟩ : basic_rle Char).size ∧
      s._runs = [⟨'A', 3⟩, ⟨'B', 2⟩, ⟨'A', 3⟩] :=
  ⟨by decide, slice_full 8 ⟨[⟨'A', 3⟩, ⟨'B', 2⟩, ⟨'A', 3⟩], 8⟩ (by decide)⟩

/-- C7: for every canonical container `c` and every `i ≤ j ≤ c.size`, replacing
the range `[i, j)` with the runs of `c.slice i j` leaves `c` equal
(`operator==`: same size and same run list) to the original. -/
theorem replace_own_slice [Inhabited T] (w : Nat) (c : basic_rle T) (hc : Canonical w c)
    (i j : Nat) (hij : i ≤ j) (hj : j ≤ c.size) :
    ∃ s, c.slice w i j = .ok s ∧ (c.replace w i j s.runs).1 = .ok () ∧
      (c.replace w i j s.runs).2.beq c = true := by
  obtain ⟨hnz, hna, hsz⟩ := hc
  have h2 := hsz.1
  have h3 := hsz.2
  refine ⟨_, slice_ok w c hnz hsz i j, ?_⟩
  unfold basic_rle.size at *
  have hmin : min j c._total_length = j := by omega
  simp only [basic_rle.runs, hmin]
  have hsum : sumLen (takeRuns (j - i) (dropRuns i c._runs)) = j - i := by
    rw [sumLen_takeRuns _ _ (by rw [sumLen_dropRuns]; omega)]
  have hrep := replace_eq w c hnz hsz i j (takeRuns (j - i) (dropRuns i c._runs))
    (by unfold basic_rle.size; omega) (by unfold basic_rle.size; rw [hsum]; omega)
  unfold basic_rle.size at hrep
  rw [hrep, hmin]
  refine ⟨rfl, ?_⟩
  have hruns : glue (glue (takeRuns i c._runs) (takeRuns (j - i) (dropRuns i c._runs)))
      (dropRuns j c._runs) = c._runs := by
    apply canonical_unique
    · exact noZeroRun_glue (noZeroRun_glue (noZeroRun_takeRuns hnz _)
        (noZeroRun_takeRuns (noZeroRun_dropRuns hnz _) _)) (noZeroRun_dropRuns hnz _)
    · exact noAdjacentEqual_glue (noAdjacentEqual_glue (noAdjacentEqual_takeRuns hna _)
        (noAdjacentEqual_takeRuns (noAdjacentEqual_dropRuns hna _) _))
        (noAdjacentEqual_dropRuns hna _)
    · exact hnz
    · exact hna
    · simp only [expand_glue, expand_takeRuns, expand_dropRuns]
      rw [← List.take_add, Nat.add_sub_cancel' hij, List.take_append_drop]
  simp only [basic_rle.beq, hruns, hsum, decide_True, Bool.and_true, decide_eq_true_eq]
  omega

theorem replace_own_slice_witness :
    Canonical 8 (⟨[⟨'A', 3⟩, ⟨'B', 2⟩, ⟨'A', 3⟩], 8⟩ : basic_rle Char) ∧ 2 ≤ 7 ∧
    7 ≤ (⟨[⟨'A', 3⟩, ⟨'B', 2⟩, ⟨'A', 3⟩], 8⟩ : basic_rle Char).size ∧
    ∃ s, (⟨[⟨'A', 3⟩, ⟨'B', 2⟩, ⟨'A', 3⟩], 8⟩ : basic_rle Char).slice 8 2 7 = .ok s ∧
      ((⟨[⟨'A', 3⟩, ⟨'B', 2⟩, ⟨'A', 3⟩], 8⟩ : basic_rle Char).replace 8 2 7 s.runs).1 = .ok () ∧
      ((⟨[⟨'A', 3⟩, ⟨'B', 2⟩, ⟨'A', 3⟩], 8⟩ : basic_rle Char).replace 8 2 7 s.runs).2.beq
        ⟨[⟨'A', 3⟩, ⟨'B', 2⟩, ⟨'A', 3⟩], 8⟩ = true :=
  ⟨by decide, by decide, by decide,
    replace_own_slice 8 ⟨[⟨'A', 3⟩, ⟨'B', 2⟩, ⟨'A', 3⟩], 8⟩ (by decide) 2 7 (by decide)
      (by decide)⟩

end claimsG
end til

namespace til

section compaction

variable {T : Type} [DecidableEq T]

omit [DecidableEq T] in
theorem set_app (A X : List (rle_pair T)) (x y : rle_pair T) (n : Nat) (h : n = A.length) :
    (A ++ x :: X).set n y = A ++ y :: X := by
  subst h
  induction A with
  | nil => simp
  | cons a A ih => simp

theorem compact_inner_spec (w : Nat) (Y : List (rle_pair T)) :
    ∀ (A G : List (rle_pair T)) (r : rle_pair T) (ref it : Nat), G ≠ [] →
      r.length + sumLen Y < 2 ^ w → ref = A.length → it = A.length + 1 + G.length →
      ∃ runs' ref', basic_rle._compact_inner w Y.length (A ++ r :: (G ++ Y)) ref it
          = .ok (runs', ref') ∧
        runs'.take (ref' + 1) = A ++ mergeInto r Y ∧
        ref' + 1 = (A ++ mergeInto r Y).length ∧
        runs'.length = A.length + 1 + G.length + Y.length := by
  induction Y with
  | nil =>
    intro A G r ref it _ _ href _
    refine ⟨A ++ r :: (G ++ []), ref, rfl, ?_, ?_, ?_⟩
    · subst href
      have : A ++ r :: (G ++ []) = (A ++ [r]) ++ G := by simp
      rw [this, take_app _ _ _ (by simp)]
      simp [mergeInto]
    · subst href; simp [mergeInto]
    · simp; omega
  | cons y Y ih =>
    intro A G r ref it hG hfit href hit
    simp only [sumLen_cons] at hfit
    have hr : getRun (A ++ r :: (G ++ y :: Y)) ref = .ok r := getRun_app A _ r ref href
    have hx : getRun (A ++ r :: (G ++ y :: Y)) it = .ok y := by
      have : A ++ r :: (G ++ y :: Y) = (A ++ r :: G) ++ y :: Y := by simp
      rw [this]
      exact getRun_app _ _ y it (by simp; omega)
    simp only [List.length_cons]
    unfold basic_rle._compact_inner
    simp only [hr, hx, bind, Except.bind]
    by_cases hv : r.value = y.value
    · rw [if_pos hv, setLength_app A _ r ref _ href]
      simp only []
      have hadd : addS w r.length y.length = r.length + y.length := addS_eq (by omega)
      rw [hadd]
      have hre : A ++ (⟨r.value, r.length + y.length⟩ : rle_pair T) :: (G ++ y :: Y)
          = A ++ (⟨r.value, r.length + y.length⟩ : rle_pair T) :: ((G ++ [y]) ++ Y) := by simp
      rw [hre]
      obtain ⟨runs', ref', h1, h2, h3, h4⟩ :=
        ih A (G ++ [y]) ⟨r.value, r.length + y.length⟩ ref (it + 1) (by simp)
          (by simp only []; omega) href (by simp; omega)
      refine ⟨runs', ref', h1, ?_, ?_, ?_⟩
      · rw [h2]; simp [mergeInto, hv]
      · rw [h3]; simp [mergeInto, hv]
      · rw [h4]; simp; omega
    · rw [if_neg hv]
      obtain ⟨g0, G0, rfl⟩ := List.exists_cons_of_ne_nil hG
      have hg : getRun (A ++ r :: (g0 :: G0 ++ y :: Y)) (ref + 1) = .ok g0 := by
        have : A ++ r :: (g0 :: G0 ++ y :: Y) = (A ++ [r]) ++ g0 :: (G0 ++ y :: Y) := by simp
        rw [this]
        exact getRun_app _ _ g0 _ (by simp; omega)
      simp only [hg]
      have hset : (A ++ r :: (g0 :: G0 ++ y :: Y)).set (ref + 1) y
          = (A ++ [r]) ++ y :: ((G0 ++ [y]) ++ Y) := by
        have : A ++ r :: (g0 :: G0 ++ y :: Y) = (A ++ [r]) ++ g0 :: (G0 ++ y :: Y) := by simp
        rw [this, set_app _ _ g0 y _ (by simp; omega)]
        simp
      rw [hset]
      obtain ⟨runs', ref', h1, h2, h3, h4⟩ :=
        ih (A ++ [r]) (G0 ++ [y]) y (ref + 1) (it + 1) (by simp)
          (by omega) (by simp; omega) (by simp at hit ⊢; omega)
      refine ⟨runs', ref', h1, ?_, ?_, ?_⟩
      · rw [h2]; simp [mergeInto, hv]
      · rw [h3]; simp [mergeInto, hv]
      · rw [h4]; simp; omega

theorem compact_outer_spec (w : Nat) (X : List (rle_pair T)) :
    ∀ (A : List (rle_pair T)) (r : rle_pair T) (ref : Nat),
      r.length + sumLen X < 2 ^ w → ref = A.length →
      basic_rle._compact_outer w X.length (A ++ r :: X) ref = .ok (A ++ mergeInto r X) := by
  induction X with
  | nil =>
    intro A r ref _ _
    simp [basic_rle._compact_outer, mergeInto, pure, Except.pure]
  | cons x X ih =>
    intro A r ref hfit href
    simp only [sumLen_cons] at hfit
    have hr : getRun (A ++ r :: x :: X) ref = .ok r := getRun_app A _ r ref href
    have hx : getRun (A ++ r :: x :: X) (ref + 1) = .ok x := by
      have : A ++ r :: x :: X = (A ++ [r]) ++ x :: X := by simp
      rw [this]
      exact getRun_app _ _ x _ (by simp; omega)
    simp only [List.length_cons]
    unfold basic_rle._compact_outer
    simp only [hr, hx, bind, Except.bind]
    by_cases hv : r.value = x.value
    · rw [if_pos hv, setLength_app A _ r ref _ href]
      simp only []
      have hadd : addS w r.length x.length = r.length + x.length := addS_eq (by omega)
      rw [hadd]
      obtain ⟨runs', ref', h1, h2, h3, h4⟩ :=
        compact_inner_spec w X A [x] ⟨r.value, r.length + x.length⟩ ref (ref + 1 + 1) (by simp)
          (by simp only []; omega) href (by simp; omega)
      simp only [List.singleton_append] at h1
      rw [h1]
      simp only []
      have hlen : (A ++ r :: x :: X).length = runs'.length := by
        rw [h4]; simp; omega
      have hle : ref' + 1 ≤ runs'.length := by
        have := congrArg List.length h2
        rw [List.length_take, ← h3] at this
        omega
      unfold eraseRange
      rw [if_pos ⟨by omega, by omega⟩, hlen, List.drop_length, List.append_nil, h2]
      simp [mergeInto, hv]
    · rw [if_neg hv]
      have hre : A ++ r :: x :: X = (A ++ [r]) ++ x :: X := by simp
      rw [hre, ih (A ++ [r]) x (ref + 1) (by omega) (by simp; omega)]
      simp [mergeInto, hv]

theorem compact_eq (w : Nat) (c : basic_rle T) (hfit : sumLen c._runs < 2 ^ w) :
    c._compact w = .ok ⟨mergeRuns c._runs, c._total_length⟩ := by
  obtain ⟨runs, total⟩ := c
  cases runs with
  | nil => simp [basic_rle._compact, mergeRuns, pure, Except.pure]
  | cons r X =>
    simp only [sumLen_cons] at hfit
    have := compact_outer_spec w X [] r 0 hfit rfl
    simp only [List.nil_append] at this
    simp [basic_rle._compact, mergeRuns, this, bind, Except.bind, pure, Except.pure]

end compaction

end til

namespace til

section mergeprops

variable {T : Type} [DecidableEq T]

theorem sumLen_mergeInto (X : List (rle_pair T)) :
    ∀ r : rle_pair T, sumLen (mergeInto r X) = r.length + sumLen X := by
  induction X with
  | nil => intro r; simp [mergeInto]
  | cons x X ih =>
    intro r
    unfold mergeInto
    split_ifs with hv
    · rw [ih]; simp; omega
    · simp [ih]

theorem sumLen_mergeRuns (X : List (rle_pair T)) : sumLen (mergeRuns X) = sumLen X := by
  cases X with
  | nil => rfl
  | cons x X => simp [mergeRuns, sumLen_mergeInto]

theorem expand_mergeInto (X : List (rle_pair T)) :
    ∀ r : rle_pair T, expand (mergeInto r X) = expand (r :: X) := by
  induction X with
  | nil => intro r; simp [mergeInto]
  | cons x X ih =>
    intro r
    unfold mergeInto
    split_ifs with hv
    · rw [ih]
      simp only [expand_cons, ← List.append_assoc, hv]
      rw [List.replicate_add]
    · simp only [expand_cons, ih]

theorem expand_mergeRuns (X : List (rle_pair T)) : expand (mergeRuns X) = expand X := by
  cases X with
  | nil => rfl
  | cons x X => simp only [mergeRuns, expand_mergeInto]

theorem mergeInto_head (X : List (rle_pair T)) :
    ∀ r : rle_pair T, ∃ n rest, mergeInto r X = ⟨r.value, n⟩ :: rest := by
  induction X with
  | nil => intro r; exact ⟨r.length, [], rfl⟩
  | cons x X ih =>
    intro r
    unfold mergeInto
    split_ifs with hv
    · exact ih _
    · exact ⟨r.length, _, rfl⟩

theorem noAdjacentEqual_mergeInto (X : List (rle_pair T)) :
    ∀ r : rle_pair T, NoAdjacentEqual (mergeInto r X) := by
  induction X with
  | nil => intro r; simp [mergeInto, NoAdjacentEqual]
  | cons x X ih =>
    intro r
    unfold mergeInto
    split_ifs with hv
    · exact ih _
    · obtain ⟨n, rest, h⟩ := mergeInto_head X x
      have := ih x
      rw [h] at this ⊢
      exact ⟨hv, this⟩

theorem noAdjacentEqual_mergeRuns (X : List (rle_pair T)) : NoAdjacentEqual (mergeRuns X) := by
  cases X with
  | nil => simp [mergeRuns, NoAdjacentEqual]
  | cons x X => exact noAdjacentEqual_mergeInto X x

theorem noZeroRun_mergeInto (X : List (rle_pair T)) :
    ∀ r : rle_pair T, NoZeroRun (r :: X) → NoZeroRun (mergeInto r X) := by
  induction X with
  | nil => intro r h; simpa [mergeInto] using h
  | cons x X ih =>
    intro r h
    obtain ⟨hr, h'⟩ := h.cons
    obtain ⟨hx, hX⟩ := h'.cons
    unfold mergeInto
    split_ifs with hv
    · apply ih
      intro y hy
      rcases List.mem_cons.mp hy with rfl | hy
      · simp only []; omega
      · exact hX y hy
    · intro y hy
      rcases List.mem_cons.mp hy with rfl | hy
      · exact hr
      · exact ih x h' y hy

theorem noZeroRun_mergeRuns {X : List (rle_pair T)} (h : NoZeroRun X) :
    NoZeroRun (mergeRuns X) := by
  cases X with
  | nil => simpa [mergeRuns] using h
  | cons x X => exact noZeroRun_mergeInto X x h

theorem mergeInto_of_noAdjacentEqual (X : List (rle_pair T)) :
    ∀ r : rle_pair T, NoAdjacentEqual (r :: X) → mergeInto r X = r :: X := by
  induction X with
  | nil => intro r _; rfl
  | cons x X ih =>
    intro r h
    obtain ⟨hv, h'⟩ := h
    unfold mergeInto
    rw [if_neg hv, ih x h']

theorem mergeRuns_of_noAdjacentEqual {X : List (rle_pair T)} (h : NoAdjacentEqual X) :
    mergeRuns X = X := by
  cases X with
  | nil => rfl
  | cons x X => exact mergeInto_of_noAdjacentEqual X x h

omit [DecidableEq T] in
theorem sumLen_mapValues [DecidableEq T] (a b : T) (X : List (rle_pair T)) :
    sumLen (mapValues a b X) = sumLen X := by
  unfold mapValues sumLen
  rw [List.map_map]
  rfl

theorem noZeroRun_mapValues (a b : T) {X : List (rle_pair T)} (h : NoZeroRun X) :
    NoZeroRun (mapValues a b X) := by
  intro y hy
  unfold mapValues at hy
  obtain ⟨r, hr, rfl⟩ := List.mem_map.mp hy
  exact h r hr

theorem expand_mapValues (a b : T) (X : List (rle_pair T)) :
    expand (mapValues a b X) = (expand X).map (fun v => if v = a then b else v) := by
  induction X with
  | nil => rfl
  | cons r X ih =>
    unfold mapValues at ih ⊢
    simp only [List.map_cons, expand_cons, List.map_append, List.map_replicate, ih]

theorem mapValues_self (a : T) (X : List (rle_pair T)) : mapValues a a X = X := by
  unfold mapValues
  induction X with
  | nil => rfl
  | cons r X ih =>
    rw [List.map_cons, ih]
    congr 1
    obtain ⟨v, n⟩ := r
    by_cases h : v = a <;> simp [h]

theorem mapValues_inverse (a b : T) (X : List (rle_pair T)) (hb : ∀ r ∈ X, r.value ≠ b) :
    mapValues b a (mapValues a b X) = X := by
  unfold mapValues
  induction X with
  | nil => rfl
  | cons r X ih =>
    rw [List.map_cons, List.map_cons, ih (fun y hy => hb y (by simp [hy]))]
    congr 1
    obtain ⟨v, n⟩ := r
    have hvb : v ≠ b := hb ⟨v, n⟩ (by simp)
    by_cases h : v = a <;> simp [h, hvb]

theorem noAdjacentEqual_mapValues (a b : T) (X : List (rle_pair T))
    (hb : ∀ r ∈ X, r.value ≠ b) (h : NoAdjacentEqual X) :
    NoAdjacentEqual (mapValues a b X) := by
  induction X with
  | nil => simp [mapValues, NoAdjacentEqual]
  | cons r X ih =>
    cases X with
    | nil => simp [mapValues, NoAdjacentEqual]
    | cons s X =>
      obtain ⟨hv, h'⟩ := h
      have ih' := ih (fun y hy => hb y (by simp [hy])) h'
      unfold mapValues at ih' ⊢
      simp only [List.map_cons] at ih' ⊢
      refine ⟨?_, ih'⟩
      have hrb : r.value ≠ b := hb r (by simp)
      have hsb : s.value ≠ b := hb s (by simp)
      simp only []
      by_cases h1 : r.value = a <;> by_cases h2 : s.value = a
      · exact absurd (h1.trans h2.symm) hv
      · rw [if_pos h1, if_neg h2]; exact fun h => hsb h.symm
      · rw [if_neg h1, if_pos h2]; exact hrb
      · rw [if_neg h1, if_neg h2]; exact hv

end mergeprops

end til

namespace til
section claimsH
variable {T : Type} [DecidableEq T]

omit [DecidableEq T] in
/-- C11: for every canonical container `c` and every `start`, `end_`, the call
`c.slice start end_` returns a container that has no zero-length run, has no
two adjacent runs with equal value, and whose `size()` equals the sum of its
run lengths (a value of the size type), so it is canonical. -/
theorem slice_canonical (w : Nat) (c : basic_rle T) (hc : Canonical w c) (start end_ : Nat) :
    ∃ s, c.slice w start end_ = .ok s ∧ NoZeroRun s._runs ∧ NoAdjacentEqual s._runs ∧
      s.size = sumLen s._runs ∧ Canonical w s := by
  obtain ⟨hnz, hna, hsz⟩ := hc
  have h2 := hsz.1
  have h3 := hsz.2
  have hsum : sumLen (takeRuns (min end_ c.size - start) (dropRuns start c._runs))
      = min end_ c.size - start := by
    rw [sumLen_takeRuns _ _ (by rw [sumLen_dropRuns]; unfold basic_rle.size; omega)]
  have hz : NoZeroRun (takeRuns (min end_ c.size - start) (dropRuns start c._runs)) :=
    noZeroRun_takeRuns (noZeroRun_dropRuns hnz _) _
  have ha : NoAdjacentEqual (takeRuns (min end_ c.size - start) (dropRuns start c._runs)) :=
    noAdjacentEqual_takeRuns (noAdjacentEqual_dropRuns hna _) _
  refine ⟨_, slice_ok w c hnz hsz start end_, hz, ha, ?_, hz, ha, ?_, ?_⟩
  · exact hsum.symm
  · exact hsum.symm
  · show sumLen (takeRuns (min end_ c.size - start) (dropRuns start c._runs)) < 2 ^ w
    rw [hsum]; unfold basic_rle.size; omega

theorem slice_canonical_witness :
    Canonical 8 (⟨[⟨'A', 2⟩, ⟨'B', 3⟩, ⟨'C', 1⟩], 6⟩ : basic_rle Char) ∧
    ∃ s, (⟨[⟨'A', 2⟩, ⟨'B', 3⟩, ⟨'C', 1⟩], 6⟩ : basic_rle Char).slice 8 1 4 = .ok s ∧
      NoZeroRun s._runs ∧ NoAdjacentEqual s._runs ∧ s.size = sumLen s._runs ∧ Canonical 8 s :=
  ⟨by decide, slice_canonical 8 ⟨[⟨'A', 2⟩, ⟨'B', 3⟩, ⟨'C', 1⟩], 6⟩ (by decide) 1 4⟩

end claimsH
end til

namespace til
section resizelemmas
variable {T : Type} [DecidableEq T]

/-- The effect of `resize_trailing_extent` on a container without zero-length
runs whose size is the sum of its run lengths. -/
theorem resize_eq (w : Nat) (c : basic_rle T) (hnz : NoZeroRun c._runs)
    (hsz : SizeConsistent w c) (new_size : Nat) (hn : new_size < 2 ^ w) :
    c.resize_trailing_extent w new_size
      = if new_size = 0 then (.ok (), ⟨[], 0⟩)
        else if new_size < c._total_length then (.ok (), ⟨takeRuns new_size c._runs, new_size⟩)
        else if new_size > c._total_length then
          (if c._runs = [] then (.error .invalid, c)
            else (.ok (), ⟨addBack (new_size - c._total_length) c._runs, new_size⟩))
        else (.ok (), c) := by
  obtain ⟨runs, total⟩ := c
  obtain ⟨htot, hlt⟩ := hsz
  simp only at htot hlt hnz ⊢
  unfold basic_rle.resize_trailing_extent
  simp only
  by_cases h0 : new_size = 0
  · subst h0
    simp [pure, Except.pure]
  · rw [if_neg h0, if_neg h0]
    by_cases h1 : new_size < total
    · rw [if_pos h1, if_pos h1]
      have hsub : subS w new_size 1 = new_size - 1 := subS_eq (by omega) hn
      obtain ⟨pre, post, p, hsplit, hscan, hle, hcase⟩ :=
        scanLoop_spec w (new_size - 1) runs 0 0 (by simpa using hlt) (Nat.zero_le _)
      subst hsplit
      simp only [rle_scanner.scan, List.drop_zero, hsub, hscan, Nat.zero_add] at hle ⊢
      rcases hcase with ⟨rfl, _⟩ | ⟨r, post', rfl, hlt2, hp⟩
      · simp only [List.append_nil] at htot
        omega
      · simp only [Nat.zero_add] at hlt2 hp
        have hrl : r.length ≤ sumLen (pre ++ r :: post') := by simp; omega
        have hadd : addS w p 1 = p + 1 := addS_eq (by omega)
        rw [setLength_app pre post' r _ _ rfl]
        simp only [bind, Except.bind, hadd]
        have hre : pre ++ (⟨r.value, p + 1⟩ : rle_pair T) :: post'
            = (pre ++ [⟨r.value, p + 1⟩]) ++ (post' ++ []) := by simp
        rw [hre, eraseRange_app _ _ _ _ _ (by simp) (by simp; omega)]
        have hns : new_size = sumLen pre + (p + 1) := by omega
        have htake := takeRuns_app_le pre post' r (p + 1) hnz.append_left (by omega) (by omega)
        rw [← hns] at htake
        simp only [List.append_nil, htake]
    · rw [if_neg h1, if_neg h1]
      by_cases h2 : new_size > total
      · rw [if_pos h2, if_pos h2]
        by_cases he : runs = []
        · subst he
          simp [Expects, bind, Except.bind, throw, throwThe, MonadExceptOf.throw]
        · rw [if_neg he]
          have hemp : runs.isEmpty = false := by
            cases runs with
            | nil => exact absurd rfl he
            | cons a rs => rfl
          rw [hemp]
          simp only [Expects, Bool.not_false, if_true, bind, Except.bind, pure, Except.pure]
          obtain ⟨P, last, rfl⟩ : ∃ P last, runs = P ++ [last] :=
            ⟨runs.dropLast, runs.getLast he, (List.dropLast_append_getLast he).symm⟩
          have hll : last.length ≤ sumLen (P ++ [last]) := by simp
          have hsub : subS w new_size total = new_size - total := subS_eq (by omega) hn
          have hadd : addS w last.length (new_size - total) = last.length + (new_size - total) :=
            addS_eq (by omega)
          rw [setLength_app P [] last _ _ (by simp), hsub, hadd, addBack_concat]
      · rw [if_neg h2, if_neg h2]
        have : new_size = total := by omega
        subst this
        simp [pure, Except.pure]

omit [DecidableEq T] in
theorem noZeroRun_addBack (n : Nat) {X : List (rle_pair T)} (h : NoZeroRun X) :
    NoZeroRun (addBack n X) := by
  by_cases hX : X = []
  · subst hX; simpa [addBack] using h
  · obtain ⟨P, last, rfl⟩ : ∃ P last, X = P ++ [last] :=
      ⟨X.dropLast, X.getLast hX, (List.dropLast_append_getLast hX).symm⟩
    rw [addBack_concat]
    intro y hy
    rcases List.mem_append.mp hy with hy | hy
    · exact h y (by simp [hy])
    · simp only [List.mem_singleton] at hy
      subst hy
      have := h last (by simp)
      simp only []; omega

omit [DecidableEq T] in
theorem vals_addBack (n : Nat) (X : List (rle_pair T)) : vals (addBack n X) = vals X := by
  by_cases hX : X = []
  · subst hX; simp [addBack]
  · obtain ⟨P, last, rfl⟩ : ∃ P last, X = P ++ [last] :=
      ⟨X.dropLast, X.getLast hX, (List.dropLast_append_getLast hX).symm⟩
    rw [addBack_concat]
    simp [vals]

omit [DecidableEq T] in
theorem noAdjacentEqual_addBack (n : Nat) {X : List (rle_pair T)} (h : NoAdjacentEqual X) :
    NoAdjacentEqual (addBack n X) := by
  rw [noAdjacentEqual_iff] at h ⊢
  rw [vals_addBack]; exact h

omit [DecidableEq T] in
theorem expand_addBack (n : Nat) (P : List (rle_pair T)) (last : rle_pair T) :
    expand (addBack n (P ++ [last])) = expand (P ++ [last]) ++ List.replicate n last.value := by
  rw [addBack_concat]
  simp only [expand_append, expand_cons, expand_nil, List.append_nil, List.replicate_add,
    List.append_assoc]

end resizelemmas
end til

namespace til
section claimsI
variable {T : Type} [DecidableEq T]

/-- C16: for every canonical container `c` and every `new_size` of the size
type for which `c.resize_trailing_extent new_size` does not fail with
`invalid`: the call succeeds, and afterwards `size()` is `new_size` and equals
the sum of the run lengths, no run has length 0, no two adjacent runs share a
value, and the run list is empty when `new_size = 0`. -/
theorem resize_canonical (w : Nat) (c : basic_rle T) (hc : Canonical w c) (new_size : Nat)
    (hn : new_size < 2 ^ w)
    (hnf : (c.resize_trailing_extent w new_size).1 ≠ .error .invalid) :
    (c.resize_trailing_extent w new_size).1 = .ok () ∧
    (c.resize_trailing_extent w new_size).2.size = new_size ∧
    (c.resize_trailing_extent w new_size).2.size
      = sumLen (c.resize_trailing_extent w new_size).2._runs ∧
    NoZeroRun (c.resize_trailing_extent w new_size).2._runs ∧
    NoAdjacentEqual (c.resize_trailing_extent w new_size).2._runs ∧
    (new_size = 0 → (c.resize_trailing_extent w new_size).2._runs = []) := by
  obtain ⟨hnz, hna, hsz⟩ := hc
  have h2 := hsz.1
  have h3 := hsz.2
  rw [resize_eq w c hnz hsz new_size hn] at hnf ⊢
  by_cases h0 : new_size = 0
  · subst h0
    simp [basic_rle.size, NoZeroRun, NoAdjacentEqual]
  · rw [if_neg h0] at hnf ⊢
    by_cases h1 : new_size < c._total_length
    · rw [if_pos h1]
      refine ⟨rfl, rfl, ?_, noZeroRun_takeRuns hnz _, noAdjacentEqual_takeRuns hna _,
        fun h => absurd h h0⟩
      simp only [basic_rle.size]
      rw [sumLen_takeRuns _ _ (by omega)]
    · rw [if_neg h1] at hnf ⊢
      by_cases h4 : new_size > c._total_length
      · rw [if_pos h4] at hnf ⊢
        by_cases he : c._runs = []
        · rw [if_pos he] at hnf
          exact absurd rfl hnf
        · rw [if_neg he]
          refine ⟨rfl, rfl, ?_, noZeroRun_addBack _ hnz, noAdjacentEqual_addBack _ hna,
            fun h => absurd h h0⟩
          simp only [basic_rle.size]
          rw [sumLen_addBack _ _ he]
          omega
      · rw [if_neg h4]
        refine ⟨rfl, ?_, h2, hnz, hna, fun h => absurd h h0⟩
        simp only [basic_rle.size]; omega

theorem resize_canonical_witness :
    Canonical 8 (⟨[⟨'A', 2⟩, ⟨'B', 4⟩], 6⟩ : basic_rle Char) ∧ (3 : Nat) < 2 ^ 8 ∧
    ((⟨[⟨'A', 2⟩, ⟨'B', 4⟩], 6⟩ : basic_rle Char).resize_trailing_extent 8 3).2
      = ⟨[⟨'A', 2⟩, ⟨'B', 1⟩], 3⟩ ∧
    NoZeroRun ((⟨[⟨'A', 2⟩, ⟨'B', 4⟩], 6⟩ : basic_rle Char).resize_trailing_extent 8 3).2._runs :=
  ⟨by decide, by decide, by decide,
    (resize_canonical 8 ⟨[⟨'A', 2⟩, ⟨'B', 4⟩], 6⟩ (by decide) 3 (by decide)
      (fun h => nomatch h)).2.2.2.1⟩

/-- C17: for every canonical container `c` and every `new_size` of the size
type: `c.resize_trailing_extent new_size` fails with `invalid` if and only if
`c` has no runs and `new_size > c.size()`, which is to say `c` is empty and
`new_size > 0`; in every other case it succeeds; when it fails `c` is
unchanged; and `resize_trailing_extent 0` on a container without runs
succeeds. -/
theorem resize_fails_iff (w : Nat) (c : basic_rle T) (hc : Canonical w c) (new_size : Nat)
    (hn : new_size < 2 ^ w) :
    ((c.resize_trailing_extent w new_size).1 = .error .invalid
      ↔ (c._runs = [] ∧ c.size < new_size)) ∧
    ((c._runs = [] ∧ c.size < new_size) ↔ (c.size = 0 ∧ 0 < new_size)) ∧
    ((c.resize_trailing_extent w new_size).1 ≠ .error .invalid →
      (c.resize_trailing_extent w new_size).1 = .ok ()) ∧
    ((c.resize_trailing_extent w new_size).1 = .error .invalid →
      (c.resize_trailing_extent w new_size).2 = c) ∧
    (c._runs = [] → (c.resize_trailing_extent w 0).1 = .ok ()) := by
  obtain ⟨hnz, hna, hsz⟩ := hc
  have h2 := hsz.1
  have h3 := hsz.2
  have hempty : (c._runs = [] ∧ c.size < new_size) ↔ (c.size = 0 ∧ 0 < new_size) := by
    unfold basic_rle.size
    constructor
    · rintro ⟨he, hlt⟩
      rw [he] at h2
      simp only [sumLen_nil] at h2
      omega
    · rintro ⟨hs, hlt⟩
      exact ⟨sumLen_eq_zero hnz (by omega), by omega⟩
  have hzero : (c.resize_trailing_extent w 0).1 = .ok () := by
    rw [resize_eq w c hnz hsz 0 (Nat.pos_pow_of_pos w (by decide))]
    simp
  refine ⟨?_, hempty, ?_, ?_, fun _ => hzero⟩
  all_goals
    rw [resize_eq w c hnz hsz new_size hn]
    try simp only [basic_rle.size]
    by_cases h0 : new_size = 0
    · rw [if_pos h0]
      simp
      try omega
    · rw [if_neg h0]
      by_cases h1 : new_size < c._total_length
      · rw [if_pos h1]
        simp
        try omega
      · rw [if_neg h1]
        by_cases h4 : new_size > c._total_length
        · rw [if_pos h4]
          by_cases he : c._runs = []
          · rw [if_pos he]
            simp [he]
            try omega
          · rw [if_neg he]
            simp [he]
        · rw [if_neg h4]
          simp
          try omega

theorem resize_fails_iff_witness :
    Canonical 8 (⟨[], 0⟩ : basic_rle Char) ∧ (3 : Nat) < 2 ^ 8 ∧
    ((⟨[], 0⟩ : basic_rle Char).resize_trailing_extent 8 3).1 = .error .invalid :=
  ⟨by decide, by decide,
    (resize_fails_iff 8 (⟨[], 0⟩ : basic_rle Char) (by decide) 3 (by decide)).1.mpr
      ⟨rfl, by decide⟩⟩

/-- C18: for every non-empty canonical container `c` and every `new_size` of
the size type with `new_size > c.size()`: `c.resize_trailing_extent new_size`
succeeds, the run list afterwards is the old one with only the last run's
length increased by `new_size - c.size()`, `at(i)` keeps its old value for
`i < c.size()`, and `at(i)` equals the old last element for
`c.size() ≤ i < new_size`. -/
theorem resize_grow (w : Nat) (c : basic_rle T) (hc : Canonical w c) (new_size : Nat)
    (hn : new_size < 2 ^ w) (hne : 0 < c.size) (hgt : c.size < new_size) :
    (c.resize_trailing_extent w new_size).1 = .ok () ∧
    (∃ P last, c._runs = P ++ [last] ∧
      (c.resize_trailing_extent w new_size).2._runs
        = P ++ [⟨last.value, last.length + (new_size - c.size)⟩]) ∧
    (∀ i, i < c.size → ∃ v, c.at w i = .ok v ∧
      (c.resize_trailing_extent w new_size).2.at w i = .ok v) ∧
    (∃ v, c.at w (c.size - 1) = .ok v ∧
      ∀ i, c.size ≤ i → i < new_size →
        (c.resize_trailing_extent w new_size).2.at w i = .ok v) := by
  obtain ⟨hnz, hna, hsz⟩ := hc
  have h2 := hsz.1
  have h3 := hsz.2
  unfold basic_rle.size at *
  have he : c._runs ≠ [] := by
    intro h; rw [h] at h2; simp only [sumLen_nil] at h2; omega
  rw [resize_eq w c hnz hsz new_size hn, if_neg (by omega), if_neg (by omega), if_pos hgt,
    if_neg he]
  obtain ⟨P, last, hPl⟩ : ∃ P last, c._runs = P ++ [last] :=
    ⟨c._runs.dropLast, c._runs.getLast he, (List.dropLast_append_getLast he).symm⟩
  have hlast : 0 < last.length := hnz last (by rw [hPl]; simp)
  have hsum : sumLen c._runs = sumLen P + last.length := by rw [hPl]; simp
  have hfit' : sumLen (addBack (new_size - c._total_length) c._runs) < 2 ^ w := by
    rw [sumLen_addBack _ _ he]; omega
  have hexp : expand (addBack (new_size - c._total_length) c._runs)
      = expand c._runs ++ List.replicate (new_size - c._total_length) last.value := by
    rw [hPl, expand_addBack]
  have hlen : (expand c._runs).length = c._total_length := by rw [length_expand]; omega
  have hlastv : (expand c._runs)[c._total_length - 1]? = some last.value := by
    rw [hPl, expand_append, List.getElem?_append_right (by simp; omega)]
    simp only [expand_cons, expand_nil, List.append_nil, length_expand, List.getElem?_replicate]
    rw [if_pos (by omega)]
  refine ⟨rfl, ⟨P, last, hPl, ?_⟩, ?_, ⟨last.value, ?_, ?_⟩⟩
  · simp only [hPl, addBack_concat]
  · intro i hi
    have hlt : i < (expand c._runs).length := by omega
    refine ⟨(expand c._runs)[i], ?_, ?_⟩
    · rw [at_eq w c i h3, List.getElem?_eq_getElem hlt]
    · rw [at_eq w _ i hfit']
      simp only [hexp]
      rw [List.getElem?_append_left hlt, List.getElem?_eq_getElem hlt]
  · rw [at_eq w c _ h3, hlastv]
  · intro i hi1 hi2
    rw [at_eq w _ i hfit']
    simp only [hexp]
    rw [List.getElem?_append_right (by omega), List.getElem?_replicate, if_pos (by omega)]

theorem resize_grow_witness :
    Canonical 8 (⟨[⟨'A', 2⟩, ⟨'B', 2⟩], 4⟩ : basic_rle Char) ∧ (6 : Nat) < 2 ^ 8 ∧
    0 < (⟨[⟨'A', 2⟩, ⟨'B', 2⟩], 4⟩ : basic_rle Char).size ∧
    (⟨[⟨'A', 2⟩, ⟨'B', 2⟩], 4⟩ : basic_rle Char).size < 6 ∧
    ((⟨[⟨'A', 2⟩, ⟨'B', 2⟩], 4⟩ : basic_rle Char).resize_trailing_extent 8 6).2
      = ⟨[⟨'A', 2⟩, ⟨'B', 4⟩], 6⟩ ∧
    ((⟨[⟨'A', 2⟩, ⟨'B', 4⟩], 6⟩ : basic_rle Char).resize_trailing_extent 8 3).2
      = ⟨[⟨'A', 2⟩, ⟨'B', 1⟩], 3⟩ ∧
    ((⟨[⟨'A', 2⟩, ⟨'B', 2⟩], 4⟩ : basic_rle Char).resize_trailing_extent 8 6).1 = .ok () :=
  ⟨by decide, by decide, by decide, by decide, by decide, by decide,
    (resize_grow 8 ⟨[⟨'A', 2⟩, ⟨'B', 2⟩], 4⟩ (by decide) 6 (by decide) (by decide)
      (by decide)).1⟩

end claimsI
end til

namespace til
section iterlemmas
variable {T : Type} [DecidableEq T]

omit [DecidableEq T] in
/-- Advancing by `m` from the position `usage` (1-based) of the first run of
`X` ends in the run that holds the element `usage - 1 + m` of `X`. -/
theorem advance_spec (w : Nat) (X : List (rle_pair T)) :
    ∀ (it usage m : Nat), NoZeroRun X → sumLen X < 2 ^ w → 1 ≤ usage →
      usage - 1 + m < sumLen X → (∀ r rest, X = r :: rest → usage ≤ r.length) →
      ∃ k u r, rle_iterator.advance w X it usage m = .ok ⟨it + k, u⟩ ∧ X[k]? = some r ∧
        (expand X)[usage - 1 + m]? = some r.value := by
  induction X with
  | nil => intro it usage m _ _ _ h _; simp at h
  | cons r rest ih =>
    intro it usage m hnz hfit hu hm hhead
    have hur : usage ≤ r.length := hhead r rest rfl
    obtain ⟨hr, hnz'⟩ := hnz.cons
    simp only [sumLen_cons] at hfit hm
    cases m with
    | zero =>
      refine ⟨0, usage, r, ?_, by simp, ?_⟩
      · simp [rle_iterator.advance, pure, Except.pure]
      · exact expand_getElem?_head r rest _ (by omega)
    | succ m =>
      have hsub : subS w r.length usage = r.length - usage := subS_eq hur (by omega)
      unfold rle_iterator.advance
      simp only [hsub]
      by_cases hs : r.length - usage ≥ m + 1
      · rw [if_pos hs]
        refine ⟨0, _, r, rfl, by simp, ?_⟩
        exact expand_getElem?_head r rest _ (by omega)
      · rw [if_neg hs]
        obtain ⟨k, u, r', h1, h2, h3⟩ :=
          ih (it + 1) 1 (m + 1 - (r.length - usage + 1)) hnz' (by omega) (le_refl 1)
            (by omega) (fun r' rest' h => by
              have := hnz' r' (by rw [h]; simp)
              omega)
        refine ⟨k + 1, u, r', ?_, by simpa using h2, ?_⟩
        · rw [h1]
          have : it + 1 + k = it + (k + 1) := by omega
          rw [this]
        · rw [expand_cons, List.getElem?_append_right (by simp; omega)]
          simp only [List.length_replicate]
          have hidx : usage - 1 + (m + 1) - r.length = 1 - 1 + (m + 1 - (r.length - usage + 1)) := by
            omega
          rw [hidx]
          exact h3

omit [DecidableEq T] in
theorem subS_one_one (w : Nat) : subS w 1 1 = 0 := by
  by_cases h : 1 < 2 ^ w
  · rw [subS_eq (le_refl 1) h]
  · have hpos : 0 < 2 ^ w := Nat.pos_pow_of_pos w (by decide)
    have h1 : 2 ^ w = 1 := by omega
    unfold subS
    rw [h1]

omit [DecidableEq T] in
/-- The first loop of the iterator difference, started at the first position of
a run, adds up the lengths of the runs it passes. -/
theorem diffUp_all (w it : Nat) (X : List (rle_pair T)) :
    ∀ (tmp_it : Nat) (acc : difference_type), it = tmp_it + X.length → NoZeroRun X →
      sumLen X < 2 ^ w →
      rle_iterator.diffUp w it X tmp_it 1 acc = .ok (⟨it, 1⟩, acc + (sumLen X : Nat)) := by
  induction X with
  | nil =>
    intro tmp_it acc hit _ _
    simp only [List.length_nil, Nat.add_zero] at hit
    subst hit
    simp [rle_iterator.diffUp, pure, Except.pure]
  | cons r rest ih =>
    intro tmp_it acc hit hnz hfit
    obtain ⟨hr, hnz'⟩ := hnz.cons
    simp only [sumLen_cons] at hfit
    simp only [List.length_cons] at hit
    unfold rle_iterator.diffUp
    rw [if_pos (by omega)]
    have hsub : subS w r.length 1 = r.length - 1 := subS_eq (by omega) (by omega)
    have hadd : addS w (r.length - 1) 1 = r.length := by
      rw [addS_eq (by omega)]; omega
    rw [hsub, hadd, ih (tmp_it + 1) _ (by omega) hnz' (by omega)]
    simp only [sumLen_cons, Nat.cast_add]
    rw [Int.add_assoc]

omit [DecidableEq T] in
theorem diffDown_stop (it usage : Nat) (L : List (rle_pair T)) (tmp_it tmp_usage : Nat)
    (acc : difference_type) (h : ¬ it < tmp_it) :
    rle_iterator.diffDown it usage L tmp_it tmp_usage acc = .ok (⟨tmp_it, tmp_usage⟩, acc) := by
  cases L <;> simp [rle_iterator.diffDown, h, pure, Except.pure]

end iterlemmas

section claimsJ
variable {T : Type} [DecidableEq T]

omit [DecidableEq T] in
/-- C19: for every canonical container `c` and every `i < c.size()`, the
iterator `begin() + i` exists and dereferencing it yields the element
`c.at(i)`. -/
theorem iterator_deref_at (w : Nat) (c : basic_rle T) (hc : Canonical w c) (i : Nat)
    (hi : i < c.size) :
    ∃ it v, c.begin.add w c._runs (i : Int) = .ok it ∧ it.deref c._runs = .ok v ∧
      c.at w i = .ok v := by
  obtain ⟨hnz, _, hsz⟩ := hc
  have h2 := hsz.1
  have h3 := hsz.2
  unfold basic_rle.size at hi
  obtain ⟨k, u, r, h1, hk, hv⟩ :=
    advance_spec w c._runs 0 1 i hnz h3 (le_refl 1) (by omega)
      (fun r rest h => hnz r (by rw [h]; simp))
  refine ⟨⟨0 + k, u⟩, r.value, ?_, ?_, ?_⟩
  · unfold rle_iterator.add rle_iterator.addAssign basic_rle.begin
    rw [if_pos (Int.ofNat_nonneg i)]
    simp only [List.drop_zero, Int.toNat_ofNat]
    exact h1
  · simp [rle_iterator.deref, getRun, hk, Except.map]
  · rw [at_eq w c i h3]
    simp only [Nat.sub_self, Nat.zero_add] at hv
    rw [hv]

theorem iterator_deref_at_witness :
    Canonical 8 (⟨[⟨'A', 2⟩, ⟨'B', 1⟩, ⟨'C', 3⟩], 6⟩ : basic_rle Char) ∧
    3 < (⟨[⟨'A', 2⟩, ⟨'B', 1⟩, ⟨'C', 3⟩], 6⟩ : basic_rle Char).size ∧
    ∃ it v, (⟨[⟨'A', 2⟩, ⟨'B', 1⟩, ⟨'C', 3⟩], 6⟩ : basic_rle Char).begin.add 8
        [⟨'A', 2⟩, ⟨'B', 1⟩, ⟨'C', 3⟩] ((3 : Nat) : Int) = .ok it ∧
      it.deref [⟨'A', 2⟩, ⟨'B', 1⟩, ⟨'C', 3⟩] = .ok v ∧
      (⟨[⟨'A', 2⟩, ⟨'B', 1⟩, ⟨'C', 3⟩], 6⟩ : basic_rle Char).at 8 3 = .ok v :=
  ⟨by decide, by decide,
    iterator_deref_at 8 ⟨[⟨'A', 2⟩, ⟨'B', 1⟩, ⟨'C', 3⟩], 6⟩ (by decide) 3 (by decide)⟩

omit [DecidableEq T] in
/-- C20: for every canonical container `c`, the empty one included, the
iterator difference `end() - begin()` is computed and equals `c.size()`. -/
theorem iterator_end_minus_begin (w : Nat) (c : basic_rle T) (hc : Canonical w c) :
    c.end_.diff w c._runs c.begin = .ok (c.size : Int) := by
  obtain ⟨hnz, _, hsz⟩ := hc
  have h2 := hsz.1
  have h3 := hsz.2
  unfold rle_iterator.diff basic_rle.end_ basic_rle.begin basic_rle.size
  simp only [List.drop_zero]
  rw [diffUp_all w c._runs.length c._runs 0 0 (by simp) hnz h3]
  simp only [bind, Except.bind]
  rw [diffDown_stop _ _ _ _ _ _ (by simp)]
  simp only [subS_one_one, pure, Except.pure, h2]
  simp

theorem iterator_end_minus_begin_witness :
    Canonical 8 (⟨[⟨'A', 2⟩, ⟨'B', 1⟩, ⟨'C', 3⟩], 6⟩ : basic_rle Char) ∧
    (⟨[⟨'A', 2⟩, ⟨'B', 1⟩, ⟨'C', 3⟩], 6⟩ : basic_rle Char).end_.diff 8
        [⟨'A', 2⟩, ⟨'B', 1⟩, ⟨'C', 3⟩] (⟨[⟨'A', 2⟩, ⟨'B', 1⟩, ⟨'C', 3⟩], 6⟩ : basic_rle Char).begin
      = .ok 6 :=
  ⟨by decide, iterator_end_minus_begin 8 ⟨[⟨'A', 2⟩, ⟨'B', 1⟩, ⟨'C', 3⟩], 6⟩ (by decide)⟩

end claimsJ
end til

namespace til
section claimsK
variable {T : Type} [DecidableEq T]

omit [DecidableEq T] in
/-- C22: for every `length` of the size type and every `value`, the container
constructed from `(length, value)` has `size() = length`, has the single run
`(value, length)` when `length > 0` and no runs when `length = 0`, is
canonical, and `at(i)` is `value` for every `i < length`. -/
theorem construct_spec (w : Nat) (length : Nat) (value : T) (hl : length < 2 ^ w) :
    (basic_rle.construct length value).size = length ∧
    (0 < length → (basic_rle.construct length value)._runs = [⟨value, length⟩]) ∧
    (length = 0 → (basic_rle.construct length value)._runs = []) ∧
    Canonical w (basic_rle.construct length value) ∧
    ∀ i, i < length → (basic_rle.construct length value).at w i = .ok value := by
  by_cases h0 : length = 0
  · subst h0
    refine ⟨rfl, fun h => absurd h (by omega), fun _ => rfl, ?_, fun i hi => absurd hi (by omega)⟩
    refine ⟨?_, ?_, rfl, ?_⟩
    · intro r hr; simp [basic_rle.construct] at hr
    · simp [basic_rle.construct, NoAdjacentEqual]
    · simp [basic_rle.construct]
  · have hruns : (basic_rle.construct length value)._runs = [⟨value, length⟩] := by
      simp [basic_rle.construct, h0]
    have hsum : sumLen (basic_rle.construct length value)._runs = length := by
      rw [hruns]; simp
    refine ⟨rfl, fun _ => hruns, fun h => absurd h h0, ?_, ?_⟩
    · refine ⟨?_, ?_, ?_, ?_⟩
      · rw [hruns]
        intro r hr
        simp only [List.mem_singleton] at hr
        subst hr
        simp only []; omega
      · rw [hruns]; simp [NoAdjacentEqual]
      · rw [hsum]; rfl
      · rw [hsum]; exact hl
    · intro i hi
      rw [at_eq w _ i (by rw [hsum]; exact hl), hruns]
      simp only [expand_cons, expand_nil, List.append_nil, List.getElem?_replicate]
      rw [if_pos hi]

theorem construct_spec_witness :
    (5 : Nat) < 2 ^ 8 ∧
    (basic_rle.construct 5 'A' : basic_rle Char) = ⟨[⟨'A', 5⟩], 5⟩ ∧
    (basic_rle.construct 5 'A' : basic_rle Char).at 8 3 = .ok 'A' :=
  ⟨by decide, by decide, (construct_spec 8 5 'A' (by decide)).2.2.2.2 3 (by decide)⟩

omit [DecidableEq T] in
/-- C23: for every run list whose total length `N` is a value of the size type
and every index `i`, the pair `(k, off)` returned by `scan(i)` of a fresh
scanner is: for `i < N`, the first run `k` whose cumulative end exceeds `i`
(the cumulative end of every earlier run is at most `i`) with
`off = i - (sum of the lengths of the runs before k)` and `off < runs[k].length`;
for `i ≥ N`, the position after the last run with offset 0. -/
theorem scan_spec (w : Nat) (runs : List (rle_pair T)) (hfit : sumLen runs < 2 ^ w) (i : Nat) :
    (i < sumLen runs →
      ∃ r, runs[(rle_scanner.scan w runs ⟨0, 0⟩ i).2.1]? = some r ∧
        sumLen (runs.take (rle_scanner.scan w runs ⟨0, 0⟩ i).2.1) ≤ i ∧
        i < sumLen (runs.take ((rle_scanner.scan w runs ⟨0, 0⟩ i).2.1 + 1)) ∧
        (∀ k', k' < (rle_scanner.scan w runs ⟨0, 0⟩ i).2.1 → sumLen (runs.take (k' + 1)) ≤ i) ∧
        (rle_scanner.scan w runs ⟨0, 0⟩ i).2.2
          = i - sumLen (runs.take (rle_scanner.scan w runs ⟨0, 0⟩ i).2.1) ∧
        (rle_scanner.scan w runs ⟨0, 0⟩ i).2.2 < r.length) ∧
    (sumLen runs ≤ i →
      (rle_scanner.scan w runs ⟨0, 0⟩ i).2.1 = runs.length ∧
      (rle_scanner.scan w runs ⟨0, 0⟩ i).2.2 = 0) := by
  obtain ⟨pre, post, p, hsplit, hscan, hle, hcase⟩ :=
    scanLoop_spec w i runs 0 0 (by simpa using hfit) (Nat.zero_le _)
  subst hsplit
  simp only [rle_scanner.scan, List.drop_zero, hscan, Nat.zero_add] at hle ⊢
  rcases hcase with ⟨rfl, hp⟩ | ⟨r, post', rfl, hlt2, hp⟩
  · simp only [List.append_nil] at hle ⊢
    exact ⟨fun h => absurd h (by omega), fun _ => ⟨trivial, hp⟩⟩
  · simp only [Nat.zero_add] at hlt2 hp
    refine ⟨fun _ => ⟨r, getElem?_app pre post' r, ?_, ?_, ?_, ?_, ?_⟩, fun h => ?_⟩
    · rw [take_app _ _ _ rfl]; exact hle
    · rw [sumLen_take_succ _ _ r (getElem?_app pre post' r), take_app _ _ _ rfl]; exact hlt2
    · intro k' hk'
      have := sumLen_take_mono (pre ++ r :: post') (k' + 1) pre.length (by omega)
      rw [take_app _ _ _ rfl] at this
      omega
    · rw [take_app _ _ _ rfl]; exact hp
    · omega
    · simp only [sumLen_append, sumLen_cons] at h
      omega

theorem scan_spec_witness :
    sumLen [(⟨'A', 2⟩ : rle_pair Char), ⟨'B', 1⟩, ⟨'C', 3⟩] < 2 ^ 8 ∧
    (sumLen [(⟨'A', 2⟩ : rle_pair Char), ⟨'B', 1⟩, ⟨'C', 3⟩] ≤ 6 →
      (rle_scanner.scan 8 [(⟨'A', 2⟩ : rle_pair Char), ⟨'B', 1⟩, ⟨'C', 3⟩] ⟨0, 0⟩ 6).2.1
        = [(⟨'A', 2⟩ : rle_pair Char), ⟨'B', 1⟩, ⟨'C', 3⟩].length ∧
      (rle_scanner.scan 8 [(⟨'A', 2⟩ : rle_pair Char), ⟨'B', 1⟩, ⟨'C', 3⟩] ⟨0, 0⟩ 6).2.2 = 0) ∧
    (rle_scanner.scan 8 [(⟨'A', 2⟩ : rle_pair Char), ⟨'B', 1⟩, ⟨'C', 3⟩] ⟨0, 0⟩ 4).2 = (2, 1) :=
  ⟨by decide,
    (scan_spec 8 [(⟨'A', 2⟩ : rle_pair Char), ⟨'B', 1⟩, ⟨'C', 3⟩] (by decide) 6).2,
    by decide⟩

/-- C27: for every canonical container `c` and every `new_size ≤ c.size()`:
`c.resize_trailing_extent new_size` succeeds and leaves `c` equal
(`operator==`) to the container that `c.slice 0 new_size` returns before the
call, the cases `new_size = 0` and `new_size = c.size()` included. -/
theorem resize_shrink_eq_slice (w : Nat) (c : basic_rle T) (hc : Canonical w c)
    (new_size : Nat) (h : new_size ≤ c.size) :
    ∃ s, c.slice w 0 new_size = .ok s ∧
      (c.resize_trailing_extent w new_size).1 = .ok () ∧
      (c.resize_trailing_extent w new_size).2.beq s = true := by
  obtain ⟨hnz, _, hsz⟩ := hc
  have h2 := hsz.1
  have h3 := hsz.2
  unfold basic_rle.size at h
  refine ⟨_, slice_ok w c hnz hsz 0 new_size, ?_⟩
  rw [resize_eq w c hnz hsz new_size (by omega)]
  have hmin : min new_size c.size = new_size := by unfold basic_rle.size; omega
  simp only [hmin, Nat.sub_zero, dropRuns_zero _ hnz]
  by_cases h0 : new_size = 0
  · subst h0
    simp [basic_rle.beq, takeRuns_zero]
  · rw [if_neg h0]
    by_cases h1 : new_size < c._total_length
    · rw [if_pos h1]
      simp [basic_rle.beq]
    · rw [if_neg h1, if_neg (by omega)]
      have heq : new_size = sumLen c._runs := by omega
      rw [heq, takeRuns_all _ hnz]
      simp [basic_rle.beq, h2]

theorem resize_shrink_eq_slice_witness :
    Canonical 8 (⟨[⟨'A', 2⟩, ⟨'B', 4⟩], 6⟩ : basic_rle Char) ∧
    3 ≤ (⟨[⟨'A', 2⟩, ⟨'B', 4⟩], 6⟩ : basic_rle Char).size ∧
    ∃ s, (⟨[⟨'A', 2⟩, ⟨'B', 4⟩], 6⟩ : basic_rle Char).slice 8 0 3 = .ok s ∧
      ((⟨[⟨'A', 2⟩, ⟨'B', 4⟩], 6⟩ : basic_rle Char).resize_trailing_extent 8 3).1 = .ok () ∧
      ((⟨[⟨'A', 2⟩, ⟨'B', 4⟩], 6⟩ : basic_rle Char).resize_trailing_extent 8 3).2.beq s = true :=
  ⟨by decide, by decide,
    resize_shrink_eq_slice 8 ⟨[⟨'A', 2⟩, ⟨'B', 4⟩], 6⟩ (by decide) 3 (by decide)⟩

/-- C28: for all canonical containers `a` and `b`: `a == b` holds if and only
if `a.size() = b.size()` and `a.at(i) = b.at(i)` for every `i < a.size()`; and
two canonical containers with the same logical sequence have the same run
list. -/
theorem beq_iff_same_sequence (w : Nat) (a b : basic_rle T) (ha : Canonical w a)
    (hb : Canonical w b) :
    (a.beq b = true ↔ (a.size = b.size ∧ ∀ i, i < a.size → a.at w i = b.at w i)) ∧
    (expand a._runs = expand b._runs → a._runs = b._runs) := by
  obtain ⟨hnza, hnaa, hsza⟩ := ha
  obtain ⟨hnzb, hnab, hszb⟩ := hb
  have huniq : expand a._runs = expand b._runs → a._runs = b._runs :=
    canonical_unique _ _ hnza hnaa hnzb hnab
  refine ⟨⟨?_, ?_⟩, huniq⟩
  · intro h
    have hab : a = b := by
      obtain ⟨ra, ta⟩ := a
      obtain ⟨rb, tb⟩ := b
      simp only [basic_rle.beq, Bool.and_eq_true, decide_eq_true_eq] at h
      rw [h.1, h.2]
    subst hab
    exact ⟨rfl, fun _ _ => rfl⟩
  · rintro ⟨hsize, hat⟩
    unfold basic_rle.size at hsize hat
    have hlena : (expand a._runs).length = a._total_length := by
      rw [length_expand]; exact hsza.1.symm
    have hlenb : (expand b._runs).length = b._total_length := by
      rw [length_expand]; exact hszb.1.symm
    have hexp : expand a._runs = expand b._runs := by
      apply List.ext_getElem (by omega)
      intro i h1 h2
      have hi := hat i (by omega)
      rw [at_eq w a i hsza.2, at_eq w b i hszb.2, List.getElem?_eq_getElem h1,
        List.getElem?_eq_getElem h2] at hi
      simpa using hi
    have hruns := huniq hexp
    simp only [basic_rle.beq, Bool.and_eq_true, decide_eq_true_eq]
    exact ⟨hsize, hruns⟩

theorem beq_iff_same_sequence_witness :
    Canonical 8 (⟨[⟨'A', 2⟩, ⟨'B', 4⟩], 6⟩ : basic_rle Char) ∧
    ((⟨[⟨'A', 2⟩, ⟨'B', 4⟩], 6⟩ : basic_rle Char).beq ⟨[⟨'A', 2⟩, ⟨'B', 4⟩], 6⟩ = true ↔
      ((⟨[⟨'A', 2⟩, ⟨'B', 4⟩], 6⟩ : basic_rle Char).size
          = (⟨[⟨'A', 2⟩, ⟨'B', 4⟩], 6⟩ : basic_rle Char).size ∧
        ∀ i, i < (⟨[⟨'A', 2⟩, ⟨'B', 4⟩], 6⟩ : basic_rle Char).size →
          (⟨[⟨'A', 2⟩, ⟨'B', 4⟩], 6⟩ : basic_rle Char).at 8 i
            = (⟨[⟨'A', 2⟩, ⟨'B', 4⟩], 6⟩ : basic_rle Char).at 8 i)) :=
  ⟨by decide,
    (beq_iff_same_sequence 8 ⟨[⟨'A', 2⟩, ⟨'B', 4⟩], 6⟩ ⟨[⟨'A', 2⟩, ⟨'B', 4⟩], 6⟩ (by decide)
      (by decide)).1⟩

end claimsK
end til

namespace til
section cursorlemmas
variable {T : Type} [DecidableEq T]

omit [DecidableEq T] in
theorem cursorAt_append_lt (A B : List (rle_pair T)) :
    ∀ (it t : Nat), t < sumLen A → cursorAt (A ++ B) it t = cursorAt A it t := by
  induction A with
  | nil => intro it t h; simp at h
  | cons a A ih =>
    intro it t h
    simp only [sumLen_cons] at h
    simp only [List.cons_append, cursorAt, List.append_eq]
    by_cases h1 : t < a.length
    · rw [if_pos h1, if_pos h1]
    · rw [if_neg h1, if_neg h1]
      exact ih _ _ (by omega)

omit [DecidableEq T] in
theorem cursorAt_append_ge (A B : List (rle_pair T)) :
    ∀ (it t : Nat), sumLen A ≤ t →
      cursorAt (A ++ B) it t = cursorAt B (it + A.length) (t - sumLen A) := by
  induction A with
  | nil => intro it t _; simp
  | cons a A ih =>
    intro it t h
    simp only [sumLen_cons] at h
    simp only [List.cons_append, cursorAt, List.append_eq]
    rw [if_neg (by omega), ih (it + 1) (t - a.length) (by omega)]
    simp only [List.length_cons, sumLen_cons]
    have h1 : it + 1 + A.length = it + (A.length + 1) := by omega
    have h2 : t - a.length - sumLen A = t - (a.length + sumLen A) := by omega
    rw [h1, h2]

omit [DecidableEq T] in
/-- The cursor of a position is either inside a run, or the position after the
last run. -/
theorem cursorAt_cases (X : List (rle_pair T)) (t : Nat) :
    (∃ pre r post p, X = pre ++ r :: post ∧ t = sumLen pre + p ∧ p < r.length ∧
      cursorAt X 0 t = ⟨pre.length, p + 1⟩) ∨
    (sumLen X ≤ t ∧ cursorAt X 0 t = ⟨X.length, 1⟩) := by
  induction X using List.reverseRecOn with
  | nil => right; simp [cursorAt]
  | append_singleton X r ih =>
    by_cases h : t < sumLen X
    · rcases ih with ⟨pre, r', post, p, hX, ht, hp, hc⟩ | ⟨hle, _⟩
      · left
        refine ⟨pre, r', post ++ [r], p, by rw [hX]; simp, ht, hp, ?_⟩
        rw [cursorAt_append_lt _ _ _ _ h, hc]
      · omega
    · rw [cursorAt_append_ge _ _ _ _ (by omega)]
      simp only [cursorAt, Nat.zero_add]
      by_cases h1 : t - sumLen X < r.length
      · left
        exact ⟨X, r, [], t - sumLen X, rfl, by omega, h1, by rw [if_pos h1]⟩
      · right
        rw [if_neg h1]
        simp only [sumLen_append, sumLen_cons, sumLen_nil, List.length_append, List.length_cons,
          List.length_nil]
        exact ⟨by omega, trivial⟩

omit [DecidableEq T] in
/-- The scanner's result for `i` is the cursor of position `i`, up to the
1-based usage. -/
theorem cursorAt_scanLoop (w index : Nat) (rs : List (rle_pair T)) :
    ∀ (it total : Nat), total + sumLen rs < 2 ^ w → total ≤ index →
      cursorAt rs it (index - total)
        = ⟨(rle_scanner.scanLoop w index rs it total).1,
            (rle_scanner.scanLoop w index rs it total).2.2 + 1⟩ := by
  induction rs with
  | nil => intro it total _ _; simp [cursorAt, rle_scanner.scanLoop]
  | cons r rs ih =>
    intro it total hfit hle
    simp only [sumLen_cons] at hfit
    have hadd : addS w total r.length = total + r.length := addS_eq (by omega)
    simp only [cursorAt, rle_scanner.scanLoop, hadd]
    by_cases h : total + r.length > index
    · rw [if_pos h, if_pos (by omega)]
      have hidx : index < 2 ^ w := by omega
      rw [subS_eq hle hidx]
    · rw [if_neg h, if_neg (by omega)]
      have := ih (it + 1) (total + r.length) (by omega) (by omega)
      rw [← this]
      congr 1
      omega

omit [DecidableEq T] in
/-- Advancing by `m` from the position `usage` (1-based) of the first run of
`X` yields the cursor of the position `usage - 1 + m` of `X`. -/
theorem advance_cursor (w : Nat) (X : List (rle_pair T)) :
    ∀ (it usage m : Nat), NoZeroRun X → sumLen X < 2 ^ w → usage - 1 + m ≤ sumLen X →
      1 ≤ usage → (∀ r rest, X = r :: rest → usage ≤ r.length) → (X = [] → usage = 1) →
      rle_iterator.advance w X it usage m = .ok (cursorAt X it (usage - 1 + m)) := by
  induction X with
  | nil =>
    intro it usage m _ _ hm _ _ hu
    have hu1 := hu rfl
    subst hu1
    simp only [sumLen_nil] at hm
    have : m = 0 := by omega
    subst this
    simp [rle_iterator.advance, cursorAt, pure, Except.pure]
  | cons r rest ih =>
    intro it usage m hnz hfit hm hu hhead _
    have hur : usage ≤ r.length := hhead r rest rfl
    obtain ⟨hr, hnz'⟩ := hnz.cons
    simp only [sumLen_cons] at hfit hm
    cases m with
    | zero =>
      simp only [rle_iterator.advance, pure, Except.pure, Nat.add_zero, cursorAt]
      rw [if_pos (by omega)]
      have : usage - 1 + 1 = usage := by omega
      rw [this]
    | succ m =>
      have hsub : subS w r.length usage = r.length - usage := subS_eq hur (by omega)
      unfold rle_iterator.advance
      simp only [hsub, cursorAt]
      by_cases hs : r.length - usage ≥ m + 1
      · rw [if_pos hs, if_pos (by omega)]
        have hadd : addS w usage (m + 1) = usage + (m + 1) := addS_eq (by omega)
        rw [hadd]
        have : usage - 1 + (m + 1) + 1 = usage + (m + 1) := by omega
        rw [this]
        rfl
      · rw [if_neg hs, if_neg (by omega)]
        rw [ih (it + 1) 1 (m + 1 - (r.length - usage + 1)) hnz' (by omega) (by omega) (le_refl 1)
          (fun r' rest' h => hnz' r' (by rw [h]; simp)) (fun _ => rfl)]
        congr 2
        omega

omit [DecidableEq T] in
/-- Moving back by `d` from the position `usage` (1-based) of the run that
follows the runs `P` stays in that run when `d < usage`, and otherwise yields
the cursor of the position `sumLen P + usage - 1 - d` of `P`. -/
theorem retreat_cursor (w : Nat) (P : List (rle_pair T)) :
    ∀ (usage d : Nat), NoZeroRun P → sumLen P < 2 ^ w → 1 ≤ usage → usage < 2 ^ w →
      d ≤ sumLen P + (usage - 1) →
      rle_iterator.retreat w P.reverse P.length usage d
        = .ok (if d ≤ usage - 1 then ⟨P.length, usage - d⟩
            else cursorAt P 0 (sumLen P + (usage - 1) - d)) := by
  induction P using List.reverseRecOn with
  | nil =>
    intro usage d _ _ hu hu2 hd
    simp only [sumLen_nil, Nat.zero_add] at hd
    rw [if_pos hd]
    cases d with
    | zero => simp [rle_iterator.retreat, pure, Except.pure]
    | succ d =>
      have hsub1 : subS w usage 1 = usage - 1 := subS_eq hu hu2
      have hsub2 : subS w usage (d + 1) = usage - (d + 1) := subS_eq (by omega) hu2
      simp only [List.reverse_nil, List.length_nil, rle_iterator.retreat, hsub1, hsub2]
      rw [if_pos (by omega)]
      rfl
  | append_singleton P r ih =>
    intro usage d hnz hfit hu hu2 hd
    have hnzP : NoZeroRun P := hnz.append_left
    have hr : 0 < r.length := hnz r (by simp)
    simp only [sumLen_append, sumLen_cons, sumLen_nil, Nat.add_zero] at hfit hd ⊢
    simp only [List.reverse_append, List.reverse_cons, List.reverse_nil, List.nil_append,
      List.singleton_append, List.length_append, List.length_cons, List.length_nil]
    cases d with
    | zero =>
      simp [rle_iterator.retreat, pure, Except.pure]
    | succ d =>
      have hsub1 : subS w usage 1 = usage - 1 := subS_eq hu hu2
      unfold rle_iterator.retreat
      simp only [hsub1]
      by_cases hs : usage - 1 ≥ d + 1
      · have hsub2 : subS w usage (d + 1) = usage - (d + 1) := subS_eq (by omega) hu2
        rw [if_pos hs, if_pos (by omega), hsub2]
        rfl
      · rw [if_neg hs, if_neg (by omega)]
        have hlen : P.length + 0 + 1 - 1 = P.length := by omega
        simp only [Nat.zero_add, Nat.add_sub_cancel] at hlen ⊢
        rw [ih r.length (d + 1 - usage) hnzP (by omega) hr (by omega) (by omega)]
        congr 1
        by_cases h2 : d + 1 - usage ≤ r.length - 1
        · rw [if_pos h2, cursorAt_append_ge _ _ _ _ (by omega)]
          simp only [cursorAt, Nat.zero_add]
          rw [if_pos (by omega)]
          congr 1
          omega
        · rw [if_neg h2, cursorAt_append_lt _ _ _ _ (by omega)]
          congr 1
          omega

end cursorlemmas
end til

namespace til
section iterops
variable {T : Type} [DecidableEq T]

omit [DecidableEq T] in
theorem expand_getElem?_app (pre post : List (rle_pair T)) (r : rle_pair T) (p : Nat)
    (hp : p < r.length) : (expand (pre ++ r :: post))[sumLen pre + p]? = some r.value := by
  simp only [expand_append, expand_cons]
  rw [List.getElem?_append_right (by simp)]
  rw [List.getElem?_append_left (by simp; omega)]
  simp only [length_expand]
  rw [List.getElem?_replicate]
  simp; omega

omit [DecidableEq T] in
theorem advance_zero (w : Nat) (X : List (rle_pair T)) (it usage : Nat) :
    rle_iterator.advance w X it usage 0 = .ok ⟨it, usage⟩ := by
  cases X <;> simp [rle_iterator.advance, pure, Except.pure]

omit [DecidableEq T] in
theorem cursorAt_zero (runs : List (rle_pair T)) (hnz : NoZeroRun runs) :
    cursorAt runs 0 0 = ⟨0, 1⟩ := by
  cases runs with
  | nil => rfl
  | cons r rest =>
    have := (hnz.cons).1
    simp [cursorAt, this]

omit [DecidableEq T] in
theorem cursorAt_end (runs : List (rle_pair T)) :
    cursorAt runs 0 (sumLen runs) = ⟨runs.length, 1⟩ := by
  have := cursorAt_append_ge runs [] 0 (sumLen runs) (le_refl _)
  simpa [cursorAt] using this

omit [DecidableEq T] in
/-- The operator `+=` with a non-negative move, applied to the cursor of
position `i`, yields the cursor of position `i + m`. -/
theorem addAssign_cursor (w : Nat) (runs : List (rle_pair T)) (hnz : NoZeroRun runs)
    (hfit : sumLen runs < 2 ^ w) (i m : Nat) (him : i + m ≤ sumLen runs) :
    (cursorAt runs 0 i).addAssign w runs (m : Int) = .ok (cursorAt runs 0 (i + m)) := by
  unfold rle_iterator.addAssign
  rw [if_pos (Int.ofNat_nonneg m)]
  simp only [Int.toNat_ofNat]
  rcases cursorAt_cases runs i with ⟨pre, r, post, p, hX, ht, hp, hc⟩ | ⟨hle, hc⟩
  · rw [hc]
    subst hX ht
    simp only [sumLen_append, sumLen_cons] at hfit him
    simp only [drop_app _ _ _ rfl]
    have hnz' : NoZeroRun (r :: post) := hnz.append_right
    rw [advance_cursor w (r :: post) pre.length (p + 1) m hnz' (by simp; omega)
      (by simp; omega) (by omega) (fun r' rest' h => by
        simp only [List.cons.injEq] at h
        rw [← h.1]; omega) (fun h => by simp at h)]
    rw [cursorAt_append_ge _ _ _ _ (by omega), Nat.zero_add]
    have hidx : p + 1 - 1 + m = sumLen pre + p + m - sumLen pre := by omega
    rw [hidx]
  · rw [hc]
    have hm : m = 0 := by omega
    subst hm
    rw [advance_zero, Nat.add_zero, hc]

omit [DecidableEq T] in
/-- The operator `-=` with a non-negative offset, applied to the cursor of
position `i`, yields the cursor of position `i - d`. -/
theorem subAssign_cursor (w : Nat) (runs : List (rle_pair T)) (hnz : NoZeroRun runs)
    (hfit : sumLen runs < 2 ^ w) (i d : Nat) (hd : d ≤ i) (hi : i ≤ sumLen runs) :
    (cursorAt runs 0 i).subAssign w runs (d : Int) = .ok (cursorAt runs 0 (i - d)) := by
  unfold rle_iterator.subAssign rle_iterator.addAssign
  cases d with
  | zero =>
    simp only [Nat.cast_zero, neg_zero, ge_iff_le, le_refl, if_true, Int.toNat_zero,
      advance_zero, Nat.sub_zero]
  | succ d =>
    have hneg : ¬ (-((d + 1 : Nat) : Int) ≥ 0) := by omega
    rw [if_neg hneg]
    have hto : (- -((d + 1 : Nat) : Int)).toNat = d + 1 := by
      rw [neg_neg]; exact Int.toNat_ofNat _
    rw [hto]
    rcases cursorAt_cases runs i with ⟨pre, r, post, p, hX, ht, hp, hc⟩ | ⟨hle, hc⟩
    · rw [hc]
      subst hX ht
      simp only [sumLen_append, sumLen_cons] at hfit hi
      simp only [take_app _ _ _ rfl]
      rw [retreat_cursor w pre (p + 1) (d + 1) hnz.append_left (by omega) (by omega) (by omega)
        (by omega)]
      congr 1
      by_cases h1 : d + 1 ≤ p + 1 - 1
      · rw [if_pos h1, cursorAt_append_ge _ _ _ _ (by omega)]
        simp only [cursorAt, Nat.zero_add]
        rw [if_pos (by omega)]
        congr 1
        omega
      · rw [if_neg h1, cursorAt_append_lt _ _ _ _ (by omega)]
        congr 1
    · rw [hc]
      have hi' : i = sumLen runs := by omega
      subst hi'
      simp only [List.take_length]
      rw [retreat_cursor w runs 1 (d + 1) hnz hfit (le_refl 1) (by omega) (by omega)]
      rw [if_neg (by omega)]
      congr 2

omit [DecidableEq T] in
/-- Applying `operator++` `n` times to `begin()` yields the cursor of position `n`. -/
theorem stepN_cursor (w : Nat) (runs : List (rle_pair T)) (hnz : NoZeroRun runs)
    (hfit : sumLen runs < 2 ^ w) (n : Nat) (hn : n ≤ sumLen runs) :
    rle_iterator.stepN w runs n ⟨0, 1⟩ = .ok (cursorAt runs 0 n) := by
  induction n with
  | zero => rw [cursorAt_zero runs hnz]; rfl
  | succ n ih =>
    unfold rle_iterator.stepN
    rw [ih (by omega)]
    simp only [bind, Except.bind, rle_iterator.increment]
    exact addAssign_cursor w runs hnz hfit n 1 hn

omit [DecidableEq T] in
/-- The iterator `begin() + i` is the cursor of position `i`. -/
theorem begin_add_eq (w : Nat) (c : basic_rle T) (hnz : NoZeroRun c._runs)
    (hfit : sumLen c._runs < 2 ^ w) (i : Nat) (hi : i ≤ sumLen c._runs) :
    c.begin.add w c._runs (i : Int) = .ok (cursorAt c._runs 0 i) := by
  have := addAssign_cursor w c._runs hnz hfit 0 i (by omega)
  rw [cursorAt_zero c._runs hnz, Nat.zero_add] at this
  exact this

end iterops
end til

namespace til
section claimsL
variable {T : Type} [DecidableEq T]

omit [DecidableEq T] in
/-- C24: for every canonical container `c` and every `i ≤ c.size()`:
`begin() + i` is the cursor `(k, off + 1)` where `(k, off)` is the result of a
fresh scanner's `scan(i)`, and for `i < c.size()` the run `k` exists and the
usage lies in `[1, runs[k].length]`; `begin() + c.size()` is `end()`; for
`i < c.size()` the iterator `begin() + i` is not equal to `end()`; and applying
`operator++` to `begin()` reaches `end()` after exactly `c.size()` steps, not
before. -/
theorem begin_add_cursor (w : Nat) (c : basic_rle T) (hc : Canonical w c) (i : Nat)
    (hi : i ≤ c.size) :
    c.begin.add w c._runs (i : Int)
      = .ok ⟨(rle_scanner.scan w c._runs ⟨0, 0⟩ i).2.1,
          (rle_scanner.scan w c._runs ⟨0, 0⟩ i).2.2 + 1⟩ ∧
    (i < c.size →
      ∃ r, c._runs[(rle_scanner.scan w c._runs ⟨0, 0⟩ i).2.1]? = some r ∧
        1 ≤ (rle_scanner.scan w c._runs ⟨0, 0⟩ i).2.2 + 1 ∧
        (rle_scanner.scan w c._runs ⟨0, 0⟩ i).2.2 + 1 ≤ r.length) ∧
    c.begin.add w c._runs (c.size : Int) = .ok c.end_ ∧
    (i < c.size →
      ∃ it, c.begin.add w c._runs (i : Int) = .ok it ∧ it.beq c.end_ = false) ∧
    rle_iterator.stepN w c._runs c.size c.begin = .ok c.end_ ∧
    (i < c.size →
      ∃ it, rle_iterator.stepN w c._runs i c.begin = .ok it ∧ it.beq c.end_ = false) := by
  obtain ⟨hnz, _, hsz⟩ := hc
  have h2 := hsz.1
  have h3 := hsz.2
  unfold basic_rle.size at *
  have hscan : cursorAt c._runs 0 i
      = ⟨(rle_scanner.scan w c._runs ⟨0, 0⟩ i).2.1,
          (rle_scanner.scan w c._runs ⟨0, 0⟩ i).2.2 + 1⟩ := by
    have := cursorAt_scanLoop w i c._runs 0 0 (by simpa using h3) (Nat.zero_le _)
    simpa [rle_scanner.scan] using this
  have hinside : i < c._total_length →
      ∃ pre r post p, c._runs = pre ++ r :: post ∧ p < r.length ∧
        cursorAt c._runs 0 i = ⟨pre.length, p + 1⟩ := by
    intro hlt
    rcases cursorAt_cases c._runs i with ⟨pre, r, post, p, hX, _, hp, hcur⟩ | ⟨hle, _⟩
    · exact ⟨pre, r, post, p, hX, hp, hcur⟩
    · omega
  have hne : i < c._total_length → (cursorAt c._runs 0 i).beq c.end_ = false := by
    intro hlt
    obtain ⟨pre, r, post, p, hX, hp, hcur⟩ := hinside hlt
    rw [hcur]
    have hlen : pre.length ≠ c._runs.length := by rw [hX]; simp
    simp [rle_iterator.beq, basic_rle.end_, hlen]
  have hend : cursorAt c._runs 0 c._total_length = c.end_ := by
    rw [h2, cursorAt_end]; rfl
  refine ⟨?_, ?_, ?_, ?_, ?_, ?_⟩
  · rw [begin_add_eq w c hnz h3 i (by omega), hscan]
  · intro hlt
    obtain ⟨pre, r, post, p, hX, hp, hcur⟩ := hinside hlt
    rw [hscan] at hcur
    simp only [rle_iterator.mk.injEq] at hcur
    refine ⟨r, ?_, by omega, by omega⟩
    rw [hcur.1, hX]
    exact getElem?_app pre post r
  · rw [begin_add_eq w c hnz h3 _ (by omega), hend]
  · intro hlt
    exact ⟨_, begin_add_eq w c hnz h3 i (by omega), hne hlt⟩
  · have := stepN_cursor w c._runs hnz h3 c._total_length (by omega)
    rw [hend] at this
    exact this
  · intro hlt
    exact ⟨_, stepN_cursor w c._runs hnz h3 i (by omega), hne hlt⟩

theorem begin_add_cursor_witness :
    Canonical 8 (⟨[⟨'A', 2⟩, ⟨'B', 1⟩, ⟨'C', 3⟩], 6⟩ : basic_rle Char) ∧
    4 ≤ (⟨[⟨'A', 2⟩, ⟨'B', 1⟩, ⟨'C', 3⟩], 6⟩ : basic_rle Char).size ∧
    (⟨[⟨'A', 2⟩, ⟨'B', 1⟩, ⟨'C', 3⟩], 6⟩ : basic_rle Char).begin.add 8
        [⟨'A', 2⟩, ⟨'B', 1⟩, ⟨'C', 3⟩] ((4 : Nat) : Int) = .ok ⟨2, 2⟩ ∧
    rle_iterator.stepN 8 [(⟨'A', 2⟩ : rle_pair Char), ⟨'B', 1⟩, ⟨'C', 3⟩]
        (⟨[⟨'A', 2⟩, ⟨'B', 1⟩, ⟨'C', 3⟩], 6⟩ : basic_rle Char).size
        (⟨[⟨'A', 2⟩, ⟨'B', 1⟩, ⟨'C', 3⟩], 6⟩ : basic_rle Char).begin
      = .ok (⟨[⟨'A', 2⟩, ⟨'B', 1⟩, ⟨'C', 3⟩], 6⟩ : basic_rle Char).end_ :=
  ⟨by decide, by decide, by rfl,
    (begin_add_cursor 8 ⟨[⟨'A', 2⟩, ⟨'B', 1⟩, ⟨'C', 3⟩], 6⟩ (by decide) 4
      (by decide)).2.2.2.2.1⟩

omit [DecidableEq T] in
/-- C25: for every canonical container `c` and all `d ≤ i ≤ c.size()`: moving
the iterator `begin() + i` back by `d`, with `operator-` or `operator-=`,
yields an iterator equal (`operator==`) to `begin() + (i - d)`, and moving that
one forward by `d` yields `begin() + i` again, so that `(it + d) - d == it`
for the iterator `it` of every position; when `c` is not empty, `end() - 1`
(and `--end()`) points at the last element `c.at(c.size() - 1)`. -/
theorem iterator_sub_offset (w : Nat) (c : basic_rle T) (hc : Canonical w c) (i d : Nat)
    (hd : d ≤ i) (hi : i ≤ c.size) :
    (∃ it it' x, c.begin.add w c._runs (i : Int) = .ok it ∧
      c.begin.add w c._runs ((i - d : Nat) : Int) = .ok it' ∧
      it.sub w c._runs (d : Int) = .ok x ∧ it.subAssign w c._runs (d : Int) = .ok x ∧
      x.beq it' = true ∧ x = it' ∧
      it'.add w c._runs (d : Int) = .ok it) ∧
    (0 < c.size →
      ∃ e v, c.end_.sub w c._runs 1 = .ok e ∧ c.end_.decrement w c._runs = .ok e ∧
        e.deref c._runs = .ok v ∧ c.at w (c.size - 1) = .ok v) := by
  obtain ⟨hnz, _, hsz⟩ := hc
  have h2 := hsz.1
  have h3 := hsz.2
  unfold basic_rle.size at *
  constructor
  · have hsub := subAssign_cursor w c._runs hnz h3 i d hd (by omega)
    refine ⟨_, _, _, begin_add_eq w c hnz h3 i (by omega),
      begin_add_eq w c hnz h3 (i - d) (by omega), hsub, hsub, ?_, rfl, ?_⟩
    · simp [rle_iterator.beq]
    · have := addAssign_cursor w c._runs hnz h3 (i - d) d (by omega)
      have hid : i - d + d = i := by omega
      rw [hid] at this
      exact this
  · intro hpos
    have hend : c.end_ = cursorAt c._runs 0 c._total_length := by
      rw [h2, cursorAt_end]; rfl
    have hsub := subAssign_cursor w c._runs hnz h3 c._total_length 1 (by omega) (by omega)
    rw [← hend] at hsub
    rcases cursorAt_cases c._runs (c._total_length - 1) with
      ⟨pre, r, post, p, hX, ht, hp, hcur⟩ | ⟨hle, _⟩
    · refine ⟨_, r.value, hsub, hsub, ?_, ?_⟩
      · rw [hcur, hX]
        simp [rle_iterator.deref, getRun_app pre post r pre.length rfl, Except.map]
      · rw [at_eq w c _ h3, ht, hX, expand_getElem?_app pre post r p hp]
    · omega

theorem iterator_sub_offset_witness :
    Canonical 8 (⟨[⟨'A', 2⟩, ⟨'B', 1⟩, ⟨'C', 3⟩], 6⟩ : basic_rle Char) ∧ 3 ≤ 5 ∧
    5 ≤ (⟨[⟨'A', 2⟩, ⟨'B', 1⟩, ⟨'C', 3⟩], 6⟩ : basic_rle Char).size ∧
    (0 < (⟨[⟨'A', 2⟩, ⟨'B', 1⟩, ⟨'C', 3⟩], 6⟩ : basic_rle Char).size →
      ∃ e v, (⟨[⟨'A', 2⟩, ⟨'B', 1⟩, ⟨'C', 3⟩], 6⟩ : basic_rle Char).end_.sub 8
          [⟨'A', 2⟩, ⟨'B', 1⟩, ⟨'C', 3⟩] 1 = .ok e ∧
        (⟨[⟨'A', 2⟩, ⟨'B', 1⟩, ⟨'C', 3⟩], 6⟩ : basic_rle Char).end_.decrement 8
          [⟨'A', 2⟩, ⟨'B', 1⟩, ⟨'C', 3⟩] = .ok e ∧
        e.deref [⟨'A', 2⟩, ⟨'B', 1⟩, ⟨'C', 3⟩] = .ok v ∧
        (⟨[⟨'A', 2⟩, ⟨'B', 1⟩, ⟨'C', 3⟩], 6⟩ : basic_rle Char).at 8
          ((⟨[⟨'A', 2⟩, ⟨'B', 1⟩, ⟨'C', 3⟩], 6⟩ : basic_rle Char).size - 1) = .ok v) ∧
    (⟨2, 2⟩ : rle_iterator).sub 8 [(⟨'A', 2⟩ : rle_pair Char), ⟨'B', 1⟩, ⟨'C', 3⟩] 3
      = .ok ⟨0, 2⟩ :=
  ⟨by decide, by decide, by decide,
    (iterator_sub_offset 8 ⟨[⟨'A', 2⟩, ⟨'B', 1⟩, ⟨'C', 3⟩], 6⟩ (by decide) 5 3 (by decide)
      (by decide)).2,
    by rfl⟩

end claimsL
end til

namespace til
section outcome
variable {T : Type} [DecidableEq T]

theorem sameOutcome_refl {α : Type} (x : Except Err α) : SameOutcome Eq x x := by
  cases x <;> simp [SameOutcome]

theorem sameOutcome_self {α : Type} {R : α → α → Prop} (hR : ∀ a, R a a) (x : Except Err α) :
    SameOutcome R x x := by
  cases x with
  | ok a => exact hR a
  | error e => simp [SameOutcome]

theorem sameOutcome_pure {α β : Type} {R : α → β → Prop} {a : α} {b : β} (h : R a b) :
    SameOutcome R (pure a) (pure b) := h

theorem sameOutcome_bind {α β γ δ : Type} {R : α → β → Prop} {S : γ → δ → Prop}
    {x : Except Err α} {y : Except Err β} {f : α → Except Err γ} {g : β → Except Err δ}
    (hx : SameOutcome R x y) (hf : ∀ a b, R a b → SameOutcome S (f a) (g b)) :
    SameOutcome S (x >>= f) (y >>= g) := by
  cases x with
  | ok a =>
    cases y with
    | ok b => exact hf a b hx
    | error e => exact absurd hx (by simp [SameOutcome])
  | error e =>
    cases y with
    | ok b => exact absurd hx (by simp [SameOutcome])
    | error e' =>
      simp only [SameOutcome] at hx
      subst hx
      simp [SameOutcome, bind, Except.bind]

theorem sameOutcome_ite {α β : Type} {R : α → β → Prop} (p : Prop) [Decidable p]
    {x x' : Except Err α} {y y' : Except Err β} (h : SameOutcome R x y)
    (h' : SameOutcome R x' y') :
    SameOutcome R (if p then x else x') (if p then y else y') := by
  split_ifs
  · exact h
  · exact h'

theorem sameOutcome_ok {α β : Type} {R : α → β → Prop} {x : Except Err α} {y : Except Err β}
    (h : SameOutcome R x y) (b : β) (hy : y = .ok b) : ∃ a, x = .ok a := by
  subst hy
  cases x with
  | ok a => exact ⟨a, rfl⟩
  | error e => exact absurd h (by simp [SameOutcome])

omit [DecidableEq T] in
theorem sameValues_refl (a : List (rle_pair T)) : SameValues a a := rfl

omit [DecidableEq T] in
theorem sameValues_length {a b : List (rle_pair T)} (h : SameValues a b) :
    a.length = b.length := by
  have := congrArg List.length h
  simpa [vals] using this

omit [DecidableEq T] in
theorem sameValues_take {a b : List (rle_pair T)} (h : SameValues a b) (n : Nat) :
    SameValues (a.take n) (b.take n) := by
  unfold SameValues vals at *
  rw [List.map_take, List.map_take, h]

omit [DecidableEq T] in
theorem sameValues_drop {a b : List (rle_pair T)} (h : SameValues a b) (n : Nat) :
    SameValues (a.drop n) (b.drop n) := by
  unfold SameValues vals at *
  rw [List.map_drop, List.map_drop, h]

omit [DecidableEq T] in
theorem sameValues_append {a b a' b' : List (rle_pair T)} (h : SameValues a b)
    (h' : SameValues a' b') : SameValues (a ++ a') (b ++ b') := by
  unfold SameValues vals at *
  rw [List.map_append, List.map_append, h, h']

omit [DecidableEq T] in
theorem sameValues_set {a b : List (rle_pair T)} (h : SameValues a b) (n : Nat)
    (x : rle_pair T) : SameValues (a.set n x) (b.set n x) := by
  unfold SameValues vals at *
  rw [List.map_set, List.map_set, h]

omit [DecidableEq T] in
theorem sameValues_zeroLengths (a : List (rle_pair T)) : SameValues (zeroLengths a) a := by
  unfold SameValues vals zeroLengths
  rw [List.map_map]
  rfl

omit [DecidableEq T] in
theorem sumLen_zeroLengths (a : List (rle_pair T)) : sumLen (zeroLengths a) = 0 := by
  induction a with
  | nil => rfl
  | cons x xs ih =>
    unfold zeroLengths at ih ⊢
    simp only [List.map_cons, sumLen_cons, ih]

omit [DecidableEq T] in
theorem set_same {α : Type} (l : List α) (i : Nat) (a : α) (h : l[i]? = some a) :
    l.set i a = l := by
  induction l generalizing i with
  | nil => rfl
  | cons x xs ih =>
    cases i with
    | zero => simp at h; subst h; rfl
    | succ i => simp at h; simp [ih i h]

omit [DecidableEq T] in
theorem setLength_rel {a b : List (rle_pair T)} (h : SameValues a b) (i : Nat)
    (f g : Nat → Nat) : SameOutcome SameValues (setLength a i f) (setLength b i g) := by
  have hlen := sameValues_length h
  have hval : (vals a)[i]? = (vals b)[i]? := by rw [h]
  unfold vals at hval
  rw [List.getElem?_map, List.getElem?_map] at hval
  unfold setLength
  cases ha : a[i]? with
  | none =>
    rw [ha] at hval
    cases hb : b[i]? with
    | none => simp [SameOutcome]
    | some y => rw [hb] at hval; simp at hval
  | some x =>
    rw [ha] at hval
    cases hb : b[i]? with
    | none => rw [hb] at hval; simp at hval
    | some y =>
      rw [hb] at hval
      simp only [Option.map_some', Option.some.injEq] at hval
      show SameValues _ _
      unfold SameValues vals at *
      rw [List.map_set, List.map_set]
      have h1 : (List.map (fun r : rle_pair T => r.value) a)[i]? = some x.value := by
        rw [List.getElem?_map, ha]; rfl
      have h2 : (List.map (fun r : rle_pair T => r.value) b)[i]? = some y.value := by
        rw [List.getElem?_map, hb]; rfl
      rw [set_same _ _ _ h1, set_same _ _ _ h2, h]

omit [DecidableEq T] in
theorem getRun_rel {a b : List (rle_pair T)} (h : SameValues a b) (i : Nat) :
    SameOutcome (fun x y : rle_pair T => x.value = y.value) (getRun a i) (getRun b i) := by
  have hval : (vals a)[i]? = (vals b)[i]? := by rw [h]
  unfold vals at hval
  rw [List.getElem?_map, List.getElem?_map] at hval
  unfold getRun
  cases ha : a[i]? with
  | none =>
    rw [ha] at hval
    cases hb : b[i]? with
    | none => simp [SameOutcome]
    | some y => rw [hb] at hval; simp at hval
  | some x =>
    rw [ha] at hval
    cases hb : b[i]? with
    | none => rw [hb] at hval; simp at hval
    | some y =>
      rw [hb] at hval
      simpa [SameOutcome] using hval

omit [DecidableEq T] in
theorem eraseRange_rel {a b : List (rle_pair T)} (h : SameValues a b) (i j : Nat) :
    SameOutcome SameValues (eraseRange a i j) (eraseRange b i j) := by
  unfold eraseRange
  rw [sameValues_length h]
  split_ifs
  · exact sameValues_append (sameValues_take h _) (sameValues_drop h _)
  · simp [SameOutcome]

omit [DecidableEq T] in
theorem insertAt_rel {a b xs ys : List (rle_pair T)} (h : SameValues a b)
    (hx : SameValues xs ys) (i : Nat) :
    SameOutcome SameValues (insertAt a i xs) (insertAt b i ys) := by
  unfold insertAt
  rw [sameValues_length h]
  split_ifs
  · exact sameValues_append (sameValues_append (sameValues_take h _) hx) (sameValues_drop h _)
  · simp [SameOutcome]

omit [DecidableEq T] in
theorem copyInto_rel {a b xs ys : List (rle_pair T)} (h : SameValues a b)
    (hx : SameValues xs ys) (i : Nat) :
    SameOutcome (fun p q : List (rle_pair T) × Nat => SameValues p.1 q.1 ∧ p.2 = q.2)
      (copyInto xs a i) (copyInto ys b i) := by
  unfold copyInto
  rw [sameValues_length h, sameValues_length hx]
  split_ifs
  · exact ⟨sameValues_append (sameValues_append (sameValues_take h _) hx)
      (sameValues_drop h _), rfl⟩
  · simp [SameOutcome]

end outcome
end til

namespace til
section shape
variable {T : Type} [DecidableEq T]

omit [DecidableEq T] in
theorem store_rel [Inhabited T] (runs : List (rle_pair T)) (b e : Nat)
    {new_runs new_runs' : List (rle_pair T)} (h : SameValues new_runs new_runs')
    (t : Option (rle_pair T)) :
    SameOutcome
      (fun p q : List (rle_pair T) × Nat × Nat => SameValues p.1 q.1 ∧ p.2 = q.2)
      (basic_rle._replace_store runs b e new_runs t)
      (basic_rle._replace_store runs b e new_runs' t) := by
  have hlen := sameValues_length h
  unfold basic_rle._replace_store
  simp only [hlen]
  refine sameOutcome_bind
    (copyInto_rel (sameValues_refl runs) (sameValues_take h _) b) ?_
  rintro ⟨r, b1⟩ ⟨r', b1'⟩ ⟨hr, hb⟩
  simp only at hr hb
  subst hb
  refine sameOutcome_bind (R := SameValues) ?_
    (fun x y hxy => sameOutcome_pure ⟨hxy, rfl⟩)
  refine sameOutcome_ite _ (eraseRange_rel hr _ _) ?_
  cases t with
  | none => exact insertAt_rel hr (sameValues_drop h _) _
  | some trailer =>
    refine sameOutcome_bind (insertAt_rel hr (sameValues_refl _) _) ?_
    intro x y hxy
    refine sameOutcome_bind (copyInto_rel hxy (sameValues_drop h _) b) ?_
    rintro ⟨r2, b2⟩ ⟨r2', b2'⟩ ⟨hr2, hb2⟩
    simp only at hr2 hb2
    subst hb2
    refine sameOutcome_bind (getRun_rel hr2 _) ?_
    intro _ _ _
    exact sameOutcome_pure (sameValues_set hr2 _ _)

omit [DecidableEq T] in
theorem extend_rel (w : Nat) {runs runs' : List (rle_pair T)} (h : SameValues runs runs')
    (bi req bal eal : Nat) :
    SameOutcome SameValues (basic_rle._replace_extend w runs bi req bal eal)
      (basic_rle._replace_extend w runs' bi req bal eal) := by
  unfold basic_rle._replace_extend
  refine sameOutcome_bind (R := SameValues) ?_ ?_
  · exact sameOutcome_ite _ (setLength_rel h _ _ _) (sameOutcome_pure h)
  · intro x y hxy
    exact sameOutcome_ite _ (setLength_rel hxy _ _ _) (sameOutcome_pure hxy)

theorem join_front_congr (runs : List (rle_pair T)) (s : Nat) {front front' : rle_pair T}
    (h : front.value = front'.value) (b p : Nat) :
    basic_rle._replace_join_front runs s front b p
      = basic_rle._replace_join_front runs s front' b p := by
  unfold basic_rle._replace_join_front
  rw [h]

theorem join_back_congr (w : Nat) (c : basic_rle T) (e : Nat) {back back' : rle_pair T}
    (h : back.value = back'.value) (en q : Nat) :
    c._replace_join_back w e back en q = c._replace_join_back w e back' en q := by
  unfold basic_rle._replace_join_back
  rw [h]

omit [DecidableEq T] in
theorem option_run_rel (o o' : Option (rle_pair T)) :
    o.map (fun r => r.value) = o'.map (fun r => r.value) →
    SameOutcome (fun x y : rle_pair T => x.value = y.value)
      (match o with
        | some r => pure r
        | none => throw Err.bad_access : Except Err (rle_pair T))
      (match o' with
        | some r => pure r
        | none => throw Err.bad_access : Except Err (rle_pair T)) := by
  intro h
  cases o with
  | none =>
    cases o' with
    | none => simp [SameOutcome, throw, throwThe, MonadExceptOf.throw]
    | some y => simp at h
  | some x =>
    cases o' with
    | none => simp at h
    | some y =>
      simp only [Option.map_some', Option.some.injEq] at h
      exact h

/-- The accesses made by `_replace` with a non-empty `new_runs` do not depend on
the lengths of the new runs. -/
theorem nonempty_rel [Inhabited T] (w : Nat) (c : basic_rle T) (s e : Nat)
    {new_runs new_runs' : List (rle_pair T)} (h : SameValues new_runs new_runs')
    (b p en q : Nat) :
    SameOutcome (fun x y : basic_rle T => SameValues x._runs y._runs)
      (c._replace_nonempty w s e new_runs b p en q)
      (c._replace_nonempty w s e new_runs' b p en q) := by
  unfold basic_rle._replace_nonempty
  have hhead : new_runs.head?.map (fun r => r.value)
      = new_runs'.head?.map (fun r => r.value) := by
    rw [← List.head?_map, ← List.head?_map]
    exact congrArg List.head? h
  have hlast : new_runs.getLast?.map (fun r => r.value)
      = new_runs'.getLast?.map (fun r => r.value) := by
    rw [← List.getLast?_map, ← List.getLast?_map]
    exact congrArg List.getLast? h
  refine sameOutcome_bind (option_run_rel _ _ hhead) ?_
  intro front front' hf
  refine sameOutcome_bind (option_run_rel _ _ hlast) ?_
  intro back back' hb
  rw [join_front_congr c._runs s hf]
  refine sameOutcome_bind (sameOutcome_refl _) ?_
  rintro ⟨b', p', bal⟩ _ rfl
  rw [join_back_congr w c e hb]
  refine sameOutcome_bind (sameOutcome_refl _) ?_
  rintro ⟨e', q', eal⟩ _ rfl
  refine sameOutcome_bind (sameOutcome_refl _) ?_
  rintro ⟨t, q''⟩ _ rfl
  refine sameOutcome_bind (sameOutcome_refl _) ?_
  rintro ⟨r, b''⟩ _ rfl
  refine sameOutcome_bind (store_rel r b'' e' h t) ?_
  rintro ⟨r2, bi, req⟩ ⟨r2', bi', req'⟩ ⟨hr, hbi⟩
  simp only [Prod.mk.injEq] at hr hbi
  obtain ⟨rfl, rfl⟩ := hbi
  refine sameOutcome_bind (extend_rel w hr _ _ _ _) ?_
  intro x y hxy
  exact sameOutcome_pure hxy

/-- The accesses made by `_replace` do not depend on the lengths of the new
runs: with two lists of new runs that have the same values, run by run, both
calls fail in the same way or both return. -/
theorem replace_rel [Inhabited T] (w : Nat) (c : basic_rle T) (s e : Nat)
    {new_runs new_runs' : List (rle_pair T)} (h : SameValues new_runs new_runs') :
    SameOutcome (fun x y : basic_rle T => SameValues x._runs y._runs)
      (c._replace w s e new_runs) (c._replace w s e new_runs') := by
  unfold basic_rle._replace
  have hemp : new_runs.isEmpty = new_runs'.isEmpty := by
    have := sameValues_length h
    cases new_runs <;> cases new_runs' <;> simp at this ⊢
  simp only [hemp]
  split_ifs
  · exact sameOutcome_self (R := fun x y : basic_rle T => SameValues x._runs y._runs)
      (fun a => sameValues_refl a._runs) _
  · exact nonempty_rel w c s e h _ _ _ _

/-- On a container without zero-length runs whose size is the sum of its run
lengths, `_replace` returns for every range inside the container and every
`new_runs`: no access leaves the run store. -/
theorem _replace_returns [Inhabited T] (w : Nat) (c : basic_rle T) (hnz : NoZeroRun c._runs)
    (hsz : SizeConsistent w c) (start e : Nat) (hse : start ≤ e) (he : e ≤ c._total_length)
    (new_runs : List (rle_pair T)) : ∃ c', c._replace w start e new_runs = .ok c' := by
  have h0 := _replace_ok w c hnz hsz start e hse he (zeroLengths new_runs)
    (by rw [sumLen_zeroLengths]; have := hsz.1; have := hsz.2; omega)
  have hrel := replace_rel w c start e
    (sameValues_zeroLengths new_runs).symm
  exact sameOutcome_ok hrel _ h0

end shape
end til

namespace til
section difflemmas
variable {T : Type} [DecidableEq T]

omit [DecidableEq T] in
theorem cursorAt_shift (X : List (rle_pair T)) :
    ∀ (it t : Nat), cursorAt X it t
      = ⟨it + (cursorAt X 0 t)._it, (cursorAt X 0 t)._usage⟩ := by
  induction X with
  | nil => intro it t; simp [cursorAt]
  | cons r rest ih =>
    intro it t
    simp only [cursorAt]
    by_cases h : t < r.length
    · simp [h]
    · simp only [h, if_false, Nat.zero_add]
      rw [ih (it + 1), ih 1]
      simp only [rle_iterator.mk.injEq, and_true]
      omega

omit [DecidableEq T] in
/-- The first loop of the iterator difference, started at position `ub` of the
first run of `X`, stops after `n` runs with the lengths of the runs passed
added up. -/
theorem diffUp_upto (w : Nat) (X : List (rle_pair T)) :
    ∀ (n kb ub : Nat) (acc : difference_type), n ≤ X.length → NoZeroRun X →
      sumLen X < 2 ^ w → 1 ≤ ub → (∀ r rest, X = r :: rest → ub ≤ r.length) →
      rle_iterator.diffUp w (kb + n) X kb ub acc
        = .ok (⟨kb + n, if n = 0 then ub else 1⟩,
            acc + (if n = 0 then (0 : Int) else ((sumLen (X.take n) - (ub - 1) : Nat) : Int))) := by
  induction X with
  | nil =>
    intro n kb ub acc hn _ _ _ _
    simp only [List.length_nil, Nat.le_zero] at hn
    subst hn
    simp [rle_iterator.diffUp, pure, Except.pure]
  | cons r rest ih =>
    intro n kb ub acc hn hnz hfit hub hhead
    obtain ⟨hr, hnz'⟩ := hnz.cons
    have hur : ub ≤ r.length := hhead r rest rfl
    simp only [sumLen_cons] at hfit
    simp only [List.length_cons] at hn
    cases n with
    | zero => simp [rle_iterator.diffUp, pure, Except.pure]
    | succ n =>
      unfold rle_iterator.diffUp
      rw [if_pos (by omega)]
      have hsub : subS w r.length ub = r.length - ub := subS_eq hur (by omega)
      have hadd : addS w (r.length - ub) 1 = r.length - ub + 1 := addS_eq (by omega)
      have hidx : kb + (n + 1) = kb + 1 + n := by omega
      rw [hsub, hadd, hidx, ih n (kb + 1) 1 _ (by omega) hnz' (by omega) (le_refl 1)
        (fun r' rest' h => hnz' r' (by rw [h]; simp))]
      have hne : ¬ (n + 1 = 0) := by omega
      simp only [hne, if_false, List.take_succ_cons, sumLen_cons]
      have hle : sumLen (rest.take n) ≤ sumLen rest := by
        have := sumLen_take_mono rest n rest.length (by omega)
        simpa using this
      refine congrArg Except.ok (Prod.ext ?_ ?_)
      · simp
      · by_cases h0 : n = 0
        · subst h0
          simp only [if_true, List.take_zero, sumLen_nil]
          unfold difference_type at *
          omega
        · simp only [h0, if_false]
          unfold difference_type at *
          omega

omit [DecidableEq T] in
/-- The iterator difference of two cursors is the signed distance of their
positions when the left operand is not before the right one. -/
theorem diff_forward (w : Nat) (runs : List (rle_pair T)) (hnz : NoZeroRun runs)
    (hfit : sumLen runs < 2 ^ w) (i j : Nat) (hji : j ≤ i) (hi : i ≤ sumLen runs) :
    (cursorAt runs 0 i).diff w runs (cursorAt runs 0 j) = .ok ((i : Int) - (j : Int)) := by
  rcases cursorAt_cases runs j with ⟨pre, r, post, p, hX, ht, hp, hcj⟩ | ⟨hle, hcj⟩
  · subst hX ht
    simp only [sumLen_append, sumLen_cons] at hfit hi
    have hnzX : NoZeroRun (r :: post) := hnz.append_right
    have hci : cursorAt (pre ++ r :: post) 0 i
        = ⟨pre.length + (cursorAt (r :: post) 0 (i - sumLen pre))._it,
            (cursorAt (r :: post) 0 (i - sumLen pre))._usage⟩ := by
      rw [cursorAt_append_ge _ _ _ _ (by omega), Nat.zero_add, cursorAt_shift]
    rw [hci, hcj]
    unfold rle_iterator.diff
    simp only [drop_app _ _ _ rfl]
    rcases cursorAt_cases (r :: post) (i - sumLen pre) with
      ⟨pre2, r2, post2, p2, hX2, ht2, hp2, hc2⟩ | ⟨hle2, hc2⟩
    · rw [hc2]
      simp only []
      have hn : pre2.length ≤ (r :: post).length := by rw [hX2]; simp
      rw [diffUp_upto w (r :: post) pre2.length pre.length (p + 1) 0 hn hnzX (by simp; omega)
        (by omega) (fun r' rest' h => by
          simp only [List.cons.injEq] at h
          rw [← h.1]; omega)]
      simp only [bind, Except.bind]
      rw [diffDown_stop _ _ _ _ _ _ (by simp)]
      simp only [pure, Except.pure]
      cases pre2 with
      | nil =>
        simp only [List.nil_append, List.cons.injEq] at hX2
        obtain ⟨hrr, _⟩ := hX2
        subst hrr
        simp only [sumLen_nil, Nat.zero_add] at ht2
        simp only [List.length_nil, if_true]
        have hsub : subS w (p2 + 1) (p + 1) = p2 - p := by
          rw [subS_eq (by omega) (by omega)]; omega
        rw [hsub]
        refine congrArg Except.ok ?_
        unfold difference_type at *
        omega
      | cons a pre2' =>
        simp only [List.cons_append, List.cons.injEq] at hX2
        obtain ⟨hra, hpost⟩ := hX2
        subst hra hpost
        have hne : ¬ ((r :: pre2').length = 0) := by simp
        simp only [hne, if_false]
        have htake : (r :: (pre2' ++ r2 :: post2)).take (r :: pre2').length = r :: pre2' := by
          have h1 : r :: (pre2' ++ r2 :: post2) = (r :: pre2') ++ r2 :: post2 := by simp
          rw [h1, take_app _ _ _ rfl]
        rw [htake]
        simp only [sumLen_cons, sumLen_append] at ht2 hfit hi ⊢
        have hsub : subS w (p2 + 1) 1 = p2 := by
          rw [subS_eq (by omega) (by omega)]; omega
        rw [hsub]
        refine congrArg Except.ok ?_
        unfold difference_type at *
        omega
    · rw [hc2]
      simp only []
      rw [diffUp_upto w (r :: post) (r :: post).length pre.length (p + 1) 0 (le_refl _) hnzX
        (by simp; omega) (by omega) (fun r' rest' h => by
          simp only [List.cons.injEq] at h
          rw [← h.1]; omega)]
      simp only [bind, Except.bind]
      rw [diffDown_stop _ _ _ _ _ _ (by simp)]
      have hne : ¬ ((r :: post).length = 0) := by simp
      simp only [pure, Except.pure, hne, if_false, List.take_length, subS_one_one]
      simp only [sumLen_cons] at hle2 ⊢
      refine congrArg Except.ok ?_
      unfold difference_type at *
      omega
  · have hij : i = j := by omega
    subst hij
    rw [hcj]
    unfold rle_iterator.diff
    simp only [List.drop_length]
    have h1 : rle_iterator.diffUp w runs.length ([] : List (rle_pair T)) runs.length 1 0
        = .ok (⟨runs.length, 1⟩, 0) := by
      simp [rle_iterator.diffUp, pure, Except.pure]
    rw [h1]
    simp only [bind, Except.bind]
    rw [diffDown_stop _ _ _ _ _ _ (by simp)]
    simp [pure, Except.pure, subS_one_one]

end difflemmas
end til

namespace til
section claimsM
variable {T : Type} [DecidableEq T]

/-- C21 fails on the code when the left operand lies in an earlier run than the
right operand: the second loop of `operator-(right)` subtracts the usage of the
left operand for every run it steps back, where the used space of the copy of
the right operand is meant.  On the canonical container `[('A', 2), ('B', 2)]`
(32-bit size type) the difference `(begin() + 1) - (begin() + 2)` is `-2` and
`(begin() + 1) - end()` is `-4`, where the signed distances are `-1` and `-3`;
the opposite differences are `1` and `3`, as they must be. -/
theorem iterator_difference_backward_wrong :
    Canonical 32 (⟨[⟨'A', 2⟩, ⟨'B', 2⟩], 4⟩ : basic_rle Char) ∧
    (⟨[⟨'A', 2⟩, ⟨'B', 2⟩], 4⟩ : basic_rle Char).begin.add 32 [⟨'A', 2⟩, ⟨'B', 2⟩] 1
      = .ok ⟨0, 2⟩ ∧
    (⟨[⟨'A', 2⟩, ⟨'B', 2⟩], 4⟩ : basic_rle Char).begin.add 32 [⟨'A', 2⟩, ⟨'B', 2⟩] 2
      = .ok ⟨1, 1⟩ ∧
    (⟨[⟨'A', 2⟩, ⟨'B', 2⟩], 4⟩ : basic_rle Char).begin.add 32 [⟨'A', 2⟩, ⟨'B', 2⟩] 4
      = .ok (⟨[⟨'A', 2⟩, ⟨'B', 2⟩], 4⟩ : basic_rle Char).end_ ∧
    (⟨0, 2⟩ : rle_iterator).diff 32 [(⟨'A', 2⟩ : rle_pair Char), ⟨'B', 2⟩] ⟨1, 1⟩ = .ok (-2) ∧
    (⟨1, 1⟩ : rle_iterator).diff 32 [(⟨'A', 2⟩ : rle_pair Char), ⟨'B', 2⟩] ⟨0, 2⟩ = .ok 1 ∧
    (⟨0, 2⟩ : rle_iterator).diff 32 [(⟨'A', 2⟩ : rle_pair Char), ⟨'B', 2⟩]
        (⟨[⟨'A', 2⟩, ⟨'B', 2⟩], 4⟩ : basic_rle Char).end_ = .ok (-4) ∧
    (⟨[⟨'A', 2⟩, ⟨'B', 2⟩], 4⟩ : basic_rle Char).end_.diff 32 [⟨'A', 2⟩, ⟨'B', 2⟩] ⟨0, 2⟩
      = .ok 3 :=
  ⟨by decide, by rfl, by rfl, by rfl, by rfl, by rfl, by rfl, by rfl⟩

/-- C26: for every canonical container `c`, every `start ≤ min end_ c.size` and
every list `new_runs`, empty or not and whatever its lengths:
`c.replace start end_ new_runs` returns, and so does the single-value overload:
no access to a run (the run before `begin`, the run at `end`, the runs whose
lengths are trimmed or extended, the ranges erased, overwritten or inserted)
falls outside the run store, where every such access of the model fails with
`bad_access`. -/
theorem replace_access_safe [Inhabited T] (w : Nat) (c : basic_rle T) (hc : Canonical w c)
    (start end_ : Nat) (new_runs : List (rle_pair T)) (value : T)
    (hstart : start ≤ min end_ c.size) :
    (c.replace w start end_ new_runs).1 = .ok () ∧
    (c.replace w start end_ new_runs).1 ≠ .error .bad_access ∧
    (c.replace_value w start end_ value).1 = .ok () ∧
    (c.replace_value w start end_ value).1 ≠ .error .bad_access := by
  obtain ⟨hnz, _, hsz⟩ := hc
  unfold basic_rle.size at hstart
  have h1 : (c.replace w start end_ new_runs).1 = .ok () := by
    unfold basic_rle.replace
    rw [check_indices_ok c start end_ hstart]
    simp only []
    obtain ⟨c', hc'⟩ := _replace_returns w c hnz hsz start _ hstart (Nat.min_le_right _ _)
      new_runs
    rw [hc']
  have h2 : (c.replace_value w start end_ value).1 = .ok () := by
    unfold basic_rle.replace_value
    rw [check_indices_ok c start end_ hstart]
    simp only []
    obtain ⟨c', hc'⟩ := _replace_returns w c hnz hsz start _ hstart (Nat.min_le_right _ _)
      [⟨value, subS w (min end_ c._total_length) start⟩]
    rw [hc']
  refine ⟨h1, ?_, h2, ?_⟩
  · rw [h1]; intro h; cases h
  · rw [h2]; intro h; cases h

theorem replace_access_safe_witness :
    Canonical 8 (⟨[⟨'A', 200⟩], 200⟩ : basic_rle Char) ∧
    200 ≤ min 200 (⟨[⟨'A', 200⟩], 200⟩ : basic_rle Char).size ∧
    ((⟨[⟨'A', 200⟩], 200⟩ : basic_rle Char).replace 8 200 200 [⟨'A', 56⟩]).1 = .ok () :=
  ⟨by decide, by decide,
    (replace_access_safe 8 ⟨[⟨'A', 200⟩], 200⟩ (by decide) 200 200 [⟨'A', 56⟩] 'A'
      (by decide)).1⟩

end claimsM
end til

namespace til
section valuerefs
variable {T : Type} [DecidableEq T]

omit [DecidableEq T] in
/-- Writing the value `v` into a run leaves a reference that reads `v` reading
`v`. -/
theorem read_set_value (runs : List (rle_pair T)) (ref : const_reference T) (v : T) (i l : Nat)
    (h : ref.read runs = .ok v) : ref.read (runs.set i ⟨v, l⟩) = .ok v := by
  cases ref with
  | object x => exact h
  | run_value k =>
    simp only [const_reference.read, getRun] at h ⊢
    rw [List.getElem?_set]
    by_cases hik : i = k
    · subst hik
      by_cases hlt : i < runs.length
      · simp [hlt, Except.map]
      · have hnone : runs[i]? = none := by simp; omega
        rw [hnone] at h
        simp [Except.map] at h
    · rw [if_neg hik]; exact h

omit [DecidableEq T] in
/-- A reference that can be read can still be read after a run has been
overwritten. -/
theorem read_set_some (runs : List (rle_pair T)) (ref : const_reference T) (i : Nat)
    (x : rle_pair T) (h : ∃ v, ref.read runs = .ok v) :
    ∃ v, ref.read (runs.set i x) = .ok v := by
  cases ref with
  | object y => exact ⟨y, rfl⟩
  | run_value k =>
    obtain ⟨v, hv⟩ := h
    simp only [const_reference.read, getRun] at hv ⊢
    have hk : k < runs.length := by
      by_contra hge
      have hnone : runs[k]? = none := by simp; omega
      rw [hnone] at hv
      simp [Except.map] at hv
    have hk' : k < (runs.set i x).length := by simpa using hk
    rw [List.getElem?_eq_getElem hk']
    exact ⟨_, rfl⟩

omit [DecidableEq T] in
theorem getRun_of_lt (runs : List (rle_pair T)) (i : Nat) (h : i < runs.length) :
    getRun runs i = .ok runs[i] := by
  unfold getRun
  rw [List.getElem?_eq_getElem h]

/-- With `old_value` referring to an object outside the run store, the loop of
`replace_values` gives every run of value `o` the value that `new_value` reads. -/
theorem replace_values_loop_object (o v : T) (new_value : const_reference T)
    (X : List (rle_pair T)) :
    ∀ A : List (rle_pair T), new_value.read (A ++ X) = .ok v →
      basic_rle.replace_values_loop (.object o) new_value X.length A.length (A ++ X)
        = .ok (A ++ mapValues o v X) := by
  induction X with
  | nil =>
    intro A _
    simp [basic_rle.replace_values_loop, mapValues, pure, Except.pure]
  | cons x X ih =>
    intro A hnew
    simp only [List.length_cons]
    unfold basic_rle.replace_values_loop
    have hold : (const_reference.object o).read (A ++ x :: X) = .ok o := rfl
    rw [getRun_app A X x _ rfl, hold]
    simp only [bind, Except.bind]
    by_cases hx : x.value = o
    · rw [if_pos hx, hnew]
      simp only []
      rw [set_app A X x _ _ rfl]
      have hre : A ++ (⟨v, x.length⟩ : rle_pair T) :: X = (A ++ [⟨v, x.length⟩]) ++ X := by simp
      have hnew' : new_value.read ((A ++ [⟨v, x.length⟩]) ++ X) = .ok v := by
        rw [← hre, ← set_app A X x ⟨v, x.length⟩ A.length rfl]
        exact read_set_value _ _ _ _ _ hnew
      have hstep := ih (A ++ [⟨v, x.length⟩]) hnew'
      simp only [List.length_append, List.length_singleton] at hstep
      rw [hre, hstep]
      simp [mapValues, hx]
    · rw [if_neg hx]
      have hre : A ++ x :: X = (A ++ [x]) ++ X := by simp
      rw [hre] at hnew ⊢
      have hstep := ih (A ++ [x]) hnew
      simp only [List.length_append, List.length_singleton] at hstep
      rw [hstep]
      simp [mapValues, hx]

/-- Whatever `old_value` and `new_value` refer to, the loop of `replace_values`
returns and leaves the length of every run as it was. -/
theorem replace_values_loop_lengths (old_value new_value : const_reference T) :
    ∀ (n i : Nat) (runs : List (rle_pair T)), i + n = runs.length →
      (∃ o, old_value.read runs = .ok o) → (∃ v, new_value.read runs = .ok v) →
      ∃ runs', basic_rle.replace_values_loop old_value new_value n i runs = .ok runs' ∧
        runs'.map (fun r => r.length) = runs.map (fun r => r.length) := by
  intro n
  induction n with
  | zero =>
    intro i runs _ _ _
    exact ⟨runs, rfl, rfl⟩
  | succ n ih =>
    intro i runs hlen hold hnew
    have hi : i < runs.length := by omega
    obtain ⟨o, ho⟩ := hold
    obtain ⟨v, hv⟩ := hnew
    unfold basic_rle.replace_values_loop
    rw [getRun_of_lt runs i hi, ho]
    simp only [bind, Except.bind]
    by_cases hx : runs[i].value = o
    · rw [if_pos hx, hv]
      simp only []
      obtain ⟨runs', h1, h2⟩ := ih (i + 1) (runs.set i ⟨v, runs[i].length⟩)
        (by simp; omega) (read_set_some _ _ _ _ ⟨o, ho⟩) (read_set_some _ _ _ _ ⟨v, hv⟩)
      refine ⟨runs', h1, ?_⟩
      rw [h2, List.map_set]
      exact set_same _ _ _ (by rw [List.getElem?_map, List.getElem?_eq_getElem hi]; rfl)
    · rw [if_neg hx]
      exact ih (i + 1) runs (by omega) ⟨o, ho⟩ ⟨v, hv⟩

/-- When `old_value` and `new_value` both read `v`, the loop of `replace_values`
changes nothing. -/
theorem replace_values_loop_same (old_value new_value : const_reference T) (v : T) :
    ∀ (n i : Nat) (runs : List (rle_pair T)), i + n = runs.length →
      old_value.read runs = .ok v → new_value.read runs = .ok v →
      basic_rle.replace_values_loop old_value new_value n i runs = .ok runs := by
  intro n
  induction n with
  | zero => intro i runs _ _ _; rfl
  | succ n ih =>
    intro i runs hlen hold hnew
    have hi : i < runs.length := by omega
    unfold basic_rle.replace_values_loop
    rw [getRun_of_lt runs i hi, hold]
    simp only [bind, Except.bind]
    by_cases hx : runs[i].value = v
    · rw [if_pos hx, hnew]
      simp only []
      have hset : runs.set i ⟨v, runs[i].length⟩ = runs := by
        apply set_same
        rw [List.getElem?_eq_getElem hi, ← hx]
      rw [hset]
      exact ih (i + 1) runs (by omega) hold hnew
    · rw [if_neg hx]
      exact ih (i + 1) runs (by omega) hold hnew

/-- Run-level characterisation of `replace_values` when `old_value` refers to
an object outside the run store. -/
theorem replace_values_eq (w : Nat) (c : basic_rle T) (hfit : sumLen c._runs < 2 ^ w)
    (o v : T) (new_value : const_reference T) (hnew : new_value.read c._runs = .ok v) :
    c.replace_values w (.object o) new_value
      = (.ok (), ⟨mergeRuns (mapValues o v c._runs), c._total_length⟩) := by
  unfold basic_rle.replace_values
  have hloop := replace_values_loop_object o v new_value c._runs [] (by simpa using hnew)
  simp only [List.nil_append, List.length_nil] at hloop
  simp only [hloop, bind, Except.bind]
  rw [compact_eq w _ (by simpa [sumLen_mapValues] using hfit)]

omit [DecidableEq T] in
theorem sumLen_of_lengths {a b : List (rle_pair T)}
    (h : a.map (fun r => r.length) = b.map (fun r => r.length)) : sumLen a = sumLen b := by
  unfold sumLen; rw [h]

omit [DecidableEq T] in
theorem noZeroRun_of_lengths {a b : List (rle_pair T)}
    (h : a.map (fun r => r.length) = b.map (fun r => r.length)) (hb : NoZeroRun b) :
    NoZeroRun a := by
  intro r hr
  have hmem : r.length ∈ a.map (fun r => r.length) := List.mem_map_of_mem _ hr
  rw [h] at hmem
  obtain ⟨r', hr', hl⟩ := List.mem_map.mp hmem
  have hpos := hb r' hr'
  have hl' : r'.length = r.length := hl
  omega

end valuerefs
end til

namespace til
section claimsN
variable {T : Type} [DecidableEq T]

/-- C12: for every canonical container `c`, every value `old_value` passed as
an object that is not stored in `c`, and every reference `new_value` (to an
object outside `c` or to the value of a run of `c`) that reads `v`:
`c.replace_values old_value new_value` succeeds, leaves `size()` unchanged, and
for every `i < size()` the element `at(i)` afterwards is `v` if the element
before was `old_value` and is the element before otherwise. -/
theorem replace_values_at (w : Nat) (c : basic_rle T) (hc : Canonical w c)
    (old_value v : T) (new_value : const_reference T)
    (hnew : new_value.read c._runs = .ok v) :
    (c.replace_values w (.object old_value) new_value).1 = .ok () ∧
    (c.replace_values w (.object old_value) new_value).2.size = c.size ∧
    ∀ i, i < c.size → ∃ x, c.at w i = .ok x ∧
      (c.replace_values w (.object old_value) new_value).2.at w i
        = .ok (if x = old_value then v else x) := by
  obtain ⟨_, _, hsz⟩ := hc
  have h2 := hsz.1
  have h3 := hsz.2
  rw [replace_values_eq w c h3 old_value v new_value hnew]
  refine ⟨rfl, rfl, ?_⟩
  intro i hi
  unfold basic_rle.size at hi
  have hlt : i < (expand c._runs).length := by simp; omega
  refine ⟨(expand c._runs)[i], ?_, ?_⟩
  · rw [at_eq w c i h3, List.getElem?_eq_getElem hlt]
  · rw [at_eq w _ i (by simp only [sumLen_mergeRuns, sumLen_mapValues]; exact h3)]
    simp only [expand_mergeRuns, expand_mapValues, List.getElem?_map,
      List.getElem?_eq_getElem hlt, Option.map_some']

theorem replace_values_at_witness :
    Canonical 8 (⟨[⟨'A', 2⟩, ⟨'B', 1⟩, ⟨'A', 2⟩], 5⟩ : basic_rle Char) ∧
    (const_reference.run_value 0).read [(⟨'A', 2⟩ : rle_pair Char), ⟨'B', 1⟩, ⟨'A', 2⟩]
      = .ok 'A' ∧
    ((⟨[⟨'A', 2⟩, ⟨'B', 1⟩, ⟨'A', 2⟩], 5⟩ : basic_rle Char).replace_values 8 (.object 'B')
        (.run_value 0)).2 = ⟨[⟨'A', 5⟩], 5⟩ ∧
    ((⟨[⟨'A', 2⟩, ⟨'B', 1⟩, ⟨'A', 2⟩], 5⟩ : basic_rle Char).replace_values 8 (.object 'B')
        (.run_value 0)).2.size
      = (⟨[⟨'A', 2⟩, ⟨'B', 1⟩, ⟨'A', 2⟩], 5⟩ : basic_rle Char).size :=
  ⟨by decide, by rfl, by decide,
    (replace_values_at 8 ⟨[⟨'A', 2⟩, ⟨'B', 1⟩, ⟨'A', 2⟩], 5⟩ (by decide) 'B' 'A'
      (.run_value 0) rfl).2.1⟩

/-- C12 fails when `old_value` is a reference to the value of a run of the
container, such as the reference `c.at(0)` returns: the loop reads `old_value`
anew for every run, and once the run referred to has been rewritten it reads
`new_value`.  On `[('A', 2), ('B', 1), ('A', 2)]` the call
`c.replace_values(c.at(0), 'C')` leaves `[('C', 2), ('B', 1), ('A', 2)]`: the
element at index 3 was `'A'`, the value of `old_value` at the call, and still
is `'A'`. -/
theorem replace_values_at_aliased :
    Canonical 32 (⟨[⟨'A', 2⟩, ⟨'B', 1⟩, ⟨'A', 2⟩], 5⟩ : basic_rle Char) ∧
    (⟨[⟨'A', 2⟩, ⟨'B', 1⟩, ⟨'A', 2⟩], 5⟩ : basic_rle Char).at_reference 32 0
      = .ok (.run_value 0) ∧
    (const_reference.run_value 0).read [(⟨'A', 2⟩ : rle_pair Char), ⟨'B', 1⟩, ⟨'A', 2⟩]
      = .ok 'A' ∧
    (⟨[⟨'A', 2⟩, ⟨'B', 1⟩, ⟨'A', 2⟩], 5⟩ : basic_rle Char).replace_values 32 (.run_value 0)
        (.object 'C')
      = (.ok (), ⟨[⟨'C', 2⟩, ⟨'B', 1⟩, ⟨'A', 2⟩], 5⟩) ∧
    (⟨[⟨'A', 2⟩, ⟨'B', 1⟩, ⟨'A', 2⟩], 5⟩ : basic_rle Char).at 32 3 = .ok 'A' ∧
    ((⟨[⟨'A', 2⟩, ⟨'B', 1⟩, ⟨'A', 2⟩], 5⟩ : basic_rle Char).replace_values 32 (.run_value 0)
        (.object 'C')).2.at 32 3 = .ok 'A' :=
  ⟨by decide, by rfl, by rfl, by rfl, by rfl, by rfl⟩

/-- C13: for every container `c` with no zero-length run whose `size()` equals
the sum of its run lengths (runs of equal value may be adjacent) and all values
`old_value`, `new_value`, passed by reference, whether they refer to objects
outside `c` or to values of runs of `c`: `c.replace_values old_value new_value`
succeeds, and afterwards no two adjacent runs share a value, no run has length
0 and `size()` equals the sum of the run lengths. -/
theorem replace_values_canonical (w : Nat) (c : basic_rle T) (hnz : NoZeroRun c._runs)
    (hsz : SizeConsistent w c) (old_value new_value : const_reference T)
    (hold : ∃ o, old_value.read c._runs = .ok o) (hnew : ∃ v, new_value.read c._runs = .ok v) :
    (c.replace_values w old_value new_value).1 = .ok () ∧
    NoAdjacentEqual (c.replace_values w old_value new_value).2._runs ∧
    NoZeroRun (c.replace_values w old_value new_value).2._runs ∧
    (c.replace_values w old_value new_value).2.size
      = sumLen (c.replace_values w old_value new_value).2._runs := by
  obtain ⟨runs', h1, h2⟩ :=
    replace_values_loop_lengths old_value new_value c._runs.length 0 c._runs (by simp) hold hnew
  have hsum : sumLen runs' = sumLen c._runs := sumLen_of_lengths h2
  have hnz' : NoZeroRun runs' := noZeroRun_of_lengths h2 hnz
  have hcomp := compact_eq w ⟨runs', c._total_length⟩ (by simp only; rw [hsum]; exact hsz.2)
  unfold basic_rle.replace_values
  simp only [h1, bind, Except.bind, hcomp]
  refine ⟨trivial, noAdjacentEqual_mergeRuns _, noZeroRun_mergeRuns hnz', ?_⟩
  simp only [basic_rle.size, sumLen_mergeRuns, hsum]
  exact hsz.1

theorem replace_values_canonical_witness :
    NoZeroRun [(⟨'A', 2⟩ : rle_pair Char), ⟨'B', 1⟩, ⟨'A', 2⟩] ∧
    SizeConsistent 8 (⟨[⟨'A', 2⟩, ⟨'B', 1⟩, ⟨'A', 2⟩], 5⟩ : basic_rle Char) ∧
    ((⟨[⟨'A', 2⟩, ⟨'B', 1⟩, ⟨'A', 2⟩], 5⟩ : basic_rle Char).replace_values 8 (.object 'B')
        (.object 'A')).2 = ⟨[⟨'A', 5⟩], 5⟩ ∧
    NoAdjacentEqual
      ((⟨[⟨'A', 2⟩, ⟨'B', 1⟩, ⟨'A', 2⟩], 5⟩ : basic_rle Char).replace_values 8 (.object 'B')
        (.object 'A')).2._runs :=
  ⟨by decide, by decide, by decide,
    (replace_values_canonical 8 ⟨[⟨'A', 2⟩, ⟨'B', 1⟩, ⟨'A', 2⟩], 5⟩ (by decide) (by decide)
      (.object 'B') (.object 'A') ⟨'B', rfl⟩ ⟨'A', rfl⟩).2.1⟩

/-- C14: for every canonical container `c` and every value `v`,
`c.replace_values v v` succeeds and leaves `c` unchanged (same run list and
same `size()`), whether the two arguments refer to objects outside `c` or to
values of runs of `c`. -/
theorem replace_values_same (w : Nat) (c : basic_rle T) (hc : Canonical w c) (v : T)
    (old_value new_value : const_reference T) (hold : old_value.read c._runs = .ok v)
    (hnew : new_value.read c._runs = .ok v) :
    c.replace_values w old_value new_value = (.ok (), c) := by
  obtain ⟨_, hna, hsz⟩ := hc
  have hloop := replace_values_loop_same old_value new_value v c._runs.length 0 c._runs
    (by simp) hold hnew
  have hcomp := compact_eq w c hsz.2
  unfold basic_rle.replace_values
  simp only [hloop, bind, Except.bind, hcomp, mergeRuns_of_noAdjacentEqual hna]

theorem replace_values_same_witness :
    Canonical 8 (⟨[⟨'A', 2⟩, ⟨'B', 1⟩, ⟨'A', 2⟩], 5⟩ : basic_rle Char) ∧
    (const_reference.run_value 2).read [(⟨'A', 2⟩ : rle_pair Char), ⟨'B', 1⟩, ⟨'A', 2⟩]
      = .ok 'A' ∧
    (⟨[⟨'A', 2⟩, ⟨'B', 1⟩, ⟨'A', 2⟩], 5⟩ : basic_rle Char).replace_values 8 (.object 'A')
        (.run_value 2)
      = (.ok (), ⟨[⟨'A', 2⟩, ⟨'B', 1⟩, ⟨'A', 2⟩], 5⟩) :=
  ⟨by decide, by rfl,
    replace_values_same 8 ⟨[⟨'A', 2⟩, ⟨'B', 1⟩, ⟨'A', 2⟩], 5⟩ (by decide) 'A' (.object 'A')
      (.run_value 2) rfl rfl⟩

/-- C15: for every canonical container `c` and all values `a`, `b`, passed as
objects that are not stored in `c`, such that `b` is not the value of any run
of `c`: `c.replace_values a b` followed by `replace_values b a` on the result
both succeed and leave a container equal (under `operator==`) to the original
`c`. -/
theorem replace_values_round_trip (w : Nat) (c : basic_rle T) (hc : Canonical w c) (a b : T)
    (hb : ∀ r ∈ c._runs, r.value ≠ b) :
    (c.replace_values w (.object a) (.object b)).1 = .ok () ∧
    ((c.replace_values w (.object a) (.object b)).2.replace_values w (.object b)
      (.object a)).1 = .ok () ∧
    ((c.replace_values w (.object a) (.object b)).2.replace_values w (.object b)
      (.object a)).2.beq c = true := by
  obtain ⟨_, hna, hsz⟩ := hc
  rw [replace_values_eq w c hsz.2 a b (.object b) rfl]
  have h1 : mergeRuns (mapValues a b c._runs) = mapValues a b c._runs :=
    mergeRuns_of_noAdjacentEqual (noAdjacentEqual_mapValues a b _ hb hna)
  rw [h1, replace_values_eq w _ (by simp only [sumLen_mapValues]; exact hsz.2) b a (.object a)
    rfl]
  simp only [mapValues_inverse a b c._runs hb, mergeRuns_of_noAdjacentEqual hna]
  simp [basic_rle.beq]

theorem replace_values_round_trip_witness :
    Canonical 8 (⟨[⟨'A', 2⟩, ⟨'B', 1⟩, ⟨'A', 2⟩], 5⟩ : basic_rle Char) ∧
    (∀ r ∈ [(⟨'A', 2⟩ : rle_pair Char), ⟨'B', 1⟩, ⟨'A', 2⟩], r.value ≠ 'C') ∧
    (((⟨[⟨'A', 2⟩, ⟨'B', 1⟩, ⟨'A', 2⟩], 5⟩ : basic_rle Char).replace_values 8 (.object 'A')
        (.object 'C')).2.replace_values 8 (.object 'C') (.object 'A')).2.beq
      ⟨[⟨'A', 2⟩, ⟨'B', 1⟩, ⟨'A', 2⟩], 5⟩ = true :=
  ⟨by decide, by decide,
    (replace_values_round_trip 8 ⟨[⟨'A', 2⟩, ⟨'B', 1⟩, ⟨'A', 2⟩], 5⟩ (by decide) 'A' 'C'
      (by decide)).2.2⟩

/-- C15 fails when the second call passes `b` as a reference to the value of a
run of the container.  On `[('A', 2), ('B', 1), ('A', 2)]`, where `'C'` does
not occur, `c.replace_values('A', 'C')` leaves `[('C', 2), ('B', 1), ('C', 2)]`,
and then `c.replace_values(c.at(0), 'A')` rewrites only the first run and
leaves `[('A', 2), ('B', 1), ('C', 2)]`, which is not equal to the original. -/
theorem replace_values_round_trip_aliased :
    Canonical 32 (⟨[⟨'A', 2⟩, ⟨'B', 1⟩, ⟨'A', 2⟩], 5⟩ : basic_rle Char) ∧
    (∀ r ∈ [(⟨'A', 2⟩ : rle_pair Char), ⟨'B', 1⟩, ⟨'A', 2⟩], r.value ≠ 'C') ∧
    (⟨[⟨'A', 2⟩, ⟨'B', 1⟩, ⟨'A', 2⟩], 5⟩ : basic_rle Char).replace_values 32 (.object 'A')
        (.object 'C')
      = (.ok (), ⟨[⟨'C', 2⟩, ⟨'B', 1⟩, ⟨'C', 2⟩], 5⟩) ∧
    (⟨[⟨'C', 2⟩, ⟨'B', 1⟩, ⟨'C', 2⟩], 5⟩ : basic_rle Char).at_reference 32 0
      = .ok (.run_value 0) ∧
    (const_reference.run_value 0).read [(⟨'C', 2⟩ : rle_pair Char), ⟨'B', 1⟩, ⟨'C', 2⟩]
      = .ok 'C' ∧
    (⟨[⟨'C', 2⟩, ⟨'B', 1⟩, ⟨'C', 2⟩], 5⟩ : basic_rle Char).replace_values 32 (.run_value 0)
        (.object 'A')
      = (.ok (), ⟨[⟨'A', 2⟩, ⟨'B', 1⟩, ⟨'C', 2⟩], 5⟩) ∧
    (⟨[⟨'A', 2⟩, ⟨'B', 1⟩, ⟨'C', 2⟩], 5⟩ : basic_rle Char).beq
      ⟨[⟨'A', 2⟩, ⟨'B', 1⟩, ⟨'A', 2⟩], 5⟩ = false :=
  ⟨by decide, by decide, by rfl, by rfl, by rfl, by rfl, by decide⟩

/-- C23 fails when the total length of the run list is not a value of the size
type: the scanner adds the run lengths in the size type.  With a 32-bit size
type and the runs `[('A', 4000000000), ('B', 1000000000)]`, both lengths being
values of the size type, index `4200000000` lies in run 1 at offset
`200000000`, but `new_total` wraps to `705032704`, the loop runs to the end of
the store and `scan` returns `(2, 0)`. -/
theorem scan_spec_overflow :
    NoZeroRun [(⟨'A', 4000000000⟩ : rle_pair Char), ⟨'B', 1000000000⟩] ∧
    (∀ r ∈ [(⟨'A', 4000000000⟩ : rle_pair Char), ⟨'B', 1000000000⟩], r.length < 2 ^ 32) ∧
    4200000000 < sumLen [(⟨'A', 4000000000⟩ : rle_pair Char), ⟨'B', 1000000000⟩] ∧
    sumLen ([(⟨'A', 4000000000⟩ : rle_pair Char), ⟨'B', 1000000000⟩].take 1) ≤ 4200000000 ∧
    4200000000 < sumLen ([(⟨'A', 4000000000⟩ : rle_pair Char), ⟨'B', 1000000000⟩].take 2) ∧
    addS 32 4000000000 1000000000 = 705032704 ∧
    (rle_scanner.scan 32 [(⟨'A', 4000000000⟩ : rle_pair Char), ⟨'B', 1000000000⟩] ⟨0, 0⟩
      4200000000).2 = (2, 0) :=
  ⟨by decide, by decide, by decide, by decide, by decide, by decide, by decide⟩

end claimsN
end til
